import Mathlib

/-!
# go-descriptor: path resolution, value sources, fillers and descriptors

A shallow embedding of `types.go` (package `descriptor`).

The package is written against Go's `reflect` library.  The first part of this
file is a model of the fragment of `reflect` that the package calls: types,
kinds, values stored in a heap, and `reflect.Value` handles with their
addressable / read-only flags.  The second part is the translation of
`types.go`, function by function.  Go's `int` is taken to be 64 bits wide.
A panic is an `Except.error`; every function that can touch memory takes the
heap and returns the heap it leaves behind.
-/

namespace GoDescriptor

/-! ## Kinds and types (`reflect.Kind`, `reflect.Type`) -/

/-- The constants `KindInvalid … KindUnsafePointer` of `types.go`, one per `reflect.Kind`. -/
inductive Kind where
  | KindInvalid | KindBool
  | KindInt | KindInt8 | KindInt16 | KindInt32 | KindInt64
  | KindUint | KindUint8 | KindUint16 | KindUint32 | KindUint64 | KindUintptr
  | KindFloat32 | KindFloat64 | KindComplex64 | KindComplex128
  | KindArray | KindChan | KindFunc | KindInterface | KindMap | KindPtr | KindSlice
  | KindString | KindStruct | KindUnsafePointer
  deriving DecidableEq, Repr

open Kind

mutual
/-- A `reflect.Type`: the predeclared types, the composite type literals, the
empty interface, and defined (named) types over them.  Struct fields are not
embedded. -/
inductive GoType where
  | bool | int | int8 | int16 | int32 | int64
  | uint | uint8 | uint16 | uint32 | uint64 | uintptr
  | float32 | float64 | complex64 | complex128
  | string | unsafePointer
  | array (len : Nat) (elem : GoType)
  | chan (elem : GoType)
  | func (signature : String)
  | emptyInterface
  | map (key elem : GoType)
  | ptr (elem : GoType)
  | slice (elem : GoType)
  | struct (fields : Fields)
  | named (name : String) (underlying : GoType)
  deriving DecidableEq, Repr
/-- The field list of a struct type: name, whether the name is exported, type. -/
inductive Fields where
  | nil
  | cons (name : String) (exported : Bool) (typ : GoType) (rest : Fields)
  deriving DecidableEq, Repr
end

/-- The underlying type: a defined type stands for the type it was defined from. -/
def GoType.underlying : GoType → GoType
  | .named _ u => u.underlying
  | t => t

/-- Go's notion of a named type: a predeclared or a defined type. -/
def GoType.isNamed : GoType → Bool
  | .array _ _ | .chan _ | .func _ | .emptyInterface | .map _ _ | .ptr _ | .slice _
  | .struct _ => false
  | _ => true

/-- The kind of a type, `Type.Kind()`. -/
def GoType.kind : GoType → Kind
  | .bool => KindBool
  | .int => KindInt | .int8 => KindInt8 | .int16 => KindInt16
  | .int32 => KindInt32 | .int64 => KindInt64
  | .uint => KindUint | .uint8 => KindUint8 | .uint16 => KindUint16
  | .uint32 => KindUint32 | .uint64 => KindUint64 | .uintptr => KindUintptr
  | .float32 => KindFloat32 | .float64 => KindFloat64
  | .complex64 => KindComplex64 | .complex128 => KindComplex128
  | .string => KindString | .unsafePointer => KindUnsafePointer
  | .array _ _ => KindArray
  | .chan _ => KindChan
  | .func _ => KindFunc
  | .emptyInterface => KindInterface
  | .map _ _ => KindMap
  | .ptr _ => KindPtr
  | .slice _ => KindSlice
  | .struct _ => KindStruct
  | .named _ u => u.kind

/-- The element type, `Type.Elem()`, of an array, chan, map, pointer or slice type. -/
def GoType.Elem : GoType → Option GoType
  | .array _ e | .chan e | .map _ e | .ptr e | .slice e => some e
  | .named _ u => u.Elem
  | _ => none

/-- The key type, `Type.Key()`, of a map type. -/
def GoType.Key : GoType → Option GoType
  | .map k _ => some k
  | .named _ u => u.Key
  | _ => none

/-- The struct fields of a type. -/
def GoType.fields : GoType → Option Fields
  | .struct fs => some fs
  | .named _ u => u.fields
  | _ => none

/-- How many pointer types are stacked on top of a type. -/
def GoType.ptrDepth : GoType → Nat
  | .ptr e => e.ptrDepth + 1
  | .named _ u => u.ptrDepth
  | _ => 0

/-- `V.AssignableTo(T)`: identical types, or identical underlying types with one
of the two not named, or `T` an (empty) interface type. -/
def GoType.AssignableTo (V T : GoType) : Bool :=
  decide (V = T)
    || (decide (V.underlying = T.underlying) && (!V.isNamed || !T.isNamed))
    || decide (T.kind = KindInterface)

/-- Position, exportedness and type of the first field called `name`. -/
def Fields.lookup (name : String) : Fields → Nat → Option (Nat × Bool × GoType)
  | .nil, _ => none
  | .cons n e t rest, i => if n = name then some (i, e, t) else Fields.lookup name rest (i + 1)

/-! ## Values and the heap -/

/-- A reference into the heap: the address of a variable and the path of field
and element positions that leads from the variable to the slot. -/
structure Ref where
  addr : Nat
  sel : List Nat
  deriving DecidableEq, Repr

/-- A slice header: the backing array, the position of element 0 in it, the length. -/
structure SliceHeader where
  data : Ref
  off : Nat
  len : Nat
  deriving DecidableEq, Repr

/-- The contents of a slot.  Integers are kept as mathematical integers; a float
is kept as the IEEE 754 binary64 bit pattern of its value (a `float32` as the
pattern of the same value, which widening keeps exactly) and a complex number as
the patterns of its two parts; pointers, slices and maps refer to the heap; an
interface slot is empty or holds a dynamic type and a value. -/
inductive Val where
  | bool (b : Bool)
  | int (v : Int)
  | uint (v : Nat)
  | float (bits : Nat)
  | complex (re im : Nat)
  | string (s : String)
  | array (elems : List Val)
  | struct (fields : List Val)
  | ptr (target : Option Ref)
  | slice (hdr : Option SliceHeader)
  | map (cell : Option Nat)
  | ifaceNil
  | iface (dyn : GoType) (v : Val)
  | chan (id : Option Nat)
  | func (id : Option Nat)
  | unsafePointer (p : Nat)
  deriving Repr

/-- A Go value of type `interface{}`: absent (`nil`), or a dynamic type with a value. -/
abbrev Object := Option (GoType × Val)

mutual
/-- The zero value of a type. -/
def zero : GoType → Val
  | .bool => .bool false
  | .int | .int8 | .int16 | .int32 | .int64 => .int 0
  | .uint | .uint8 | .uint16 | .uint32 | .uint64 | .uintptr => .uint 0
  | .float32 | .float64 => .float 0
  | .complex64 | .complex128 => .complex 0 0
  | .string => .string ""
  | .unsafePointer => .unsafePointer 0
  | .array n e => .array (List.replicate n (zero e))
  | .chan _ => .chan none
  | .func _ => .func none
  | .emptyInterface => .ifaceNil
  | .map _ _ => .map none
  | .ptr _ => .ptr none
  | .slice _ => .slice none
  | .struct fs => .struct (zeroFields fs)
  | .named _ u => zero u
/-- The zero values of the fields of a struct type. -/
def zeroFields : Fields → List Val
  | .nil => []
  | .cons _ _ t rest => zero t :: zeroFields rest
end

/-- Whether a binary64 bit pattern is a NaN: the exponent bits are all ones and
the fraction is not 0. -/
def isNaN (bits : Nat) : Bool :=
  (bits / 2 ^ 52) % 2 ^ 11 == 2 ^ 11 - 1 && bits % 2 ^ 52 != 0

/-- Go's `==` on two floats given by their bit patterns: a NaN equals nothing,
not even itself; +0 and -0 are equal; any other two floats are equal when
their patterns are. -/
def floatEq (a b : Nat) : Bool :=
  !isNaN a && !isNaN b && (a == b || (a % 2 ^ 63 == 0 && b % 2 ^ 63 == 0))

mutual
/-- Equality of map keys (`==` on the key type). -/
def Val.beq : Val → Val → Bool
  | .bool a, .bool b => a == b
  | .int a, .int b => a == b
  | .uint a, .uint b => a == b
  | .float a, .float b => floatEq a b
  | .complex a b, .complex c d => floatEq a c && floatEq b d
  | .string a, .string b => a == b
  | .array a, .array b => Val.beqList a b
  | .struct a, .struct b => Val.beqList a b
  | .ptr a, .ptr b => a == b
  | .ifaceNil, .ifaceNil => true
  | .iface s a, .iface t b => decide (s = t) && Val.beq a b
  | .chan a, .chan b => a == b
  | .unsafePointer a, .unsafePointer b => a == b
  | _, _ => false
/-- Pointwise equality of two lists of values. -/
def Val.beqList : List Val → List Val → Bool
  | [], [] => true
  | a :: as, b :: bs => Val.beq a b && Val.beqList as bs
  | _, _ => false
end

mutual
/-- Whether a value can be hashed as a map key: it holds no slice, map or func,
directly or inside an interface. -/
def Val.hashable : Val → Bool
  | .slice _ | .map _ | .func _ => false
  | .array es | .struct es => Val.hashableList es
  | .iface _ v => Val.hashable v
  | _ => true
/-- Whether every value of a list can be hashed. -/
def Val.hashableList : List Val → Bool
  | [] => true
  | v :: vs => Val.hashable v && Val.hashableList vs
end

/-- The value found by following field / element positions into a value. -/
def Val.get : Val → List Nat → Option Val
  | v, [] => some v
  | .array es, i :: rest =>
    match es[i]? with
    | some e => Val.get e rest
    | none => none
  | .struct fs, i :: rest =>
    match fs[i]? with
    | some e => Val.get e rest
    | none => none
  | _, _ :: _ => none

/-- The value with the slot at the given positions replaced. -/
def Val.set : Val → List Nat → Val → Option Val
  | _, [], x => some x
  | .array es, i :: rest, x =>
    match es[i]? with
    | some e =>
      match Val.set e rest x with
      | some e1 => some (.array (es.set i e1))
      | none => none
    | none => none
  | .struct fs, i :: rest, x =>
    match fs[i]? with
    | some e =>
      match Val.set e rest x with
      | some e1 => some (.struct (fs.set i e1))
      | none => none
    | none => none
  | _, _ :: _, _ => none

/-- A heap cell: a variable, or the entries of a map. -/
inductive Cell where
  | var (v : Val)
  | map (entries : List (Val × Val))
  deriving Repr

/-- The heap: cell number `a` lives at address `a`. -/
structure Heap where
  cells : List Cell
  deriving Repr

/-- The contents of the slot a reference points to. -/
def Heap.read (h : Heap) (r : Ref) : Option Val :=
  match h.cells[r.addr]? with
  | some (.var v) => v.get r.sel
  | _ => none

/-- The heap with the slot a reference points to overwritten. -/
def Heap.write (h : Heap) (r : Ref) (x : Val) : Option Heap :=
  match h.cells[r.addr]? with
  | some (.var v) =>
    match v.set r.sel x with
    | some v1 => some ⟨h.cells.set r.addr (.var v1)⟩
    | none => none
  | _ => none

/-- A new variable, at the first unused address. -/
def Heap.alloc (h : Heap) (x : Val) : Nat × Heap :=
  (h.cells.length, ⟨h.cells ++ [.var x]⟩)

/-- The entries of the map stored at an address. -/
def Heap.mapEntries (h : Heap) (a : Nat) : Option (List (Val × Val)) :=
  match h.cells[a]? with
  | some (.map es) => some es
  | _ => none

/-- The value stored under a key in a list of map entries. -/
def lookupKey (k : Val) : List (Val × Val) → Option Val
  | [] => none
  | (k1, v) :: rest => if Val.beq k1 k then some v else lookupKey k rest

/-- The bytes of a string (its UTF-8 encoding). -/
def goBytes (s : String) : List Nat :=
  (s.data.flatMap String.utf8EncodeChar).map UInt8.toNat

/-- Conversion of an integer to Go's 64-bit `int`, by wrap-around. -/
def wrapInt (x : Int) : Int :=
  (x + 2 ^ 63) % 2 ^ 64 - 2 ^ 63

/-- The value stored when a value of type `src` is assigned to a slot of type
`dst`: a slot of interface type records the dynamic type. -/
def assignVal (src dst : GoType) (x : Val) : Val :=
  if dst.kind = KindInterface ∧ src.kind ≠ KindInterface then .iface src x else x

/-! ## Panics -/

/-- Why a run stopped. -/
inductive Panic where
  /-- A `reflect` method was called on a `Value` it does not accept (`*reflect.ValueError`
  and the other panics raised by package `reflect`). -/
  | valueError
  /-- A method was called on a nil interface value. -/
  | nilDereference
  /-- A map was indexed with a key that cannot be hashed. -/
  | unhashableKey
  /-- A dangling reference or a slot whose contents do not fit its type: no Go
  program reaches such a state. -/
  | fault
  deriving DecidableEq, Repr

namespace reflect

/-! ## `reflect.Value` -/

/-- Where the value behind a `reflect.Value` lives: in the handle itself (a
copy, not addressable) or in a heap slot (addressable). -/
inductive Loc where
  | imm (v : Val)
  | ref (r : Ref)
  deriving Repr

/-- A `reflect.Value`: the zero Value, or a type, a location, and the read-only
flag set on values reached through unexported struct fields. -/
inductive Value where
  | zero
  | mk (typ : GoType) (loc : Loc) (ro : Bool)
  deriving Repr

/-- `reflect.ValueOf(i)`. -/
def ValueOf : Object → Value
  | none => .zero
  | some (t, x) => .mk t (.imm x) false

/-- `reflect.New(typ)`: a pointer to a new zero variable of the type. -/
def New (typ : GoType) (h : Heap) : Value × Heap :=
  ((.mk (.ptr typ) (.imm (.ptr (some ⟨(h.alloc (zero typ)).1, []⟩))) false), (h.alloc (zero typ)).2)

/-- `v.IsValid()`. -/
def Value.IsValid : Value → Bool
  | .zero => false
  | .mk _ _ _ => true

/-- `v.Kind()`. -/
def Value.Kind : Value → GoDescriptor.Kind
  | .zero => KindInvalid
  | .mk t _ _ => t.kind

/-- `v.Type()`; panics on the zero Value. -/
def Value.Type : Value → Except Panic GoType
  | .zero => .error .valueError
  | .mk t _ _ => .ok t

/-- `v.CanSet()`: addressable and not read-only. -/
def Value.CanSet : Value → Bool
  | .mk _ (.ref _) false => true
  | _ => false

/-- `v.CanInterface()`; panics on the zero Value. -/
def Value.CanInterface : Value → Except Panic Bool
  | .zero => .error .valueError
  | .mk _ _ ro => .ok (!ro)

/-- The contents of the slot behind a Value. -/
def Value.load (v : Value) (h : Heap) : Except Panic Val :=
  match v with
  | .zero => .error .valueError
  | .mk _ (.imm x) _ => .ok x
  | .mk _ (.ref r) _ =>
    match h.read r with
    | some x => .ok x
    | none => .error .fault

/-- `v.Interface()`: the contents as an `interface{}` (a copy). -/
def Value.Interface (v : Value) (h : Heap) : Except Panic Object :=
  match v with
  | .zero => .error .valueError
  | .mk t _ ro =>
    if ro then .error .valueError
    else
      match v.load h with
      | .error e => .error e
      | .ok x =>
        if t.kind = KindInterface then
          match x with
          | .ifaceNil => .ok none
          | .iface d y => .ok (some (d, y))
          | _ => .error .fault
        else .ok (some (t, x))

/-- `v.Set(x)`. -/
def Value.Set (v x : Value) (h : Heap) : Except Panic Heap :=
  match v, x with
  | .mk t (.ref r) false, .mk xt _ false =>
    if xt.AssignableTo t then
      match x.load h with
      | .error e => .error e
      | .ok xv =>
        match h.write r (assignVal xt t xv) with
        | some h1 => .ok h1
        | none => .error .fault
    else .error .valueError
  | _, _ => .error .valueError

/-- `v.IsNil()`. -/
def Value.IsNil (v : Value) (h : Heap) : Except Panic Bool :=
  match v.load h with
  | .error e => .error e
  | .ok (.ptr p) => .ok p.isNone
  | .ok (.slice s) => .ok s.isNone
  | .ok (.map m) => .ok m.isNone
  | .ok (.chan c) => .ok c.isNone
  | .ok (.func f) => .ok f.isNone
  | .ok .ifaceNil => .ok true
  | .ok (.iface _ _) => .ok false
  | .ok (.unsafePointer p) => .ok (p == 0)
  | .ok _ => .error .valueError

/-- `v.Elem()`: the variable a pointer points to (addressable), or the value an
interface holds; the zero Value for a nil pointer or an empty interface. -/
def Value.Elem (v : Value) (h : Heap) : Except Panic Value :=
  match v with
  | .zero => .error .valueError
  | .mk t _ ro =>
    match t.kind with
    | KindPtr =>
      match v.load h, t.Elem with
      | .error e, _ => .error e
      | .ok (.ptr none), _ => .ok .zero
      | .ok (.ptr (some r)), some e => .ok (.mk e (.ref r) ro)
      | _, _ => .error .fault
    | KindInterface =>
      match v.load h with
      | .error e => .error e
      | .ok .ifaceNil => .ok .zero
      | .ok (.iface d x) => .ok (.mk d (.imm x) ro)
      | .ok _ => .error .fault
    | _ => .error .valueError

/-- The number of elements of an array (those it holds), of a slice (the length
in its header, 0 for a nil slice) or of bytes of a string. -/
def Value.seqLen (v : Value) (h : Heap) : Except Panic Nat :=
  match v with
  | .zero => .error .valueError
  | .mk t _ _ =>
    match t.kind with
    | KindArray =>
      match v.load h with
      | .error e => .error e
      | .ok (.array es) => .ok es.length
      | .ok _ => .error .fault
    | KindSlice =>
      match v.load h with
      | .error e => .error e
      | .ok (.slice none) => .ok 0
      | .ok (.slice (some s)) => .ok s.len
      | .ok _ => .error .fault
    | KindString =>
      match v.load h with
      | .error e => .error e
      | .ok (.string s) => .ok (goBytes s).length
      | .ok _ => .error .fault
    | _ => .error .valueError

/-- `v.Len()` for an array, a slice or a string. -/
def Value.Len (v : Value) (h : Heap) : Except Panic Int :=
  match v.seqLen h with
  | .error e => .error e
  | .ok n => .ok (n : Int)

/-- `v.Index(i)`: element `i` of an array (addressable when the array is), of a
slice (always addressable) or byte `i` of a string (a copy); panics when `i` is
out of range. -/
def Value.Index (v : Value) (i : Int) (h : Heap) : Except Panic Value :=
  match v with
  | .zero => .error .valueError
  | .mk t loc ro =>
    match t.kind with
    | KindArray =>
      match v.load h, t.Elem with
      | .error e, _ => .error e
      | .ok (.array es), some e =>
        if i < 0 ∨ (es.length : Int) ≤ i then .error .valueError
        else
          match loc, es[i.toNat]? with
          | .ref r, _ => .ok (.mk e (.ref ⟨r.addr, r.sel ++ [i.toNat]⟩) ro)
          | .imm _, some x => .ok (.mk e (.imm x) ro)
          | .imm _, none => .error .fault
      | _, _ => .error .fault
    | KindSlice =>
      match v.load h, t.Elem with
      | .error e, _ => .error e
      | .ok (.slice none), some _ => .error .valueError
      | .ok (.slice (some s)), some e =>
        if i < 0 ∨ (s.len : Int) ≤ i then .error .valueError
        else .ok (.mk e (.ref ⟨s.data.addr, s.data.sel ++ [s.off + i.toNat]⟩) ro)
      | _, _ => .error .fault
    | KindString =>
      match v.load h with
      | .error e => .error e
      | .ok (.string s) =>
        match (if i < 0 then none else (goBytes s)[i.toNat]?) with
        | some b => .ok (.mk .uint8 (.imm (.uint b)) ro)
        | none => .error .valueError
      | .ok _ => .error .fault
    | _ => .error .valueError

/-- `v.MapIndex(key)`: a copy of the value stored under the key, or the zero
Value when the key is absent or the map is nil. -/
def Value.MapIndex (v key : Value) (h : Heap) : Except Panic Value :=
  match v, key with
  | .mk t _ ro, .mk kt _ kro =>
    match t.kind, t.Key, t.Elem with
    | KindMap, some K, some E =>
      if kt.AssignableTo K then
        match v.load h, key.load h with
        | .error e, _ => .error e
        | _, .error e => .error e
        | .ok (.map m), .ok kv =>
          if (assignVal kt K kv).hashable then
            match m with
            | none => .ok .zero
            | some a =>
              match h.mapEntries a with
              | none => .error .fault
              | some es =>
                match lookupKey (assignVal kt K kv) es with
                | none => .ok .zero
                | some x => .ok (.mk E (.imm x) (ro || kro))
          else .error .unhashableKey
        | _, _ => .error .fault
      else .error .valueError
    | _, _, _ => .error .valueError
  | _, _ => .error .valueError

/-- `v.FieldByName(name)`: the field of a struct with that name (addressable
when the struct is, read-only when the field is unexported), or the zero Value
when there is none. -/
def Value.FieldByName (v : Value) (name : String) : Except Panic Value :=
  match v with
  | .zero => .error .valueError
  | .mk t loc ro =>
    match t.kind, t.fields with
    | KindStruct, some fs =>
      if name = "" then .ok .zero
      else
        match fs.lookup name 0 with
        | none => .ok .zero
        | some (i, exported, ft) =>
          match loc with
          | .ref r => .ok (.mk ft (.ref ⟨r.addr, r.sel ++ [i]⟩) (ro || !exported))
          | .imm (.struct xs) =>
            match xs[i]? with
            | some x => .ok (.mk ft (.imm x) (ro || !exported))
            | none => .error .fault
          | .imm _ => .error .fault
    | _, _ => .error .valueError

/-- `v.Int()` for a value of a signed integer kind. -/
def Value.Int (v : Value) (h : Heap) : Except Panic Int :=
  match v.Kind with
  | KindInt | KindInt8 | KindInt16 | KindInt32 | KindInt64 =>
    match v.load h with
    | .error e => .error e
    | .ok (.int x) => .ok x
    | .ok _ => .error .fault
  | _ => .error .valueError

/-- `v.Uint()` for a value of an unsigned integer kind. -/
def Value.Uint (v : Value) (h : Heap) : Except Panic Nat :=
  match v.Kind with
  | KindUint | KindUintptr | KindUint8 | KindUint16 | KindUint32 | KindUint64 =>
    match v.load h with
    | .error e => .error e
    | .ok (.uint x) => .ok x
    | .ok _ => .error .fault
  | _ => .error .valueError

/-- `v.String()` for a value of string kind. -/
def Value.String (v : Value) (h : Heap) : Except Panic String :=
  match v.Kind with
  | KindString =>
    match v.load h with
    | .error e => .error e
    | .ok (.string s) => .ok s
    | .ok _ => .error .fault
  | _ => .error .valueError

end reflect

open reflect (Value)

/-! ## The types of `types.go`

Each interface of the package is the closed sum of the implementations the
package declares, plus `nil` for the nil interface value.  A nil slice and an
empty slice are the same list; a nil function is `none`.  Conversion functions
supplied by the caller are total functions of the candidate. -/

/-- The interface `ObjectPath`: `RootAsPath` or a `Path` of index tokens. -/
inductive ObjectPath where
  | nil
  | RootAsPath
  | Path (op : List Object)

/-- The interface `AssignableKind`: `Kind`, `ConvertibleKind`,
`AssignmentFunction` or `AssignableKinds`. -/
inductive AssignableKind where
  | nil
  | Kind (k : GoDescriptor.Kind)
  | ConvertibleKind (Kind : GoDescriptor.Kind) (ConvertFunction : Option (Object → Object × Bool))
  | AssignmentFunction (af : Option (Object → Object × Bool))
  | AssignableKinds (ak : List AssignableKind)

/-- The interface `ValueSource`: `ObjectAtPath`, `DefaultValue` or `ValueSources`. -/
inductive ValueSource where
  | nil
  | ObjectAtPath (ObjectPath : ObjectPath) (AssignableKind : AssignableKind)
  | DefaultValue (Value : Object)
  | ValueSources (vs : List ValueSource)

/-- The interface `Filler`: `ObjectFiller` or `Fillers`. -/
inductive Filler where
  | nil
  | ObjectFiller (ObjectPath : ObjectPath) (ValueSource : ValueSource)
  | Fillers (f : List Filler)

/-- The struct `Descriptor`; `Type_` is the field `Type`, absent when nil. -/
structure Descriptor where
  Type_ : Option GoType
  Filler : Filler

/-- The result of a function that may panic and may change the heap. -/
abbrev Run (α : Type) := Except Panic (α × Heap)

/-! ## The functions of `types.go` -/

/-- `kindOfValue` (types.go:300). -/
def kindOfValue (v : Value) : Kind :=
  v.Kind

/-- `KindOf` (types.go:296). -/
def KindOf (i : Object) : Kind :=
  kindOfValue (reflect.ValueOf i)

/-- The inner switch of `valueAtIndex` (types.go:311): the index token as an
`int`, `int(index.Int())` for the signed kinds and `int(index.Uint())` for the
unsigned ones. -/
def intOfIndex (index : Value) (h : Heap) : Except Panic Int :=
  match kindOfValue index with
  | KindInt | KindInt8 | KindInt16 | KindInt32 | KindInt64 =>
    match index.Int h with
    | .error e => .error e
    | .ok x => .ok (wrapInt x)
  | KindUint | KindUintptr | KindUint8 | KindUint16 | KindUint32 | KindUint64 =>
    match index.Uint h with
    | .error e => .error e
    | .ok x => .ok (wrapInt x)
  | _ => .ok 0

/-- `valueAtIndex` (types.go:304) with a bound on the number of nested calls. -/
def valueAtIndexAux : Nat → Value → Value → Heap → Run (Value × Bool)
  | 0, _, _, _ => .error .fault
  | fuel + 1, index, collection, h =>
    match kindOfValue collection with
    | KindArray | KindSlice | KindString =>
      match kindOfValue index with
      | KindInt | KindInt8 | KindInt16 | KindInt32 | KindInt64
      | KindUint | KindUintptr | KindUint8 | KindUint16 | KindUint32 | KindUint64 =>
        match intOfIndex index h with
        | .error e => .error e
        | .ok i =>
          match collection.Len h with
          | .error e => .error e
          | .ok length =>
            if length < 1 ∨ i < 0 ∨ i ≥ length then .ok ((.zero, false), h)
            else
              match collection.Index i h with
              | .error e => .error e
              | .ok v => .ok ((v, true), h)
      | _ => .ok ((.zero, false), h)
    | KindMap =>
      match index.Type, collection.Type with
      | .error e, _ => .error e
      | _, .error e => .error e
      | .ok it, .ok ct =>
        match ct.Key with
        | none => .error .valueError
        | some kt =>
          if !it.AssignableTo kt then .ok ((.zero, false), h)
          else
            match collection.MapIndex index h with
            | .error e => .error e
            | .ok val =>
              if !val.IsValid then .ok ((.zero, false), h)
              else .ok ((val, true), h)
    | KindPtr =>
      match collection.IsNil h with
      | .error e => .error e
      | .ok true =>
        if !collection.CanSet then .ok ((.zero, false), h)
        else
          match collection.Type with
          | .error e => .error e
          | .ok ct =>
            match ct.Elem with
            | none => .error .valueError
            | some et =>
              match collection.Set (reflect.New et h).1 (reflect.New et h).2 with
              | .error e => .error e
              | .ok h1 =>
                match collection.Elem h1 with
                | .error e => .error e
                | .ok elem => valueAtIndexAux fuel index elem h1
      | .ok false =>
        match collection.Elem h with
        | .error e => .error e
        | .ok elem => valueAtIndexAux fuel index elem h
    | KindStruct =>
      match kindOfValue index with
      | KindString =>
        match index.String h with
        | .error e => .error e
        | .ok name =>
          match collection.FieldByName name with
          | .error e => .error e
          | .ok val =>
            if !val.IsValid then .ok ((.zero, false), h)
            else .ok ((val, true), h)
      | _ => .ok ((.zero, false), h)
    | _ => .ok ((.zero, false), h)

/-- The number of pointer types stacked on top of the type of a Value. -/
def ptrDepthOf : Value → Nat
  | .zero => 0
  | .mk t _ _ => t.ptrDepth

/-- `valueAtIndex` (types.go:304).  Each nested call goes one pointer down the
type of `collection`, so one call more than its pointer depth is enough. -/
def valueAtIndex (index collection : Value) (h : Heap) : Run (Value × Bool) :=
  valueAtIndexAux (ptrDepthOf collection + 1) index collection h

/-- `RootAsPath.FetchValue` (types.go:165). -/
def RootAsPath.FetchValue (root : Value) : Value × Bool :=
  (root, true)

/-- `RootAsPath.FetchObject` (types.go:168). -/
def RootAsPath.FetchObject (root : Object) : Object × Bool :=
  (root, true)

/-- The loop of `Path.FetchValue` (types.go:172): `v` is the value reached so far. -/
def Path.FetchValue : List Object → Value → Heap → Run (Value × Bool)
  | [], v, h => .ok ((v, true), h)
  | index :: rest, v, h =>
    match valueAtIndex (reflect.ValueOf index) v h with
    | .error e => .error e
    | .ok ((v1, ok), h1) =>
      if !ok then .ok ((.zero, false), h1)
      else Path.FetchValue rest v1 h1

/-- `Path.FetchObject` (types.go:182). -/
def Path.FetchObject (op : List Object) (root : Object) (h : Heap) : Run (Object × Bool) :=
  match Path.FetchValue op (reflect.ValueOf root) h with
  | .error e => .error e
  | .ok ((v, ok), h1) =>
    if !ok then .ok ((none, false), h1)
    else
      match v.CanInterface with
      | .error e => .error e
      | .ok false => .ok ((none, false), h1)
      | .ok true =>
        match v.Interface h1 with
        | .error e => .error e
        | .ok object => .ok ((object, true), h1)

/-- The method `FetchValue` of the interface `ObjectPath`. -/
def ObjectPath.FetchValue : ObjectPath → Value → Heap → Run (Value × Bool)
  | .nil, _, _ => .error .nilDereference
  | .RootAsPath, root, h => .ok (RootAsPath.FetchValue root, h)
  | .Path op, root, h => Path.FetchValue op root h

/-- The method `FetchObject` of the interface `ObjectPath`. -/
def ObjectPath.FetchObject : ObjectPath → Object → Heap → Run (Object × Bool)
  | .nil, _, _ => .error .nilDereference
  | .RootAsPath, root, h => .ok (RootAsPath.FetchObject root, h)
  | .Path op, root, h => Path.FetchObject op root h

/-- The variable `Root` (types.go:102). -/
def Root : ObjectPath := .RootAsPath

/-- The default of an unset path (types.go:143 and 241):
`if objectPath == nil { objectPath = Root }`. -/
def ObjectPath.orRoot : ObjectPath → ObjectPath
  | .nil => Root
  | objectPath => objectPath

/-- The method `IsAssignable` of the interface `AssignableKind` (types.go:193,
200, 210, 220). -/
def AssignableKind.IsAssignable : AssignableKind → Object → Except Panic Bool
  | .nil, _ => .error .nilDereference
  | .Kind k, i => .ok (decide (KindOf i = k))
  | .ConvertibleKind k _, i => .ok (decide (KindOf i = k))
  | .AssignmentFunction af, _ => .ok af.isSome
  | .AssignableKinds ak, _ => .ok (decide (ak.length > 0))

mutual
/-- The method `AssignObject` of the interface `AssignableKind` (types.go:196,
203, 213, 223). -/
def AssignableKind.AssignObject : AssignableKind → Object → Except Panic (Object × Bool)
  | .nil, _ => .error .nilDereference
  | .Kind _, i => .ok (i, true)
  | .ConvertibleKind _ none, _ => .ok (none, false)
  | .ConvertibleKind _ (some ConvertFunction), i => .ok (ConvertFunction i)
  | .AssignmentFunction none, _ => .ok (none, false)
  | .AssignmentFunction (some af), i => .ok (af i)
  | .AssignableKinds ak, i => AssignableKinds.AssignObject.loop ak i none
/-- The loop of `AssignableKinds.AssignObject` (types.go:224); `object` is the
named result, which the loop passes to each member. -/
def AssignableKinds.AssignObject.loop :
    List AssignableKind → Object → Object → Except Panic (Object × Bool)
  | [], _, _ => .ok (none, false)
  | .nil :: rest, i, object => AssignableKinds.AssignObject.loop rest i object
  | assignableKind :: rest, i, object =>
    match assignableKind.IsAssignable i with
    | .error e => .error e
    | .ok false => AssignableKinds.AssignObject.loop rest i object
    | .ok true =>
      match AssignableKind.AssignObject assignableKind object with
      | .error e => .error e
      | .ok (object1, true) => .ok (object1, true)
      | .ok (object1, false) => AssignableKinds.AssignObject.loop rest i object1
end

/-- `AssignableKinds.AssignObject` (types.go:223). -/
def AssignableKinds.AssignObject (ak : List AssignableKind) (i : Object) :
    Except Panic (Object × Bool) :=
  AssignableKinds.AssignObject.loop ak i none

/-- `ObjectAtPath.ExtractObject` (types.go:239); the receiver `oap` is given by
its fields `ObjectPath` and `AssignableKind`. -/
def ObjectAtPath.ExtractObject (oapObjectPath : ObjectPath) (oapAssignableKind : AssignableKind)
    (data : Object) (h : Heap) : Run (Object × Bool) :=
  match oapObjectPath.orRoot.FetchObject data h with
  | .error e => .error e
  | .ok ((ofd, ok), h1) =>
    if !ok then .ok ((none, false), h1)
    else
      match oapAssignableKind with
      | .nil => .ok ((none, false), h1)
      | assignableKind =>
        match assignableKind.IsAssignable ofd with
        | .error e => .error e
        | .ok false => .ok ((none, false), h1)
        | .ok true =>
          match assignableKind.AssignObject ofd with
          | .error e => .error e
          | .ok (_, false) => .ok ((none, false), h1)
          | .ok (assignedObject, true) => .ok ((assignedObject, true), h1)

/-- `DefaultValue.ExtractObject` (types.go:261). -/
def DefaultValue.ExtractObject (dvValue : Object) (_data : Object) : Object × Bool :=
  (dvValue, true)

mutual
/-- The method `ExtractObject` of the interface `ValueSource`. -/
def ValueSource.ExtractObject : ValueSource → Object → Heap → Run (Object × Bool)
  | .nil, _, _ => .error .nilDereference
  | .ObjectAtPath p ak, data, h => ObjectAtPath.ExtractObject p ak data h
  | .DefaultValue v, data, h => .ok (DefaultValue.ExtractObject v data, h)
  | .ValueSources vs, data, h => ValueSources.ExtractObject vs data h
/-- `ValueSources.ExtractObject` (types.go:265). -/
def ValueSources.ExtractObject : List ValueSource → Object → Heap → Run (Object × Bool)
  | [], _, h => .ok ((none, false), h)
  | .nil :: rest, data, h => ValueSources.ExtractObject rest data h
  | valueSource :: rest, data, h =>
    match ValueSource.ExtractObject valueSource data h with
    | .error e => .error e
    | .ok ((object, true), h1) => .ok ((object, true), h1)
    | .ok ((_, false), h1) => ValueSources.ExtractObject rest data h1
end

/-- `ObjectFiller.Fill` (types.go:141); the receiver `of` is given by its fields
`ObjectPath` and `ValueSource`. -/
def ObjectFiller.Fill (ofObjectPath : ObjectPath) (ofValueSource : ValueSource)
    (value : Value) (data : Object) (h : Heap) : Run (Int × Int) :=
  match ofObjectPath.orRoot.FetchValue value h with
  | .error e => .error e
  | .ok ((fetchedValue, ok), h1) =>
    if !ok then .ok ((0, 1), h1)
    else if !fetchedValue.CanSet then .ok ((0, 1), h1)
    else
      match ofValueSource.ExtractObject data h1 with
      | .error e => .error e
      | .ok ((extractedObject, ok), h2) =>
        if !ok then .ok ((0, 1), h2)
        else
          match (reflect.ValueOf extractedObject).Type, fetchedValue.Type with
          | .error e, _ => .error e
          | _, .error e => .error e
          | .ok et, .ok ft =>
            if !et.AssignableTo ft then .ok ((0, 1), h2)
            else
              match fetchedValue.Set (reflect.ValueOf extractedObject) h2 with
              | .error e => .error e
              | .ok h3 => .ok ((1, 0), h3)

mutual
/-- The method `Fill` of the interface `Filler`. -/
def Filler.Fill : Filler → Value → Object → Heap → Run (Int × Int)
  | .nil, _, _, _ => .error .nilDereference
  | .ObjectFiller p s, value, data, h => ObjectFiller.Fill p s value data h
  | .Fillers f, value, data, h => Fillers.Fill.loop f value data 0 0 h
/-- The loop of `Fillers.Fill` (types.go:130); `success` and `failure` are the
named results. -/
def Fillers.Fill.loop : List Filler → Value → Object → Int → Int → Heap → Run (Int × Int)
  | [], _, _, success, failure, h => .ok ((success, failure), h)
  | .nil :: rest, value, data, success, failure, h =>
    Fillers.Fill.loop rest value data success failure h
  | filler :: rest, value, data, success, failure, h =>
    match Filler.Fill filler value data h with
    | .error e => .error e
    | .ok ((s, f), h1) =>
      Fillers.Fill.loop rest value data (wrapInt (success + s)) (wrapInt (failure + f)) h1
end

/-- `Fillers.Fill` (types.go:127). -/
def Fillers.Fill (f : List Filler) (value : Value) (data : Object) (h : Heap) : Run (Int × Int) :=
  Fillers.Fill.loop f value data 0 0 h

/-- `Descriptor.Describe` (types.go:104); the receiver is a pointer, `none` when nil. -/
def Descriptor.Describe (d : Option Descriptor) (data : Object) (h : Heap) :
    Run (Object × Int × Int) :=
  match d with
  | none => .ok ((none, 0, 0x7fff), h)
  | some ⟨none, _⟩ => .ok ((none, 0, 0x7fff), h)
  | some ⟨some _, .nil⟩ => .ok ((none, 0, 0x7fff), h)
  | some ⟨some t, filler⟩ =>
    match (reflect.New t h).1.Elem (reflect.New t h).2 with
    | .error e => .error e
    | .ok newValue =>
      match filler.Fill newValue data (reflect.New t h).2 with
      | .error e => .error e
      | .ok ((success, failure), h1) =>
        match newValue.CanInterface with
        | .error e => .error e
        | .ok false => .ok ((none, 0, 0x7fff), h1)
        | .ok true =>
          match newValue.Interface h1 with
          | .error e => .error e
          | .ok object => .ok ((object, success, failure), h1)

/-- `Descriptor.GetPrototype` (types.go:116). -/
def Descriptor.GetPrototype (d : Option Descriptor) (h : Heap) : Run Object :=
  match d with
  | none => .ok (none, h)
  | some ⟨none, _⟩ => .ok (none, h)
  | some ⟨some t, _⟩ =>
    match (reflect.New t h).1.Elem (reflect.New t h).2 with
    | .error e => .error e
    | .ok e =>
      match e.CanInterface with
      | .error err => .error err
      | .ok false => .ok (none, (reflect.New t h).2)
      | .ok true =>
        match e.Interface (reflect.New t h).2 with
        | .error err => .error err
        | .ok object => .ok (object, (reflect.New t h).2)

/-! ## Reference definitions for the statements below -/

/-- The counts returned by the non-nil members of a list of fillers, each
invoked in list order on the same target and data (a nil member is skipped and
adds nothing), and the heap the last of them leaves. -/
def memberCounts : List Filler → Value → Object → Heap → Run (List (Int × Int))
  | [], _, _, h => .ok ([], h)
  | .nil :: rest, value, data, h => memberCounts rest value data h
  | filler :: rest, value, data, h =>
    match filler.Fill value data h with
    | .error e => .error e
    | .ok (c, h1) =>
      match memberCounts rest value data h1 with
      | .error e => .error e
      | .ok (cs, h2) => .ok (c :: cs, h2)

/-- Whether a filler is the nil interface value. -/
def Filler.isNil : Filler → Bool
  | .nil => true
  | _ => false

/-- Every non-nil member of a list of value sources fails (returns `ok = false`)
when the members are invoked in list order on the same data; the result is the
heap the last of them leaves. -/
def allFail : List ValueSource → Object → Heap → Option Heap
  | [], _, h => some h
  | .nil :: rest, data, h => allFail rest data h
  | valueSource :: rest, data, h =>
    match valueSource.ExtractObject data h with
    | .ok ((_, false), h1) => allFail rest data h1
    | _ => none

/-- The heap `h1` keeps every variable of `h` (possibly with new contents) and
every map of `h`: nothing is ever freed. -/
def Heap.Grows (h h1 : Heap) : Prop :=
  h.cells.length ≤ h1.cells.length ∧
    ∀ (a : Nat) (v : Val), h.cells[a]? = some (Cell.var v) → ∃ v1, h1.cells[a]? = some (Cell.var v1)

/-- The signed integer kinds. -/
def Kind.isSigned : Kind → Bool
  | KindInt | KindInt8 | KindInt16 | KindInt32 | KindInt64 => true
  | _ => false

/-- The unsigned integer kinds. -/
def Kind.isUnsigned : Kind → Bool
  | KindUint | KindUintptr | KindUint8 | KindUint16 | KindUint32 | KindUint64 => true
  | _ => false

/-- The kinds indexed by position: array, slice and string. -/
def Kind.isSequence : Kind → Bool
  | KindArray | KindSlice | KindString => true
  | _ => false

/-- The entries of the map a map value refers to; a nil map has none. -/
def entriesOf (h : Heap) : Option Nat → Option (List (Val × Val))
  | none => some []
  | some a => h.mapEntries a

/-- The kinds `valueAtIndex` can step into: array, slice, string, map, pointer
and struct. -/
def Kind.isContainer : Kind → Bool
  | KindArray | KindSlice | KindString | KindMap | KindPtr | KindStruct => true
  | _ => false

mutual
/-- The number of single object fillers in a filler: a nil entry counts for
none, a `Fillers` list for those of its members. -/
def Filler.leaves : Filler → Nat
  | .nil => 0
  | .ObjectFiller _ _ => 1
  | .Fillers f => Fillers.leaves f
/-- The number of single object fillers in a list of fillers. -/
def Fillers.leaves : List Filler → Nat
  | [] => 0
  | filler :: rest => Filler.leaves filler + Fillers.leaves rest
end

/-- The kind found under the pointers stacked on top of a type. -/
def GoType.derefKind : GoType → Kind
  | .ptr e => e.derefKind
  | .named _ u => u.derefKind
  | t => t.kind

/-- The kind found under the pointers stacked on top of the type of a Value. -/
def derefKindOf : Value → Kind
  | .zero => KindInvalid
  | .mk t _ _ => t.derefKind

/-- Whether a slot content has no parts: it is neither an array nor a struct. -/
def Val.isLeaf : Val → Bool
  | .array _ | .struct _ => false
  | _ => true

/-- Whether a slot content is nil: the contents of which `IsNil` reports true. -/
def Val.isNil : Val → Bool
  | .ptr none | .slice none | .map none | .chan none | .func none | .ifaceNil => true
  | .unsafePointer p => p == 0
  | _ => false

/-- Whether a slot content is a non-nil pointer, slice or map. -/
def Val.isRef : Val → Bool
  | .ptr (some _) | .slice (some _) | .map (some _) => true
  | _ => false

mutual
/-- Whether a slot content holds no non-nil pointer, slice or map, in any of
its fields and elements. -/
def Val.noRefs : Val → Bool
  | .ptr (some _) | .slice (some _) | .map (some _) => false
  | .array es | .struct es => Val.noRefsList es
  | _ => true
/-- Whether no value of a list holds a non-nil pointer, slice or map. -/
def Val.noRefsList : List Val → Bool
  | [] => true
  | v :: vs => Val.noRefs v && Val.noRefsList vs
end

/-- The outline of a slot content: array or struct, and the number of parts;
nothing for a content without parts. -/
def Val.shapeOf : Val → Option (Bool × Nat)
  | .array es => some (true, es.length)
  | .struct fs => some (false, fs.length)
  | _ => none

/-- Whether slot `q` is slot `d` or a part of it. -/
def Ref.inside (q d : Ref) : Bool :=
  decide (q.addr = d.addr) && d.sel.isPrefixOf q.sel

/-- Whether two slots share storage: one is the other or a part of it. -/
def Ref.overlaps (q d : Ref) : Bool :=
  q.inside d || d.inside q

/-- The slot behind an addressable Value. -/
def refOf : Value → Option Ref
  | .mk _ (.ref r) _ => some r
  | _ => none

/-- The heap `h1` is `h` after allocations and after nil slots were given a
pointer to a newly allocated variable: map cells are as they were, every slot
keeps its outline, and a slot without parts holds what it held, or held nil and
now points to a variable that did not exist in `h`. -/
def Heap.Vivifies (h h1 : Heap) : Prop :=
  h.cells.length ≤ h1.cells.length ∧
  (∀ a es, h.mapEntries a = some es → h1.mapEntries a = some es) ∧
  (∀ q v, h.read q = some v → ∃ v1, h1.read q = some v1 ∧ v1.shapeOf = v.shapeOf) ∧
  (∀ q v, h.read q = some v → v.isLeaf = true →
    h1.read q = some v ∨
      (v.isNil = true ∧ ∃ a, h.cells.length ≤ a ∧ h1.read q = some (.ptr (some ⟨a, []⟩))))

/-- The heap `h1` keeps what path resolution reads in `h`, except inside slot
`d`: non-nil pointers, slices and maps are where they were, map cells are as they
were, and every slot outside `d` keeps its outline. -/
def Heap.KeepsPaths (d : Ref) (h h1 : Heap) : Prop :=
  (∀ q v, h.read q = some v → v.isRef = true → h1.read q = some v) ∧
  (∀ a es, h.mapEntries a = some es → h1.mapEntries a = some es) ∧
  (∀ q v, h.read q = some v → q.inside d = false →
    ∃ v1, h1.read q = some v1 ∧ v1.shapeOf = v.shapeOf)

/-- What a slot of declared type `ft` shows, read through `Interface`, after a
candidate of type `et` with contents `x` was assigned to it: the candidate
itself when the slot is of interface kind, and the contents at the slot's own
type otherwise. -/
def storedAs (ft et : GoType) (x : Val) : Object :=
  some (if ft.kind = KindInterface then et else ft, x)

/-! ## Arithmetic of `int` -/

theorem wrapInt_of_range (x : Int) (h1 : -2 ^ 63 ≤ x) (h2 : x < 2 ^ 63) : wrapInt x = x := by
  unfold wrapInt; omega

theorem wrapInt_add_wrapInt (a b : Int) : wrapInt (wrapInt a + b) = wrapInt (a + b) := by
  unfold wrapInt; omega

theorem wrapInt_wrapInt (a : Int) : wrapInt (wrapInt a) = wrapInt a := by
  unfold wrapInt; omega

/-! ## Composite assignable kind -/

/-- C1 (the code departs from the claim): for a composite whose only member is
the direct kind `KindString`, and the candidate string "a" (whose kind is
`KindString`, so the member accepts it), `AssignObject` hands the member the
still-absent named result instead of the candidate and returns `(nil, true)`,
not `("a", true)`. -/
theorem AssignableKinds_AssignObject_offers_result_not_candidate :
    KindOf (some (.string, .string "a")) = KindString ∧
      AssignableKinds.AssignObject [.Kind KindString] (some (.string, .string "a"))
        = .ok (none, true) :=
  ⟨rfl, rfl⟩

/-! ## Composite filler -/

theorem Fillers_Fill_loop_eq (f : List Filler) (value : Value) (data : Object) :
    ∀ (success failure : Int) (h : Heap),
      wrapInt success = success → wrapInt failure = failure →
      Fillers.Fill.loop f value data success failure h =
        match memberCounts f value data h with
        | .error e => .error e
        | .ok (cs, h1) =>
          .ok ((wrapInt (success + (cs.map Prod.fst).sum),
                wrapInt (failure + (cs.map Prod.snd).sum)), h1) := by
  induction f with
  | nil =>
    intro success failure h hs hf
    simp [Fillers.Fill.loop, memberCounts, hs, hf]
  | cons m rest ih =>
    intro success failure h hs hf
    cases m with
    | nil => simpa [Fillers.Fill.loop, memberCounts] using ih success failure h hs hf
    | ObjectFiller p s =>
      simp only [Fillers.Fill.loop, memberCounts]
      cases hm : Filler.Fill (.ObjectFiller p s) value data h with
      | error e => rfl
      | ok r =>
        obtain ⟨⟨s1, f1⟩, h1⟩ := r
        simp only []
        rw [ih _ _ h1 (wrapInt_wrapInt _) (wrapInt_wrapInt _)]
        cases memberCounts rest value data h1 with
        | error e => rfl
        | ok r2 =>
          obtain ⟨cs, h2⟩ := r2
          simp only [List.map_cons, List.sum_cons, wrapInt_add_wrapInt, add_assoc]
    | Fillers fs =>
      simp only [Fillers.Fill.loop, memberCounts]
      cases hm : Filler.Fill (.Fillers fs) value data h with
      | error e => rfl
      | ok r =>
        obtain ⟨⟨s1, f1⟩, h1⟩ := r
        simp only []
        rw [ih _ _ h1 (wrapInt_wrapInt _) (wrapInt_wrapInt _)]
        cases memberCounts rest value data h1 with
        | error e => rfl
        | ok r2 =>
          obtain ⟨cs, h2⟩ := r2
          simp only [List.map_cons, List.sum_cons, wrapInt_add_wrapInt, add_assoc]

theorem memberCounts_cons (m : Filler) (rest : List Filler) (value : Value) (data : Object)
    (h : Heap) (hm : m ≠ .nil) :
    memberCounts (m :: rest) value data h =
      match m.Fill value data h with
      | .error e => .error e
      | .ok (c, h1) =>
        match memberCounts rest value data h1 with
        | .error e => .error e
        | .ok (cs, h2) => .ok (c :: cs, h2) := by
  cases m with
  | nil => exact absurd rfl hm
  | ObjectFiller p s => simp only [memberCounts]
  | Fillers fs => simp only [memberCounts]

theorem memberCounts_length (f : List Filler) (value : Value) (data : Object) :
    ∀ (h : Heap) (cs : List (Int × Int)) (h1 : Heap),
      memberCounts f value data h = .ok (cs, h1) →
        cs.length = (f.filter (fun m => !m.isNil)).length := by
  induction f with
  | nil =>
    intro h cs h1 hm
    simp only [memberCounts, Except.ok.injEq, Prod.mk.injEq] at hm
    rw [← hm.1]
    rfl
  | cons m rest ih =>
    intro h cs h1 hm
    by_cases hn : m = .nil
    · subst hn
      simp only [memberCounts] at hm
      simpa [Filler.isNil] using ih h cs h1 hm
    · rw [memberCounts_cons m rest value data h hn] at hm
      have hnil : m.isNil = false := by
        cases m with
        | nil => exact absurd rfl hn
        | ObjectFiller p s => rfl
        | Fillers fs => rfl
      split at hm
      · cases hm
      · rename_i c h2 hc
        split at hm
        · cases hm
        · rename_i cs1 h3 hcs
          simp only [Except.ok.injEq, Prod.mk.injEq] at hm
          rw [← hm.1]
          simp [hnil, ih h2 cs1 h3 hcs]

/-- C2: `Fillers.Fill` returns the sums, in `int` arithmetic, of the success and
of the failure counts that the non-nil members return when invoked one after the
other in list order on the same target and data: a member that reports failures
does not stop the loop, a nil member adds nothing, and a panic of a member is the
panic of `Fill`.  When the two sums fit in an `int` they are returned exactly.
There is one pair of counts for every non-nil member of the list. -/
theorem Fillers_Fill_sums_member_counts (f : List Filler) (value : Value) (data : Object)
    (h : Heap) :
    (Fillers.Fill f value data h =
        match memberCounts f value data h with
        | .error e => .error e
        | .ok (cs, h1) =>
          .ok ((wrapInt (cs.map Prod.fst).sum, wrapInt (cs.map Prod.snd).sum), h1)) ∧
    (∀ cs h1, memberCounts f value data h = .ok (cs, h1) →
        -2 ^ 63 ≤ (cs.map Prod.fst).sum → (cs.map Prod.fst).sum < 2 ^ 63 →
        -2 ^ 63 ≤ (cs.map Prod.snd).sum → (cs.map Prod.snd).sum < 2 ^ 63 →
        Fillers.Fill f value data h
          = .ok (((cs.map Prod.fst).sum, (cs.map Prod.snd).sum), h1)) ∧
    (∀ cs h1, memberCounts f value data h = .ok (cs, h1) →
        cs.length = (f.filter (fun m => !m.isNil)).length) := by
  have key := Fillers_Fill_loop_eq f value data 0 0 h rfl rfl
  simp only [zero_add] at key
  refine ⟨key, ?_, memberCounts_length f value data h⟩
  intro cs h1 hm a1 a2 b1 b2
  unfold Fillers.Fill
  rw [key, hm]
  simp only [wrapInt_of_range _ a1 a2, wrapInt_of_range _ b1 b2]

/-- C2, on an `int` variable: three fillers that return (1,0), (0,1), (1,0), with
a nil entry among them, give (2,1). -/
theorem Fillers_Fill_sums_member_counts_witness :
    memberCounts
        [.ObjectFiller .nil (.DefaultValue (some (.int, .int 5))),
         .ObjectFiller .nil (.DefaultValue (some (.string, .string "a"))),
         .nil,
         .ObjectFiller .nil (.DefaultValue (some (.int, .int 7)))]
        (.mk .int (.ref ⟨0, []⟩) false) none ⟨[.var (.int 0)]⟩
      = .ok ([(1, 0), (0, 1), (1, 0)], ⟨[.var (.int 7)]⟩) ∧
    Fillers.Fill
        [.ObjectFiller .nil (.DefaultValue (some (.int, .int 5))),
         .ObjectFiller .nil (.DefaultValue (some (.string, .string "a"))),
         .nil,
         .ObjectFiller .nil (.DefaultValue (some (.int, .int 7)))]
        (.mk .int (.ref ⟨0, []⟩) false) none ⟨[.var (.int 0)]⟩
      = .ok ((2, 1), ⟨[.var (.int 7)]⟩) :=
  ⟨rfl, (Fillers_Fill_sums_member_counts
      [.ObjectFiller .nil (.DefaultValue (some (.int, .int 5))),
       .ObjectFiller .nil (.DefaultValue (some (.string, .string "a"))),
       .nil,
       .ObjectFiller .nil (.DefaultValue (some (.int, .int 7)))]
      (.mk .int (.ref ⟨0, []⟩) false) none ⟨[.var (.int 0)]⟩).2.1
    [(1, 0), (0, 1), (1, 0)] ⟨[.var (.int 7)]⟩ rfl (by decide) (by decide)
    (by decide) (by decide)⟩

/-! ## Composite value source -/

theorem ValueSources_ExtractObject_cons (m : ValueSource) (rest : List ValueSource)
    (data : Object) (h : Heap) (hm : m ≠ .nil) :
    ValueSources.ExtractObject (m :: rest) data h =
      match m.ExtractObject data h with
      | .error e => .error e
      | .ok ((object, true), h1) => .ok ((object, true), h1)
      | .ok ((_, false), h1) => ValueSources.ExtractObject rest data h1 := by
  cases m with
  | nil => exact absurd rfl hm
  | ObjectAtPath p ak => simp only [ValueSources.ExtractObject]
  | DefaultValue v => simp only [ValueSources.ExtractObject]
  | ValueSources vs => simp only [ValueSources.ExtractObject]

theorem allFail_cons (m : ValueSource) (rest : List ValueSource) (data : Object) (h : Heap)
    (hm : m ≠ .nil) :
    allFail (m :: rest) data h =
      match m.ExtractObject data h with
      | .ok ((_, false), h1) => allFail rest data h1
      | _ => none := by
  cases m with
  | nil => exact absurd rfl hm
  | ObjectAtPath p ak => simp only [allFail]
  | DefaultValue v => simp only [allFail]
  | ValueSources vs => simp only [allFail]

theorem ValueSources_ExtractObject_success (vs : List ValueSource) (data : Object) :
    ∀ (h : Heap) (x : Object) (h2 : Heap),
      ValueSources.ExtractObject vs data h = .ok ((x, true), h2) ↔
        ∃ pre m post h1, vs = pre ++ m :: post ∧ allFail pre data h = some h1 ∧
          m.ExtractObject data h1 = .ok ((x, true), h2) := by
  induction vs with
  | nil =>
    intro h x h2
    simp [ValueSources.ExtractObject]
  | cons m rest ih =>
    intro h x h2
    by_cases hm : m = .nil
    · subst hm
      simp only [ValueSources.ExtractObject]
      rw [ih]
      constructor
      · rintro ⟨pre, m1, post, h1, rfl, hf, hx⟩
        exact ⟨.nil :: pre, m1, post, h1, rfl, by simpa [allFail] using hf, hx⟩
      · rintro ⟨pre, m1, post, h1, he, hf, hx⟩
        cases pre with
        | nil =>
          simp only [List.nil_append, List.cons.injEq] at he
          rw [← he.1] at hx
          simp [ValueSource.ExtractObject] at hx
        | cons p pre1 =>
          simp only [List.cons_append, List.cons.injEq] at he
          obtain ⟨hp, hr⟩ := he
          subst hp
          exact ⟨pre1, m1, post, h1, hr, by simpa [allFail] using hf, hx⟩
    · rw [ValueSources_ExtractObject_cons m rest data h hm]
      constructor
      · intro hx
        cases hr : m.ExtractObject data h with
        | error e => rw [hr] at hx; cases hx
        | ok r =>
          obtain ⟨⟨o, b⟩, h1⟩ := r
          rw [hr] at hx
          cases b with
          | true =>
            simp only [Except.ok.injEq, Prod.mk.injEq, and_true] at hx
            obtain ⟨ho, hh⟩ := hx
            subst ho; subst hh
            exact ⟨[], m, rest, h, rfl, rfl, hr⟩
          | false =>
            simp only [] at hx
            obtain ⟨pre, m1, post, h3, he, hf, hx1⟩ := (ih h1 x h2).mp hx
            refine ⟨m :: pre, m1, post, h3, by rw [he]; rfl, ?_, hx1⟩
            rw [allFail_cons m pre data h hm, hr]
            exact hf
      · rintro ⟨pre, m1, post, h1, he, hf, hx⟩
        cases pre with
        | nil =>
          simp only [List.nil_append, List.cons.injEq] at he
          obtain ⟨hp, -⟩ := he
          subst hp
          simp only [allFail, Option.some.injEq] at hf
          subst hf
          rw [hx]
        | cons p pre1 =>
          simp only [List.cons_append, List.cons.injEq] at he
          obtain ⟨hp, hr⟩ := he
          subst hp
          rw [allFail_cons m pre1 data h hm] at hf
          cases hq : m.ExtractObject data h with
          | error e => rw [hq] at hf; cases hf
          | ok r =>
            obtain ⟨⟨o, b⟩, h3⟩ := r
            rw [hq] at hf
            cases b with
            | true => cases hf
            | false =>
              simp only [] at hf ⊢
              exact (ih h3 x h2).mpr ⟨pre1, m1, post, h1, hr, hf, hx⟩

theorem ValueSources_ExtractObject_failure (vs : List ValueSource) (data : Object) :
    ∀ (h : Heap) (o : Object) (h1 : Heap),
      ValueSources.ExtractObject vs data h = .ok ((o, false), h1) ↔
        o = none ∧ allFail vs data h = some h1 := by
  induction vs with
  | nil =>
    intro h o h1
    simp only [ValueSources.ExtractObject, allFail, Except.ok.injEq, Prod.mk.injEq, and_true,
      Option.some.injEq]
    constructor
    · rintro ⟨rfl, rfl⟩; exact ⟨rfl, rfl⟩
    · rintro ⟨rfl, rfl⟩; exact ⟨rfl, rfl⟩
  | cons m rest ih =>
    intro h o h1
    by_cases hm : m = .nil
    · subst hm
      simp only [ValueSources.ExtractObject, allFail]
      exact ih h o h1
    · rw [ValueSources_ExtractObject_cons m rest data h hm, allFail_cons m rest data h hm]
      cases hr : m.ExtractObject data h with
      | error e => simp
      | ok r =>
        obtain ⟨⟨o1, b⟩, h3⟩ := r
        cases b with
        | true => simp
        | false => exact ih h3 o h1

/-- C3: `ValueSources.ExtractObject` returns `(x, true)` exactly when the list
splits into members that all fail (nil entries skipped), then a member whose
`ExtractObject` returns `(x, true)`; whatever follows that member is not
consulted.  It returns failure exactly when every non-nil member fails (so also
for the empty list and for a list of nil entries), and the object is then absent. -/
theorem ValueSources_ExtractObject_first_success (vs : List ValueSource) (data : Object)
    (h : Heap) :
    (∀ x h2, ValueSources.ExtractObject vs data h = .ok ((x, true), h2) ↔
        ∃ pre m post h1, vs = pre ++ m :: post ∧ allFail pre data h = some h1 ∧
          m.ExtractObject data h1 = .ok ((x, true), h2)) ∧
    (∀ o h1, ValueSources.ExtractObject vs data h = .ok ((o, false), h1) ↔
        o = none ∧ allFail vs data h = some h1) ∧
    ValueSources.ExtractObject [] data h = .ok ((none, false), h) ∧
    ValueSources.ExtractObject [.nil, .nil] data h = .ok ((none, false), h) :=
  ⟨ValueSources_ExtractObject_success vs data h, ValueSources_ExtractObject_failure vs data h,
    rfl, rfl⟩

/-- C3, on a map without the key "missing": the path source fails, the default
42 that follows it is returned. -/
theorem ValueSources_ExtractObject_first_success_witness :
    allFail [.ObjectAtPath (.Path [some (.string, .string "missing")]) (.Kind KindInt)]
        (some (.map .string .int, .map (some 0))) ⟨[.map [(.string "k", .int 3)]]⟩
      = some ⟨[.map [(.string "k", .int 3)]]⟩ ∧
    ValueSources.ExtractObject
        [.ObjectAtPath (.Path [some (.string, .string "missing")]) (.Kind KindInt),
         .DefaultValue (some (.int, .int 42))]
        (some (.map .string .int, .map (some 0))) ⟨[.map [(.string "k", .int 3)]]⟩
      = .ok ((some (.int, .int 42), true), ⟨[.map [(.string "k", .int 3)]]⟩) :=
  ⟨rfl, ((ValueSources_ExtractObject_first_success _ _ _).1 _ _).mpr
    ⟨[.ObjectAtPath (.Path [some (.string, .string "missing")]) (.Kind KindInt)],
      .DefaultValue (some (.int, .int 42)), [], _, rfl, rfl, rfl⟩⟩

/-! ## Single object filler: the counts -/

theorem ObjectFiller_Fill_returns (p : ObjectPath) (s : ValueSource) (value : Value)
    (data : Object) (h : Heap) (c : Int × Int) (h3 : Heap)
    (hr : ObjectFiller.Fill p s value data h = .ok (c, h3)) : c = (1, 0) ∨ c = (0, 1) := by
  unfold ObjectFiller.Fill at hr
  repeat' split at hr
  all_goals simp_all

theorem ObjectFiller_Fill_success_iff (p : ObjectPath) (s : ValueSource) (value : Value)
    (data : Object) (h h3 : Heap) :
    ObjectFiller.Fill p s value data h = .ok ((1, 0), h3) ↔
      ∃ (fv : Value) (h1 : Heap) (x : Object) (h2 : Heap) (et ft : GoType),
        p.orRoot.FetchValue value h = .ok ((fv, true), h1) ∧
        fv.CanSet = true ∧
        s.ExtractObject data h1 = .ok ((x, true), h2) ∧
        (reflect.ValueOf x).Type = .ok et ∧ fv.Type = .ok ft ∧
        et.AssignableTo ft = true ∧
        fv.Set (reflect.ValueOf x) h2 = .ok h3 := by
  unfold ObjectFiller.Fill
  constructor
  · intro hr
    split at hr
    · cases hr
    · rename_i fv ok h1 hfv
      split at hr
      · simp at hr
      · rename_i hok
        split at hr
        · simp at hr
        · rename_i hcs
          split at hr
          · cases hr
          · rename_i x ok2 h2 hx
            split at hr
            · simp at hr
            · rename_i hok2
              split at hr
              · cases hr
              · cases hr
              · rename_i et ft het hft
                split at hr
                · simp at hr
                · rename_i hat
                  split at hr
                  · cases hr
                  · rename_i h4 hset
                    simp only [Except.ok.injEq, Prod.mk.injEq, true_and] at hr
                    subst hr
                    simp only [Bool.not_eq_true, Bool.not_eq_false, Bool.not_eq_eq_eq_not,
                      Bool.not_true, Bool.not_false] at hok hcs hok2 hat
                    subst hok hok2
                    exact ⟨fv, h1, x, h2, et, ft, hfv, hcs, hx, het, hft, hat, hset⟩
  · rintro ⟨fv, h1, x, h2, et, ft, hfv, hcs, hx, het, hft, hat, hset⟩
    simp [hfv, hcs, hx, het, hft, hat, hset]

/-! ## The heap only grows -/

theorem Grows_refl (h : Heap) : h.Grows h :=
  ⟨le_refl _, fun _ v hv => ⟨v, hv⟩⟩

theorem Grows_trans {h h1 h2 : Heap} (a : h.Grows h1) (b : h1.Grows h2) : h.Grows h2 :=
  ⟨le_trans a.1 b.1, fun x v hv => by
    obtain ⟨v1, hv1⟩ := a.2 x v hv
    exact b.2 x v1 hv1⟩

theorem Grows_write {h h1 : Heap} {r : Ref} {x : Val} (hw : h.write r x = some h1) :
    h.Grows h1 := by
  unfold Heap.write at hw
  split at hw
  · rename_i v hv
    split at hw
    · rename_i v1 hv1
      simp only [Option.some.injEq] at hw
      subst hw
      refine ⟨by simp, fun a w hw => ?_⟩
      by_cases ha : r.addr = a
      · subst ha
        have hlt : r.addr < h.cells.length := by
          rcases Nat.lt_or_ge r.addr h.cells.length with hl | hl
          · exact hl
          · rw [List.getElem?_eq_none hl] at hv; cases hv
        exact ⟨v1, by simp [List.getElem?_set, hlt]⟩
      · exact ⟨w, by simp [List.getElem?_set, ha, hw]⟩
    · cases hw
  · cases hw

theorem Grows_alloc (h : Heap) (x : Val) : h.Grows (h.alloc x).2 := by
  refine ⟨by simp [Heap.alloc], fun a w hw => ⟨w, ?_⟩⟩
  have hlt : a < h.cells.length := by
    rcases Nat.lt_or_ge a h.cells.length with hl | hl
    · exact hl
    · rw [List.getElem?_eq_none hl] at hw; cases hw
  simp [Heap.alloc, List.getElem?_append_left hlt, hw]

theorem alloc_get (h : Heap) (x : Val) :
    (h.alloc x).2.cells[(h.alloc x).1]? = some (Cell.var x) := by
  simp [Heap.alloc]

theorem Grows_Set {v x : Value} {h h1 : Heap} (hs : v.Set x h = .ok h1) : h.Grows h1 := by
  unfold Value.Set at hs
  repeat' split at hs
  all_goals cases hs
  exact Grows_write (by assumption)

theorem valueAtIndexAux_grows : ∀ (fuel : Nat) (index c : Value) (h : Heap) (r : Value × Bool)
    (h1 : Heap), valueAtIndexAux fuel index c h = .ok (r, h1) → h.Grows h1 := by
  intro fuel
  induction fuel with
  | zero => intro index c h r h1 hr; simp [valueAtIndexAux] at hr
  | succ n ih =>
    intro index c h r h1 hr
    unfold valueAtIndexAux at hr
    repeat' split at hr
    all_goals first
      | exact Grows_trans (Grows_trans (Grows_alloc _ _) (Grows_Set (by assumption))) (ih _ _ _ _ _ hr)
      | exact ih _ _ _ _ _ hr
      | (cases hr; done)
      | (cases hr; exact Grows_refl _)

theorem Path_FetchValue_grows : ∀ (op : List Object) (v : Value) (h : Heap) (r : Value × Bool)
    (h1 : Heap), Path.FetchValue op v h = .ok (r, h1) → h.Grows h1 := by
  intro op
  induction op with
  | nil =>
    intro v h r h1 hr
    simp only [Path.FetchValue, Except.ok.injEq, Prod.mk.injEq] at hr
    obtain ⟨-, rfl⟩ := hr
    exact Grows_refl _
  | cons index rest ih =>
    intro v h r h1 hr
    unfold Path.FetchValue at hr
    split at hr
    · cases hr
    · rename_i v1 ok h2 hv
      have g := valueAtIndexAux_grows _ _ _ _ _ _ hv
      split at hr
      · cases hr; exact g
      · exact Grows_trans g (ih _ _ _ _ hr)

theorem Path_FetchObject_grows (op : List Object) (root : Object) (h : Heap)
    (r : Object × Bool) (h1 : Heap) (hr : Path.FetchObject op root h = .ok (r, h1)) :
    h.Grows h1 := by
  unfold Path.FetchObject at hr
  split at hr
  · cases hr
  · rename_i v ok h2 hv
    have g := Path_FetchValue_grows _ _ _ _ _ hv
    repeat' split at hr
    all_goals first
      | (cases hr; done)
      | (cases hr; exact g)

theorem ObjectPath_FetchValue_grows (p : ObjectPath) (root : Value) (h : Heap)
    (r : Value × Bool) (h1 : Heap) (hr : p.FetchValue root h = .ok (r, h1)) : h.Grows h1 := by
  cases p with
  | nil => cases hr
  | RootAsPath => cases hr; exact Grows_refl _
  | Path op => exact Path_FetchValue_grows _ _ _ _ _ hr

theorem ObjectPath_FetchObject_grows (p : ObjectPath) (root : Object) (h : Heap)
    (r : Object × Bool) (h1 : Heap) (hr : p.FetchObject root h = .ok (r, h1)) : h.Grows h1 := by
  cases p with
  | nil => cases hr
  | RootAsPath => cases hr; exact Grows_refl _
  | Path op => exact Path_FetchObject_grows _ _ _ _ _ hr

theorem ObjectAtPath_ExtractObject_grows (p : ObjectPath) (ak : AssignableKind) (data : Object)
    (h : Heap) (r : Object × Bool) (h1 : Heap)
    (hr : ObjectAtPath.ExtractObject p ak data h = .ok (r, h1)) : h.Grows h1 := by
  unfold ObjectAtPath.ExtractObject at hr
  split at hr
  · cases hr
  · rename_i ofd ok h2 hv
    have g := ObjectPath_FetchObject_grows _ _ _ _ _ hv
    repeat' split at hr
    all_goals first
      | (cases hr; done)
      | (cases hr; exact g)

mutual
theorem ValueSource_ExtractObject_grows : ∀ (s : ValueSource) (data : Object) (h : Heap)
    (r : Object × Bool) (h1 : Heap), s.ExtractObject data h = .ok (r, h1) → h.Grows h1
  | .nil, _, _, _, _, hr => by cases hr
  | .ObjectAtPath p ak, _, _, _, _, hr => ObjectAtPath_ExtractObject_grows p ak _ _ _ _ hr
  | .DefaultValue _, _, _, _, _, hr => by cases hr; exact Grows_refl _
  | .ValueSources vs, data, h, r, h1, hr => by
    simp only [ValueSource.ExtractObject] at hr
    exact ValueSources_ExtractObject_grows vs data h r h1 hr
theorem ValueSources_ExtractObject_grows : ∀ (vs : List ValueSource) (data : Object) (h : Heap)
    (r : Object × Bool) (h1 : Heap), ValueSources.ExtractObject vs data h = .ok (r, h1) →
      h.Grows h1
  | [], _, _, _, _, hr => by cases hr; exact Grows_refl _
  | m :: rest, data, h, r, h1, hr => by
    by_cases hm : m = .nil
    · subst hm
      simp only [ValueSources.ExtractObject] at hr
      exact ValueSources_ExtractObject_grows rest data h r h1 hr
    · rw [ValueSources_ExtractObject_cons m rest data h hm] at hr
      split at hr
      · cases hr
      · rename_i o h2 hv
        cases hr
        exact ValueSource_ExtractObject_grows m data h _ _ hv
      · rename_i o h2 hv
        exact Grows_trans (ValueSource_ExtractObject_grows m data h _ _ hv)
          (ValueSources_ExtractObject_grows rest data h2 r h1 hr)
end

theorem ObjectFiller_Fill_grows (p : ObjectPath) (s : ValueSource) (value : Value)
    (data : Object) (h : Heap) (c : Int × Int) (h3 : Heap)
    (hr : ObjectFiller.Fill p s value data h = .ok (c, h3)) : h.Grows h3 := by
  unfold ObjectFiller.Fill at hr
  split at hr
  · cases hr
  · rename_i fv ok h1 hv
    have g := ObjectPath_FetchValue_grows _ _ _ _ _ hv
    split at hr
    · cases hr; exact g
    · split at hr
      · cases hr; exact g
      · split at hr
        · cases hr
        · rename_i eo ok2 h2 he
          have g2 := Grows_trans g (ValueSource_ExtractObject_grows _ _ _ _ _ he)
          repeat' split at hr
          all_goals first
            | (cases hr; done)
            | (cases hr; exact g2)
            | (cases hr; exact Grows_trans g2 (Grows_Set (by assumption)))

theorem Fillers_Fill_loop_cons (m : Filler) (rest : List Filler) (value : Value) (data : Object)
    (success failure : Int) (h : Heap) (hm : m ≠ .nil) :
    Fillers.Fill.loop (m :: rest) value data success failure h =
      match m.Fill value data h with
      | .error e => .error e
      | .ok ((s, f), h1) =>
        Fillers.Fill.loop rest value data (wrapInt (success + s)) (wrapInt (failure + f)) h1 := by
  cases m with
  | nil => exact absurd rfl hm
  | ObjectFiller p s => simp only [Fillers.Fill.loop]
  | Fillers fs => simp only [Fillers.Fill.loop]

mutual
theorem Filler_Fill_grows : ∀ (f : Filler) (value : Value) (data : Object) (h : Heap)
    (c : Int × Int) (h1 : Heap), f.Fill value data h = .ok (c, h1) → h.Grows h1
  | .nil, _, _, _, _, _, hr => by cases hr
  | .ObjectFiller p s, _, _, _, _, _, hr => ObjectFiller_Fill_grows p s _ _ _ _ _ hr
  | .Fillers fs, value, data, h, c, h1, hr => by
    simp only [Filler.Fill] at hr
    exact Fillers_Fill_loop_grows fs value data 0 0 h c h1 hr
theorem Fillers_Fill_loop_grows : ∀ (fs : List Filler) (value : Value) (data : Object)
    (success failure : Int) (h : Heap) (c : Int × Int) (h1 : Heap),
    Fillers.Fill.loop fs value data success failure h = .ok (c, h1) → h.Grows h1
  | [], _, _, _, _, _, _, _, hr => by cases hr; exact Grows_refl _
  | m :: rest, value, data, success, failure, h, c, h1, hr => by
    by_cases hm : m = .nil
    · subst hm
      simp only [Fillers.Fill.loop] at hr
      exact Fillers_Fill_loop_grows rest value data success failure h c h1 hr
    · rw [Fillers_Fill_loop_cons m rest value data success failure h hm] at hr
      split at hr
      · cases hr
      · rename_i s f h2 hv
        exact Grows_trans (Filler_Fill_grows m value data h _ _ hv)
          (Fillers_Fill_loop_grows rest value data _ _ h2 c h1 hr)
end

/-! ## Single object filler: an absent candidate -/

/-- C4 (the code departs from the claim): the destination `A` of a struct variable
resolves to a settable string slot and the value source `DefaultValue{nil}`
extracts the absent object, whose runtime type is not assignable to anything; the
claim gives (0,1) for this call, but `Fill` asks the zero `reflect.Value` for its
type and panics, so it returns no count pair at all.  (Same defect as C5.) -/
theorem ObjectFiller_Fill_no_counts_for_absent_candidate :
    Path.FetchValue [some (.string, .string "A")]
        (.mk (.struct (.cons "A" true .string .nil)) (.ref ⟨0, []⟩) false)
        ⟨[.var (.struct [.string ""])]⟩
      = .ok ((.mk .string (.ref ⟨0, [0]⟩) false, true), ⟨[.var (.struct [.string ""])]⟩) ∧
    Value.CanSet (.mk .string (.ref ⟨0, [0]⟩) false) = true ∧
    ValueSource.ExtractObject (.DefaultValue none) none ⟨[.var (.struct [.string ""])]⟩
      = .ok ((none, true), ⟨[.var (.struct [.string ""])]⟩) ∧
    ObjectFiller.Fill (.Path [some (.string, .string "A")]) (.DefaultValue none)
        (.mk (.struct (.cons "A" true .string .nil)) (.ref ⟨0, []⟩) false) none
        ⟨[.var (.struct [.string ""])]⟩
      = .error .valueError :=
  ⟨rfl, rfl, rfl, rfl⟩

/-- C5 (the code departs from the claim): against a settable `int` variable,
`Fill` with the value source `DefaultValue{nil}` panics, and against a settable
`string` variable so does `Fill` with a path source whose composite assignable
kind `AssignableKinds{KindString}` turns the string "a" into `(nil, true)`: in
both runs the candidate is absent and `Fill` asks the zero `reflect.Value` for
its type. -/
theorem ObjectFiller_Fill_panics_on_absent_candidate :
    Value.CanSet (.mk .int (.ref ⟨0, []⟩) false) = true ∧
    ObjectFiller.Fill .nil (.DefaultValue none) (.mk .int (.ref ⟨0, []⟩) false) none
        ⟨[.var (.int 0)]⟩
      = .error .valueError ∧
    ValueSource.ExtractObject (.ObjectAtPath .nil (.AssignableKinds [.Kind KindString]))
        (some (.string, .string "a")) ⟨[.var (.string "")]⟩
      = .ok ((none, true), ⟨[.var (.string "")]⟩) ∧
    ObjectFiller.Fill .nil (.ObjectAtPath .nil (.AssignableKinds [.Kind KindString]))
        (.mk .string (.ref ⟨0, []⟩) false) (some (.string, .string "a"))
        ⟨[.var (.string "")]⟩
      = .error .valueError :=
  ⟨rfl, rfl, rfl, rfl⟩

/-! ## Descriptor -/

/-- C6: `Describe` on a nil Descriptor, on a Descriptor with a nil `Type` and on a
Descriptor with a nil `Filler` returns the absent object, 0 successes and the
failure count 0x7fff = 32767, whatever the data; the heap is the one it was
given, so nothing was allocated and no filler ran. -/
theorem Describe_unconfigured (data : Object) (h : Heap) :
    Descriptor.Describe none data h = .ok ((none, 0, 32767), h) ∧
    (∀ filler : Filler,
      Descriptor.Describe (some ⟨none, filler⟩) data h = .ok ((none, 0, 32767), h)) ∧
    (∀ t : Option GoType,
      Descriptor.Describe (some ⟨t, .nil⟩) data h = .ok ((none, 0, 32767), h)) := by
  refine ⟨rfl, fun filler => rfl, fun t => ?_⟩
  cases t <;> rfl

theorem Describe_configured (t : GoType) (filler : Filler) (data : Object) (h : Heap)
    (hf : filler ≠ .nil) :
    Descriptor.Describe (some ⟨some t, filler⟩) data h =
      match filler.Fill (.mk t (.ref ⟨h.cells.length, []⟩) false) data (h.alloc (zero t)).2 with
      | .error e => .error e
      | .ok ((success, failure), h1) =>
        match Value.Interface (.mk t (.ref ⟨h.cells.length, []⟩) false) h1 with
        | .error e => .error e
        | .ok object => .ok ((object, success, failure), h1) := by
  have hE : (reflect.New t h).1.Elem (h.alloc (zero t)).2
      = .ok (.mk t (.ref ⟨h.cells.length, []⟩) false) := by
    simp [reflect.New, Value.Elem, Value.load, GoType.kind, GoType.Elem, Heap.alloc]
  have hH : (reflect.New t h).2 = (h.alloc (zero t)).2 := rfl
  cases filler with
  | nil => exact absurd rfl hf
  | ObjectFiller p s =>
    simp only [Descriptor.Describe, hH, hE]
    generalize Filler.Fill (.ObjectFiller p s) (.mk t (.ref ⟨h.cells.length, []⟩) false) data
      (h.alloc (zero t)).2 = r
    cases r with
    | error e => rfl
    | ok r => obtain ⟨⟨s1, f1⟩, h1⟩ := r; simp [Value.CanInterface]
  | Fillers fs =>
    simp only [Descriptor.Describe, hH, hE]
    generalize Filler.Fill (.Fillers fs) (.mk t (.ref ⟨h.cells.length, []⟩) false) data
      (h.alloc (zero t)).2 = r
    cases r with
    | error e => rfl
    | ok r => obtain ⟨⟨s1, f1⟩, h1⟩ := r; simp [Value.CanInterface]

/-- C7 (the claim fails): with `Type` the empty interface type and `Filler` an
empty `Fillers` list, both non-nil, `Describe` returns the absent object. -/
theorem Describe_interface_type_absent_object :
    Descriptor.Describe (some ⟨some .emptyInterface, .Fillers []⟩) none ⟨[]⟩
      = .ok ((none, 0, 0), ⟨[.var .ifaceNil]⟩) :=
  rfl

/-- C7, amended: let `Type` and `Filler` be non-nil.  `Describe` allocates a
variable at an address unused so far, holding the zero value of `Type`.  If
`Filler.Fill` on that variable returns the counts `(s, f)`, then the variable
still exists afterwards, with contents `x`, and `Describe` returns `(s, f)`
unchanged, whatever `f` is, together with: `x` at type `Type` (a non-absent
object) when `Type` is not of interface kind; what `x` holds when `Type` is of
interface kind (the absent object when it holds nothing).  Every heap reached
from the resulting one has that address allocated, so a later `Describe` call
takes another address for its instance. -/
theorem Describe_returns_filled_instance (t : GoType) (filler : Filler) (data : Object)
    (h : Heap) (s f : Int) (h1 : Heap) (hf : filler ≠ .nil)
    (hr : filler.Fill (.mk t (.ref ⟨h.cells.length, []⟩) false) data (h.alloc (zero t)).2
      = .ok ((s, f), h1)) :
    h.read ⟨h.cells.length, []⟩ = none ∧
    (h.alloc (zero t)).2.read ⟨h.cells.length, []⟩ = some (zero t) ∧
    (∀ h2 : Heap, h1.Grows h2 → h.cells.length < h2.cells.length) ∧
    ∃ x, h1.read ⟨h.cells.length, []⟩ = some x ∧
      (t.kind ≠ KindInterface →
        Descriptor.Describe (some ⟨some t, filler⟩) data h = .ok ((some (t, x), s, f), h1)) ∧
      (t.kind = KindInterface → x = .ifaceNil →
        Descriptor.Describe (some ⟨some t, filler⟩) data h = .ok ((none, s, f), h1)) ∧
      (t.kind = KindInterface → ∀ d y, x = .iface d y →
        Descriptor.Describe (some ⟨some t, filler⟩) data h = .ok ((some (d, y), s, f), h1)) := by
  have g := Filler_Fill_grows filler _ data _ _ _ hr
  have ha : (h.alloc (zero t)).2.cells[h.cells.length]? = some (Cell.var (zero t)) :=
    alloc_get h (zero t)
  obtain ⟨x, hx⟩ := g.2 _ _ ha
  have hlt : h.cells.length < h1.cells.length := by
    rcases Nat.lt_or_ge h.cells.length h1.cells.length with hl | hl
    · exact hl
    · rw [List.getElem?_eq_none hl] at hx; cases hx
  have hread : h1.read ⟨h.cells.length, []⟩ = some x := by
    simp [Heap.read, hx, Val.get]
  refine ⟨by simp [Heap.read], by simp [Heap.read, ha, Val.get],
    fun h2 g2 => lt_of_lt_of_le hlt g2.1, x, hread, ?_, ?_, ?_⟩
  · intro hk
    rw [Describe_configured t filler data h hf, hr]
    simp [Value.Interface, Value.load, hread, hk]
  · intro hk hx0
    rw [Describe_configured t filler data h hf, hr]
    simp [Value.Interface, Value.load, hread, hk, hx0]
  · intro hk d y hx0
    rw [Describe_configured t filler data h hf, hr]
    simp [Value.Interface, Value.load, hread, hk, hx0]

/-- C7, amended, on a struct type with an exported string field `A` and an
unexported int field `b`: the filler for `A` succeeds, the one for `b` fails, and
the instance is returned with `A` set, together with the counts (1, 1). -/
theorem Describe_returns_filled_instance_witness :
    Filler.Fill
        (.Fillers [.ObjectFiller (.Path [some (.string, .string "A")])
            (.DefaultValue (some (.string, .string "a"))),
          .ObjectFiller (.Path [some (.string, .string "b")])
            (.DefaultValue (some (.int, .int 7)))])
        (.mk (.struct (.cons "A" true .string (.cons "b" false .int .nil)))
          (.ref ⟨0, []⟩) false)
        none ⟨[.var (.struct [.string "", .int 0])]⟩
      = .ok ((1, 1), ⟨[.var (.struct [.string "a", .int 0])]⟩) ∧
    Descriptor.Describe
        (some ⟨some (.struct (.cons "A" true .string (.cons "b" false .int .nil))),
          .Fillers [.ObjectFiller (.Path [some (.string, .string "A")])
              (.DefaultValue (some (.string, .string "a"))),
            .ObjectFiller (.Path [some (.string, .string "b")])
              (.DefaultValue (some (.int, .int 7)))]⟩)
        none ⟨[]⟩
      = .ok ((some (.struct (.cons "A" true .string (.cons "b" false .int .nil)),
            .struct [.string "a", .int 0]), 1, 1),
          ⟨[.var (.struct [.string "a", .int 0])]⟩) := by
  refine ⟨rfl, ?_⟩
  obtain ⟨-, -, -, x, hx, hd, -, -⟩ := Describe_returns_filled_instance
    (.struct (.cons "A" true .string (.cons "b" false .int .nil)))
    (.Fillers [.ObjectFiller (.Path [some (.string, .string "A")])
        (.DefaultValue (some (.string, .string "a"))),
      .ObjectFiller (.Path [some (.string, .string "b")])
        (.DefaultValue (some (.int, .int 7)))])
    none ⟨[]⟩ 1 1 ⟨[.var (.struct [.string "a", .int 0])]⟩ (by simp) rfl
  have hx1 : some (Val.struct [.string "a", .int 0]) = some x := hx
  cases hx1
  exact hd (by decide)

/-! ## Paths of length 0 -/

/-- C8 (the code departs from the claim): `FetchValue` of the `Root` path and of
an empty `Path` return any root unchanged, and so does `FetchObject` of the
`Root` path; `FetchObject` of an empty `Path` returns a non-absent root
unchanged, but on the absent root it asks the zero `reflect.Value` whether it
can be read (`CanInterface`) and panics instead of returning `(nil, true)`. -/
theorem Path_FetchObject_empty_panics_on_absent_root :
    (∀ (root : Value) (h : Heap),
      ObjectPath.FetchValue Root root h = .ok ((root, true), h) ∧
      ObjectPath.FetchValue (.Path []) root h = .ok ((root, true), h)) ∧
    (∀ (root : Object) (h : Heap), ObjectPath.FetchObject Root root h = .ok ((root, true), h)) ∧
    (∀ (t : GoType) (x : Val) (h : Heap), t.kind ≠ KindInterface →
      ObjectPath.FetchObject (.Path []) (some (t, x)) h = .ok ((some (t, x), true), h)) ∧
    ObjectPath.FetchObject (.Path []) none ⟨[]⟩ = .error .valueError := by
  refine ⟨fun root h => ⟨rfl, rfl⟩, fun root h => rfl, fun t x h hk => ?_, rfl⟩
  simp [ObjectPath.FetchObject, Path.FetchObject, Path.FetchValue, reflect.ValueOf,
    Value.CanInterface, Value.Interface, Value.load, hk]

/-! ## Indexing arrays, slices and strings -/

theorem valueAtIndex_on_sequence_unfold (index collection : Value) (h : Heap)
    (hk : (kindOfValue collection).isSequence = true) :
    valueAtIndex index collection h =
      if (kindOfValue index).isSigned || (kindOfValue index).isUnsigned then
        match intOfIndex index h with
        | .error e => .error e
        | .ok i =>
          match collection.Len h with
          | .error e => .error e
          | .ok length =>
            if length < 1 ∨ i < 0 ∨ i ≥ length then .ok ((.zero, false), h)
            else
              match collection.Index i h with
              | .error e => .error e
              | .ok v => .ok ((v, true), h)
      else .ok ((.zero, false), h) := by
  unfold valueAtIndex
  simp only [valueAtIndexAux]
  cases hkc : kindOfValue collection <;> simp [Kind.isSequence, hkc] at hk <;>
    cases hki : kindOfValue index <;> simp [Kind.isSigned, Kind.isUnsigned]

theorem intOfIndex_signed (index : Value) (h : Heap) (i : Int)
    (hk : (kindOfValue index).isSigned = true) (hi : index.Int h = .ok i) :
    intOfIndex index h = .ok (wrapInt i) := by
  unfold intOfIndex
  cases hki : kindOfValue index <;> simp [Kind.isSigned, hki] at hk <;> simp [hi]

theorem intOfIndex_unsigned (index : Value) (h : Heap) (u : Nat)
    (hk : (kindOfValue index).isUnsigned = true) (hu : index.Uint h = .ok u) :
    intOfIndex index h = .ok (wrapInt u) := by
  unfold intOfIndex
  cases hki : kindOfValue index <;> simp [Kind.isUnsigned, hki] at hk <;> simp [hu]

theorem Len_eq_seqLen (collection : Value) (h : Heap) (N : Nat)
    (hlen : collection.Len h = .ok (N : Int)) : collection.seqLen h = .ok N := by
  unfold Value.Len at hlen
  split at hlen
  · cases hlen
  · rename_i n hn
    simp only [Except.ok.injEq, Nat.cast_inj] at hlen
    rw [hn, hlen]

theorem Elem_of_kind : ∀ (t : GoType),
    (t.kind = KindArray ∨ t.kind = KindSlice ∨ t.kind = KindPtr ∨ t.kind = KindMap) →
      ∃ e, t.Elem = some e
  | .named _ u, hk => Elem_of_kind u hk
  | .array _ e, _ => ⟨e, rfl⟩
  | .slice e, _ => ⟨e, rfl⟩
  | .ptr e, _ => ⟨e, rfl⟩
  | .map _ e, _ => ⟨e, rfl⟩
  | .chan e, _ => ⟨e, rfl⟩
  | .bool, hk | .int, hk | .int8, hk | .int16, hk | .int32, hk | .int64, hk
  | .uint, hk | .uint8, hk | .uint16, hk | .uint32, hk | .uint64, hk | .uintptr, hk
  | .float32, hk | .float64, hk | .complex64, hk | .complex128, hk
  | .string, hk | .unsafePointer, hk | .func _, hk | .emptyInterface, hk
  | .struct _, hk => by simp [GoType.kind] at hk

theorem Index_in_range (collection : Value) (h : Heap) (N : Nat) (i : Int)
    (hk : (kindOfValue collection).isSequence = true)
    (hlen : collection.seqLen h = .ok N) (h0 : 0 ≤ i) (h1 : i < N) :
    ∃ e, collection.Index i h = .ok e := by
  cases collection with
  | zero => cases hlen
  | mk t loc ro =>
    simp only [kindOfValue, Value.Kind] at hk
    unfold Value.seqLen at hlen
    unfold Value.Index
    simp only at hlen ⊢
    cases hkc : t.kind <;> simp [Kind.isSequence, hkc] at hk <;> simp only [hkc] at hlen ⊢
    · obtain ⟨e, he⟩ := Elem_of_kind t (Or.inl hkc)
      rw [he]
      split at hlen
      · cases hlen
      · rename_i es hl
        simp only [Except.ok.injEq] at hlen
        subst hlen
        rw [hl]
        have hlt : i.toNat < es.length := by omega
        have hnot : ¬ (i < 0 ∨ (es.length : Int) ≤ i) := by omega
        simp only [hnot, if_false]
        cases loc with
        | ref r => exact ⟨_, rfl⟩
        | imm x => simp [List.getElem?_eq_getElem hlt]
      · cases hlen
    · obtain ⟨e, he⟩ := Elem_of_kind t (Or.inr (Or.inl hkc))
      rw [he]
      split at hlen
      · cases hlen
      · simp only [Except.ok.injEq] at hlen
        omega
      · rename_i s hl
        simp only [Except.ok.injEq] at hlen
        subst hlen
        rw [hl]
        have hnot : ¬ (i < 0 ∨ (s.len : Int) ≤ i) := by omega
        simp only [hnot, if_false]
        exact ⟨_, rfl⟩
      · cases hlen
    · split at hlen
      · cases hlen
      · rename_i s hl
        simp only [Except.ok.injEq] at hlen
        subst hlen
        have hlt : i.toNat < (goBytes s).length := by omega
        have hnot : ¬ (i < 0) := by omega
        simp [hnot, List.getElem?_eq_getElem hlt]
      · cases hlen

/-- C9: let `collection` be an array, a slice or a string of length `N` (lengths
fit in an `int`).  For an index token of a signed integer kind with value `i`
and for one of an unsigned integer kind with value `u` (any 64-bit value; the
conversion to `int` wraps around), `valueAtIndex` succeeds exactly when
`0 ≤ i < N`, respectively `u < N`, and then returns `collection.Index(i)`;
otherwise it fails.  A token of any other kind, or an absent token, fails.  The
heap is left as it was. -/
theorem valueAtIndex_sequence (index collection : Value) (h : Heap) (N : Nat)
    (hk : (kindOfValue collection).isSequence = true)
    (hlen : collection.Len h = .ok (N : Int)) (hN : N < 2 ^ 63) :
    (∀ i : Int, (kindOfValue index).isSigned = true → index.Int h = .ok i →
        -2 ^ 63 ≤ i → i < 2 ^ 63 →
        (0 ≤ i ∧ i < N → ∃ e, collection.Index i h = .ok e ∧
            valueAtIndex index collection h = .ok ((e, true), h)) ∧
        (¬ (0 ≤ i ∧ i < N) → valueAtIndex index collection h = .ok ((.zero, false), h))) ∧
    (∀ u : Nat, (kindOfValue index).isUnsigned = true → index.Uint h = .ok u → u < 2 ^ 64 →
        (u < N → ∃ e, collection.Index (u : Int) h = .ok e ∧
            valueAtIndex index collection h = .ok ((e, true), h)) ∧
        (¬ u < N → valueAtIndex index collection h = .ok ((.zero, false), h))) ∧
    ((kindOfValue index).isSigned = false → (kindOfValue index).isUnsigned = false →
        valueAtIndex index collection h = .ok ((.zero, false), h)) := by
  have hseq := Len_eq_seqLen collection h N hlen
  have key := valueAtIndex_on_sequence_unfold index collection h hk
  refine ⟨fun i hs hi lo hi2 => ⟨fun hr => ?_, fun hr => ?_⟩,
    fun u hu hv hu2 => ⟨fun hr => ?_, fun hr => ?_⟩, fun h1 h2 => ?_⟩
  · obtain ⟨e, he⟩ := Index_in_range collection h N i hk hseq hr.1 hr.2
    refine ⟨e, he, ?_⟩
    rw [key, intOfIndex_signed index h i hs hi, wrapInt_of_range i lo hi2]
    have hnot : ¬ ((N : Int) < 1 ∨ i < 0 ∨ i ≥ N) := by omega
    simp only [hs, Bool.true_or, if_true, hlen]
    rw [if_neg hnot]
    simp only [he]
  · rw [key, intOfIndex_signed index h i hs hi, wrapInt_of_range i lo hi2]
    have hyes : ((N : Int) < 1 ∨ i < 0 ∨ i ≥ N) := by omega
    simp only [hs, Bool.true_or, if_true, hlen]
    rw [if_pos hyes]
  · have hw : wrapInt (u : Int) = u := by unfold wrapInt; omega
    obtain ⟨e, he⟩ := Index_in_range collection h N u hk hseq (by omega) (by omega)
    refine ⟨e, he, ?_⟩
    rw [key, intOfIndex_unsigned index h u hu hv, hw]
    have hnot : ¬ ((N : Int) < 1 ∨ (u : Int) < 0 ∨ (u : Int) ≥ N) := by omega
    simp only [hu, Bool.or_true, if_true, hlen]
    rw [if_neg hnot]
    simp only [he]
  · rw [key, intOfIndex_unsigned index h u hu hv]
    have hyes : ((N : Int) < 1 ∨ wrapInt (u : Int) < 0 ∨ wrapInt (u : Int) ≥ N) := by
      unfold wrapInt; omega
    simp only [hu, Bool.or_true, if_true, hlen]
    rw [if_pos hyes]
  · rw [key]
    simp [h1, h2]

/-- C9, on the string "héllo" (6 bytes): the `uint64` token 2 yields byte 2, the
`uint64` token 2^64 - 1, which wraps around to -1, fails. -/
theorem valueAtIndex_sequence_witness :
    (kindOfValue (reflect.ValueOf (some (.string, .string "héllo")))).isSequence = true ∧
    (reflect.ValueOf (some (.string, .string "héllo"))).Len ⟨[]⟩ = .ok ((6 : Nat) : Int) ∧
    (6 : Nat) < 2 ^ 63 ∧
    valueAtIndex (reflect.ValueOf (some (.uint64, .uint 2)))
        (reflect.ValueOf (some (.string, .string "héllo"))) ⟨[]⟩
      = .ok ((.mk .uint8 (.imm (.uint 169)) false, true), ⟨[]⟩) ∧
    valueAtIndex (reflect.ValueOf (some (.uint64, .uint (2 ^ 64 - 1))))
        (reflect.ValueOf (some (.string, .string "héllo"))) ⟨[]⟩
      = .ok ((.zero, false), ⟨[]⟩) := by
  refine ⟨rfl, rfl, by norm_num, ?_, ?_⟩
  · obtain ⟨e, he, hv⟩ := ((valueAtIndex_sequence (reflect.ValueOf (some (.uint64, .uint 2)))
      (reflect.ValueOf (some (.string, .string "héllo"))) ⟨[]⟩ 6 rfl rfl (by norm_num)).2.1
        2 rfl rfl (by norm_num)).1 (by norm_num)
    have he1 : Except.ok (Value.mk .uint8 (.imm (.uint 169)) false) = Except.ok e := he
    cases he1
    exact hv
  · exact ((valueAtIndex_sequence (reflect.ValueOf (some (.uint64, .uint (2 ^ 64 - 1))))
      (reflect.ValueOf (some (.string, .string "héllo"))) ⟨[]⟩ 6 rfl rfl (by norm_num)).2.1
        (2 ^ 64 - 1) rfl rfl (by norm_num)).2 (by norm_num)

/-! ## Indexing maps -/

mutual
theorem beq_hashable : ∀ (a b : Val), Val.beq a b = true → Val.hashable b = true
  | a, b, hb => by
    cases a <;> cases b <;> simp only [Val.beq, Val.hashable] at hb ⊢ <;>
      first
        | rfl
        | exact absurd hb (by decide)
        | exact beqList_hashable _ _ hb
        | exact beq_hashable _ _ (by simpa using (Bool.and_eq_true _ _ ▸ hb).2)
theorem beqList_hashable : ∀ (as bs : List Val), Val.beqList as bs = true →
    Val.hashableList bs = true
  | [], [], _ => rfl
  | [], _ :: _, hb => by simp [Val.beqList] at hb
  | _ :: _, [], hb => by simp [Val.beqList] at hb
  | a :: as, b :: bs, hb => by
    simp only [Val.beqList, Bool.and_eq_true] at hb
    simp only [Val.hashableList, Bool.and_eq_true]
    exact ⟨beq_hashable a b hb.1, beqList_hashable as bs hb.2⟩
end

theorem lookupKey_hashable (k : Val) : ∀ (es : List (Val × Val)) (x : Val),
    lookupKey k es = some x → k.hashable = true := by
  intro es
  induction es with
  | nil => intro x hx; simp [lookupKey] at hx
  | cons e rest ih =>
    intro x hx
    obtain ⟨k1, v⟩ := e
    simp only [lookupKey] at hx
    split at hx
    · exact beq_hashable k1 k (by assumption)
    · exact ih x hx

theorem valueAtIndex_on_map_unfold (index : Value) (ct : GoType) (loc : reflect.Loc) (ro : Bool)
    (h : Heap) (K : GoType) (hk : ct.kind = KindMap) (hK : ct.Key = some K) :
    valueAtIndex index (.mk ct loc ro) h =
      match index.Type with
      | .error e => .error e
      | .ok it =>
        if !it.AssignableTo K then .ok ((.zero, false), h)
        else
          match Value.MapIndex (.mk ct loc ro) index h with
          | .error e => .error e
          | .ok val =>
            if !val.IsValid then .ok ((.zero, false), h)
            else .ok ((val, true), h) := by
  unfold valueAtIndex
  cases index with
  | zero =>
    simp only [valueAtIndexAux, kindOfValue, Value.Kind, hk, Value.Type]
  | mk kt kloc kro =>
    simp only [valueAtIndexAux, kindOfValue, Value.Kind, hk, Value.Type, hK]
    try rfl

theorem MapIndex_eq (ct : GoType) (loc : reflect.Loc) (ro : Bool) (kt : GoType)
    (kloc : reflect.Loc) (kro : Bool) (h : Heap) (K E : GoType) (m : Option Nat)
    (es : List (Val × Val)) (kv : Val)
    (hk : ct.kind = KindMap) (hK : ct.Key = some K) (hE : ct.Elem = some E)
    (hload : Value.load (.mk ct loc ro) h = .ok (.map m)) (hes : entriesOf h m = some es)
    (ha : kt.AssignableTo K = true) (hkl : Value.load (.mk kt kloc kro) h = .ok kv)
    (hh : (assignVal kt K kv).hashable = true) :
    Value.MapIndex (.mk ct loc ro) (.mk kt kloc kro) h =
      match lookupKey (assignVal kt K kv) es with
      | none => .ok .zero
      | some x => .ok (.mk E (.imm x) (ro || kro)) := by
  unfold Value.MapIndex
  simp only [hk, hK, hE, ha, if_true, hload, hkl, hh]
  cases m with
  | none =>
    simp only [entriesOf, Option.some.injEq] at hes
    subst hes
    rfl
  | some a =>
    simp only [entriesOf] at hes
    simp only [hes]
    try rfl

/-- C10: let `collection` be a map value with key type `K` and element type `E`
whose entries are `es` (none for a nil map).  `valueAtIndex` succeeds exactly
when the token has a runtime type assignable to `K` and the token, converted to
`K`, is a key of `es`; it then returns a copy of the value stored under that key,
at type `E`.  Whenever it returns, with success or with failure, the heap, and
with it the map, is the one it was given. -/
theorem valueAtIndex_map (index : Value) (ct : GoType) (loc : reflect.Loc) (ro : Bool)
    (h : Heap) (K E : GoType) (m : Option Nat) (es : List (Val × Val))
    (hk : ct.kind = KindMap) (hK : ct.Key = some K) (hE : ct.Elem = some E)
    (hload : Value.load (.mk ct loc ro) h = .ok (.map m)) (hes : entriesOf h m = some es) :
    (∀ v h1, valueAtIndex index (.mk ct loc ro) h = .ok ((v, true), h1) ↔
        h1 = h ∧ ∃ kt kloc kro kv x, index = .mk kt kloc kro ∧ index.load h = .ok kv ∧
          kt.AssignableTo K = true ∧ lookupKey (assignVal kt K kv) es = some x ∧
          v = .mk E (.imm x) (ro || kro)) ∧
    (∀ r h1, valueAtIndex index (.mk ct loc ro) h = .ok (r, h1) →
        h1 = h ∧ entriesOf h1 m = some es) := by
  have key := valueAtIndex_on_map_unfold index ct loc ro h K hk hK
  constructor
  · intro v h1
    rw [key]
    cases index with
    | zero =>
      simp only [Value.Type]
      constructor
      · intro hc; cases hc
      · rintro ⟨-, kt1, kloc1, kro1, kv1, x1, hi, -⟩
        cases hi
    | mk kt kloc kro =>
      simp only [Value.Type]
      by_cases ha : kt.AssignableTo K = true
      · simp only [ha, Bool.not_true, Bool.false_eq_true, if_false]
        cases hkl : Value.load (.mk kt kloc kro) h with
        | error e =>
          have hM : Value.MapIndex (.mk ct loc ro) (.mk kt kloc kro) h = .error e := by
            unfold Value.MapIndex
            simp only [hk, hK, hE, ha, if_true, hload, hkl]
          rw [hM]
          constructor
          · intro hc; cases hc
          · rintro ⟨-, kt1, kloc1, kro1, kv1, x1, hi, hkv, -⟩
            obtain ⟨e1, e2, e3⟩ := Value.mk.inj hi
            subst e1 e2 e3
            cases hkv
        | ok kv =>
          by_cases hh : (assignVal kt K kv).hashable = true
          · rw [MapIndex_eq ct loc ro kt kloc kro h K E m es kv hk hK hE hload hes ha hkl hh]
            cases hl : lookupKey (assignVal kt K kv) es with
            | none =>
              simp only [Value.IsValid, Bool.not_false, if_true]
              constructor
              · intro hc; cases hc
              · rintro ⟨-, kt1, kloc1, kro1, kv1, x1, hi, hkv, -, hx, -⟩
                obtain ⟨e1, e2, e3⟩ := Value.mk.inj hi
                subst e1 e2 e3
                cases hkv
                rw [hl] at hx
                cases hx
            | some x =>
              simp only [Value.IsValid, Bool.not_true, Bool.false_eq_true, if_false,
                Except.ok.injEq, Prod.mk.injEq, and_true]
              constructor
              · rintro ⟨rfl, rfl⟩
                exact ⟨rfl, kt, kloc, kro, kv, x, rfl, rfl, ha, hl, rfl⟩
              · rintro ⟨rfl, kt1, kloc1, kro1, kv1, x1, hi, hkv, -, hx, hv⟩
                obtain ⟨e1, e2, e3⟩ := Value.mk.inj hi
                subst e1 e2 e3
                cases hkv
                rw [hl] at hx
                cases hx
                exact ⟨hv.symm, rfl⟩
          · have hM : Value.MapIndex (.mk ct loc ro) (.mk kt kloc kro) h
                = .error .unhashableKey := by
              unfold Value.MapIndex
              simp only [hk, hK, hE, ha, if_true, hload, hkl, hh, Bool.false_eq_true, if_false]
            rw [hM]
            constructor
            · intro hc; cases hc
            · rintro ⟨-, kt1, kloc1, kro1, kv1, x1, hi, hkv, -, hx, -⟩
              obtain ⟨e1, e2, e3⟩ := Value.mk.inj hi
              subst e1 e2 e3
              cases hkv
              exact absurd (lookupKey_hashable _ es x1 hx) hh
      · simp only [ha, Bool.not_false, if_true]
        constructor
        · intro hc; cases hc
        · rintro ⟨-, kt1, kloc1, kro1, kv1, x1, hi, -, ha1, -, -⟩
          obtain ⟨e1, e2, e3⟩ := Value.mk.inj hi
          subst e1 e2 e3
          exact absurd ha1 ha
  · intro r h1 hr
    have g : ∀ (fuel : Nat), valueAtIndexAux (fuel + 1) index (.mk ct loc ro) h = .ok (r, h1) →
        h1 = h := by
      intro fuel hf
      simp only [valueAtIndexAux, kindOfValue, Value.Kind, hk] at hf
      repeat' split at hf
      all_goals first
        | (cases hf; done)
        | (cases hf; rfl)
    have := g _ hr
    subst this
    exact ⟨rfl, hes⟩
/-- C10, on a `map[string]int` holding "k" ↦ 3: the string token "k" yields a
copy of 3 and leaves the heap as it was. -/
theorem valueAtIndex_map_witness :
    GoType.kind (.map .string .int) = KindMap ∧
    Value.load (.mk (.map .string .int) (.imm (.map (some 0))) false)
        ⟨[.map [(.string "k", .int 3)]]⟩ = .ok (.map (some 0)) ∧
    entriesOf ⟨[.map [(.string "k", .int 3)]]⟩ (some 0) = some [(.string "k", .int 3)] ∧
    valueAtIndex (.mk .string (.imm (.string "k")) false)
        (.mk (.map .string .int) (.imm (.map (some 0))) false)
        ⟨[.map [(.string "k", .int 3)]]⟩
      = .ok ((.mk .int (.imm (.int 3)) false, true), ⟨[.map [(.string "k", .int 3)]]⟩) :=
  ⟨rfl, rfl, rfl,
    ((valueAtIndex_map (.mk .string (.imm (.string "k")) false) (.map .string .int)
        (.imm (.map (some 0))) false ⟨[.map [(.string "k", .int 3)]]⟩ .string .int (some 0)
        [(.string "k", .int 3)] rfl rfl rfl rfl rfl).1 _ _).mpr
      ⟨rfl, .string, .imm (.string "k"), false, .string "k", .int 3, rfl, rfl, rfl, rfl, rfl⟩⟩

/-! ## The bound on nested calls of `valueAtIndex` is never reached -/

theorem ptrDepth_of_Elem : ∀ (t et : GoType), t.kind = KindPtr → t.Elem = some et →
    t.ptrDepth = et.ptrDepth + 1
  | .named _ u, et, hk, he => ptrDepth_of_Elem u et hk he
  | .ptr e, et, _, he => by
    simp only [GoType.Elem, Option.some.injEq] at he
    subst he
    rfl
  | .array _ _, _, hk, _ | .slice _, _, hk, _ | .map _ _, _, hk, _ | .chan _, _, hk, _
  | .bool, _, hk, _ | .int, _, hk, _ | .int8, _, hk, _ | .int16, _, hk, _ | .int32, _, hk, _
  | .int64, _, hk, _ | .uint, _, hk, _ | .uint8, _, hk, _ | .uint16, _, hk, _
  | .uint32, _, hk, _ | .uint64, _, hk, _ | .uintptr, _, hk, _ | .float32, _, hk, _
  | .float64, _, hk, _ | .complex64, _, hk, _ | .complex128, _, hk, _ | .string, _, hk, _
  | .unsafePointer, _, hk, _ | .func _, _, hk, _ | .emptyInterface, _, hk, _
  | .struct _, _, hk, _ => by simp [GoType.kind] at hk

theorem ptrDepthOf_Elem (c e : Value) (h : Heap) (hk : kindOfValue c = KindPtr)
    (he : c.Elem h = .ok e) : ptrDepthOf e < ptrDepthOf c := by
  cases c with
  | zero => cases he
  | mk t loc ro =>
    simp only [kindOfValue, Value.Kind] at hk
    unfold Value.Elem at he
    simp only [hk] at he
    split at he
    · cases he
    · cases he
      obtain ⟨et, het⟩ := Elem_of_kind t (Or.inr (Or.inr (Or.inl hk)))
      simp [ptrDepthOf, ptrDepth_of_Elem t et hk het]
    · rename_i r et hl het
      cases he
      simp [ptrDepthOf, ptrDepth_of_Elem t et hk het]
    · cases he

theorem valueAtIndexAux_fuel (index : Value) : ∀ (n : Nat) (c : Value) (h : Heap),
    ptrDepthOf c < n →
      valueAtIndexAux n index c h = valueAtIndexAux (ptrDepthOf c + 1) index c h := by
  intro n
  induction n using Nat.strong_induction_on with
  | _ n ih =>
    intro c h hn
    cases n with
    | zero => omega
    | succ k =>
      have step : ∀ (e : Value) (h1 : Heap), c.Elem h1 = .ok e → kindOfValue c = KindPtr →
          valueAtIndexAux k index e h1 = valueAtIndexAux (ptrDepthOf c) index e h1 := by
        intro e h1 he hk
        have hd := ptrDepthOf_Elem c e h1 hk he
        rw [ih k (by omega) e h1 (by omega), ih (ptrDepthOf c) (by omega) e h1 hd]
      simp only [valueAtIndexAux]
      split <;> try rfl
      rename_i hk
      repeat' split
      all_goals first
        | rfl
        | exact step _ _ (by assumption) hk

/-! ## Paths are resolved token by token -/

theorem Path_FetchValue_append (p q : List Object) : ∀ (root : Value) (h : Heap),
    Path.FetchValue (p ++ q) root h =
      match Path.FetchValue p root h with
      | .error e => .error e
      | .ok ((u, true), h1) => Path.FetchValue q u h1
      | .ok ((_, false), h1) => .ok ((.zero, false), h1) := by
  induction p with
  | nil => intro root h; simp [Path.FetchValue]
  | cons index rest ih =>
    intro root h
    simp only [List.cons_append, Path.FetchValue]
    cases hv : valueAtIndex (reflect.ValueOf index) root h with
    | error e => rfl
    | ok r =>
      obtain ⟨⟨v1, ok⟩, h1⟩ := r
      cases ok with
      | false => rfl
      | true =>
        simp only [Bool.not_true, Bool.false_eq_true, if_false]
        exact ih v1 h1

/-- C17: resolving `p ++ q` is resolving `p` and then, if that succeeded, `q`
from the value and the heap that `p` left.  So `p ++ q` succeeds with `v` exactly
when `p` succeeds with some `u` and `q`, started at `u`, succeeds with `v`; when
`p` fails, `p ++ q` fails with the heap `p` left, no token of `q` having been
applied; and a panic of `p` is the panic of `p ++ q`. -/
theorem Path_FetchValue_is_fold (p q : List Object) (root : Value) (h : Heap) :
    (Path.FetchValue (p ++ q) root h =
      match Path.FetchValue p root h with
      | .error e => .error e
      | .ok ((u, true), h1) => Path.FetchValue q u h1
      | .ok ((_, false), h1) => .ok ((.zero, false), h1)) ∧
    (∀ v h2, Path.FetchValue (p ++ q) root h = .ok ((v, true), h2) ↔
      ∃ u h1, Path.FetchValue p root h = .ok ((u, true), h1) ∧
        Path.FetchValue q u h1 = .ok ((v, true), h2)) ∧
    (∀ u h1, Path.FetchValue p root h = .ok ((u, false), h1) →
      Path.FetchValue (p ++ q) root h = .ok ((.zero, false), h1)) ∧
    (∀ e, Path.FetchValue p root h = .error e →
      Path.FetchValue (p ++ q) root h = .error e) := by
  have key := Path_FetchValue_append p q root h
  refine ⟨key, fun v h2 => ?_, fun u h1 hp => ?_, fun e hp => ?_⟩
  · rw [key]
    cases hp : Path.FetchValue p root h with
    | error e => simp
    | ok r =>
      obtain ⟨⟨u, ok⟩, h1⟩ := r
      cases ok with
      | false => simp
      | true =>
        simp only [Except.ok.injEq, Prod.mk.injEq, and_true]
        constructor
        · intro hq; exact ⟨u, h1, ⟨rfl, rfl⟩, hq⟩
        · rintro ⟨u1, h3, ⟨rfl, rfl⟩, hq⟩; exact hq
  · rw [key, hp]
  · rw [key, hp]

/-! ## Kinds that cannot be indexed -/

theorem valueAtIndex_on_other_kind (index c : Value) (h : Heap)
    (hk : (kindOfValue c).isContainer = false) :
    valueAtIndex index c h = .ok ((.zero, false), h) := by
  unfold valueAtIndex
  simp only [valueAtIndexAux]
  cases hkc : kindOfValue c <;> simp [Kind.isContainer, hkc] at hk <;> rfl

/-- C15: on a value whose kind is none of array, slice, string, map, pointer and
struct (the scalars, interface, chan, func, unsafe pointer, and the zero Value of
kind invalid) `valueAtIndex` fails for every token and leaves the heap as it was.
So when the first token of a path lands on a slot of interface kind, the path
fails at its second token, whatever the slot holds. -/
theorem valueAtIndex_fails_on_other_kinds (index c : Value) (h : Heap) :
    ((kindOfValue c).isContainer = false →
      valueAtIndex index c h = .ok ((.zero, false), h)) ∧
    (∀ (t1 t2 : Object) (rest : List Object) (v : Value) (h1 : Heap),
      valueAtIndex (reflect.ValueOf t1) c h = .ok ((v, true), h1) →
      kindOfValue v = KindInterface →
      Path.FetchValue (t1 :: t2 :: rest) c h = .ok ((.zero, false), h1)) := by
  refine ⟨valueAtIndex_on_other_kind index c h, fun t1 t2 rest v h1 hv hk => ?_⟩
  have h2 := valueAtIndex_on_other_kind (reflect.ValueOf t2) v h1 (by rw [hk]; rfl)
  simp [Path.FetchValue, hv, h2]

/-- C15, on a `map[string]interface{}` whose entry "k" holds a
`map[string]int` with the key "x": the path "k", "x" fails, although the held
map could be indexed by "x". -/
theorem valueAtIndex_fails_on_other_kinds_witness :
    valueAtIndex (reflect.ValueOf (some (.string, .string "k")))
        (.mk (.map .string .emptyInterface) (.imm (.map (some 0))) false)
        ⟨[.map [(.string "k", .iface (.map .string .int) (.map (some 1)))],
          .map [(.string "x", .int 3)]]⟩
      = .ok ((.mk .emptyInterface (.imm (.iface (.map .string .int) (.map (some 1)))) false,
          true),
        ⟨[.map [(.string "k", .iface (.map .string .int) (.map (some 1)))],
          .map [(.string "x", .int 3)]]⟩) ∧
    kindOfValue (.mk .emptyInterface (.imm (.iface (.map .string .int) (.map (some 1)))) false)
      = KindInterface ∧
    Path.FetchValue [some (.string, .string "k"), some (.string, .string "x")]
        (.mk (.map .string .emptyInterface) (.imm (.map (some 0))) false)
        ⟨[.map [(.string "k", .iface (.map .string .int) (.map (some 1)))],
          .map [(.string "x", .int 3)]]⟩
      = .ok ((.zero, false),
        ⟨[.map [(.string "k", .iface (.map .string .int) (.map (some 1)))],
          .map [(.string "x", .int 3)]]⟩) :=
  ⟨rfl, rfl,
    (valueAtIndex_fails_on_other_kinds (reflect.ValueOf none)
      (.mk (.map .string .emptyInterface) (.imm (.map (some 0))) false)
      ⟨[.map [(.string "k", .iface (.map .string .int) (.map (some 1)))],
        .map [(.string "x", .int 3)]]⟩).2
      (some (.string, .string "k")) (some (.string, .string "x")) [] _ _ rfl rfl⟩

/-! ## Reading and writing heap slots -/

theorem Val_set_of_get : ∀ (sel : List Nat) (v w x : Val), v.get sel = some w →
    ∃ v1, v.set sel x = some v1 ∧ v1.get sel = some x := by
  intro sel
  induction sel with
  | nil => intro v w x _; exact ⟨x, by simp [Val.set], by simp [Val.get]⟩
  | cons i rest ih =>
    intro v w x hg
    cases v <;> simp only [Val.get] at hg <;> try cases hg
    · rename_i es
      split at hg
      · rename_i e he
        obtain ⟨e1, hs, hg1⟩ := ih e w x hg
        have hlt : i < es.length := by
          rcases Nat.lt_or_ge i es.length with hl | hl
          · exact hl
          · rw [List.getElem?_eq_none hl] at he; cases he
        exact ⟨.array (es.set i e1), by simp [Val.set, he, hs], by simp [Val.get, hlt, hg1]⟩
      · cases hg
    · rename_i es
      split at hg
      · rename_i e he
        obtain ⟨e1, hs, hg1⟩ := ih e w x hg
        have hlt : i < es.length := by
          rcases Nat.lt_or_ge i es.length with hl | hl
          · exact hl
          · rw [List.getElem?_eq_none hl] at he; cases he
        exact ⟨.struct (es.set i e1), by simp [Val.set, he, hs], by simp [Val.get, hlt, hg1]⟩
      · cases hg

theorem Heap_write_of_read (h : Heap) (r : Ref) (w x : Val) (hr : h.read r = some w) :
    ∃ h1, h.write r x = some h1 ∧ h1.read r = some x ∧
      h1.cells.length = h.cells.length := by
  unfold Heap.read at hr
  split at hr
  · rename_i v hv
    obtain ⟨v1, hs, hg⟩ := Val_set_of_get r.sel v w x hr
    have hlt : r.addr < h.cells.length := by
      rcases Nat.lt_or_ge r.addr h.cells.length with hl | hl
      · exact hl
      · rw [List.getElem?_eq_none hl] at hv; cases hv
    refine ⟨⟨h.cells.set r.addr (.var v1)⟩, by simp [Heap.write, hv, hs], ?_, by simp⟩
    simp [Heap.read, hlt, hg]
  · cases hr

theorem Heap_read_alloc (h : Heap) (z : Val) (r : Ref) (w : Val) (hr : h.read r = some w) :
    (h.alloc z).2.read r = some w := by
  unfold Heap.read at hr ⊢
  split at hr
  · rename_i v hv
    have hlt : r.addr < h.cells.length := by
      rcases Nat.lt_or_ge r.addr h.cells.length with hl | hl
      · exact hl
      · rw [List.getElem?_eq_none hl] at hv; cases hv
    simp [Heap.alloc, List.getElem?_append_left hlt, hv, hr]
  · cases hr

theorem Heap_read_lt (h : Heap) (r : Ref) (w : Val) (hr : h.read r = some w) :
    r.addr < h.cells.length := by
  unfold Heap.read at hr
  split at hr
  · rename_i v hv
    rcases Nat.lt_or_ge r.addr h.cells.length with hl | hl
    · exact hl
    · rw [List.getElem?_eq_none hl] at hv; cases hv
  · cases hr

theorem Heap_read_write_other_cell (h h1 : Heap) (r q : Ref) (x : Val)
    (hw : h.write r x = some h1) (hne : q.addr ≠ r.addr) : h1.read q = h.read q := by
  unfold Heap.write at hw
  split at hw
  · split at hw
    · simp only [Option.some.injEq] at hw
      subst hw
      simp [Heap.read, List.getElem?_set, Ne.symm hne]
    · cases hw
  · cases hw

/-! ## Indexing through pointers -/

theorem underlying_of_ptr_kind : ∀ (t et : GoType), t.kind = KindPtr → t.Elem = some et →
    t.underlying = .ptr et
  | .named _ u, et, hk, he => underlying_of_ptr_kind u et hk he
  | .ptr e, et, _, he => by
    simp only [GoType.Elem, Option.some.injEq] at he
    subst he
    rfl
  | .array _ _, _, hk, _ | .slice _, _, hk, _ | .map _ _, _, hk, _ | .chan _, _, hk, _
  | .bool, _, hk, _ | .int, _, hk, _ | .int8, _, hk, _ | .int16, _, hk, _ | .int32, _, hk, _
  | .int64, _, hk, _ | .uint, _, hk, _ | .uint8, _, hk, _ | .uint16, _, hk, _
  | .uint32, _, hk, _ | .uint64, _, hk, _ | .uintptr, _, hk, _ | .float32, _, hk, _
  | .float64, _, hk, _ | .complex64, _, hk, _ | .complex128, _, hk, _ | .string, _, hk, _
  | .unsafePointer, _, hk, _ | .func _, _, hk, _ | .emptyInterface, _, hk, _
  | .struct _, _, hk, _ => by simp [GoType.kind] at hk

theorem ptr_AssignableTo (t et : GoType) (hk : t.kind = KindPtr) (he : t.Elem = some et) :
    (GoType.ptr et).AssignableTo t = true := by
  have hu := underlying_of_ptr_kind t et hk he
  simp [GoType.AssignableTo, GoType.underlying, hu, GoType.isNamed]

theorem valueAtIndex_ptr_nonnil (index : Value) (t : GoType) (loc : reflect.Loc) (ro : Bool)
    (h : Heap) (r : Ref) (et : GoType) (hk : t.kind = KindPtr) (he : t.Elem = some et)
    (hl : Value.load (.mk t loc ro) h = .ok (.ptr (some r))) :
    valueAtIndex index (.mk t loc ro) h = valueAtIndex index (.mk et (.ref r) ro) h := by
  have hd := ptrDepth_of_Elem t et hk he
  unfold valueAtIndex
  simp only [ptrDepthOf, hd]
  rw [valueAtIndexAux]
  simp only [kindOfValue, Value.Kind, hk, Value.IsNil, hl, Option.isNone_some, Value.Elem, he]

theorem valueAtIndex_ptr_nil_fixed (index : Value) (t : GoType) (loc : reflect.Loc) (ro : Bool)
    (h : Heap) (hk : t.kind = KindPtr)
    (hl : Value.load (.mk t loc ro) h = .ok (.ptr none))
    (hc : Value.CanSet (.mk t loc ro) = false) :
    valueAtIndex index (.mk t loc ro) h = .ok ((.zero, false), h) := by
  unfold valueAtIndex
  simp only [ptrDepthOf]
  rw [valueAtIndexAux]
  simp only [kindOfValue, Value.Kind, hk, Value.IsNil, hl, Option.isNone_none, hc,
    Bool.not_false, if_true]

theorem valueAtIndex_ptr_nil_settable (index : Value) (t : GoType) (h : Heap) (r : Ref)
    (et : GoType) (hk : t.kind = KindPtr) (he : t.Elem = some et)
    (hl : h.read r = some (.ptr none)) :
    ∃ h1, (h.alloc (zero et)).2.write r (.ptr (some ⟨h.cells.length, []⟩)) = some h1 ∧
      h1.cells.length = h.cells.length + 1 ∧
      h1.read r = some (.ptr (some ⟨h.cells.length, []⟩)) ∧
      h1.read ⟨h.cells.length, []⟩ = some (zero et) ∧
      valueAtIndex index (.mk t (.ref r) false) h
        = valueAtIndex index (.mk et (.ref ⟨h.cells.length, []⟩) false) h1 := by
  have hd := ptrDepth_of_Elem t et hk he
  have hr1 := Heap_read_alloc h (zero et) r _ hl
  obtain ⟨h1, hw, hrw, hlen⟩ := Heap_write_of_read (h.alloc (zero et)).2 r (.ptr none)
    (.ptr (some ⟨h.cells.length, []⟩)) hr1
  have hlt := Heap_read_lt h r _ hl
  have hnew : h1.read ⟨h.cells.length, []⟩ = some (zero et) := by
    rw [Heap_read_write_other_cell _ h1 r ⟨h.cells.length, []⟩ _ hw (by simp; omega)]
    simp [Heap.read, Heap.alloc, Val.get]
  refine ⟨h1, hw, by simp [hlen, Heap.alloc], hrw, hnew, ?_⟩
  have hA := ptr_AssignableTo t et hk he
  have hav : assignVal (.ptr et) t (.ptr (some ⟨h.cells.length, []⟩))
      = .ptr (some ⟨h.cells.length, []⟩) := by
    simp [assignVal, hk]
  unfold valueAtIndex
  simp only [ptrDepthOf, hd]
  rw [valueAtIndexAux]
  simp only [kindOfValue, Value.Kind, hk, Value.IsNil, Value.load, hl, Option.isNone_none,
    Value.CanSet, Bool.not_true, Bool.false_eq_true, if_false, Value.Type, he, reflect.New,
    Value.Set, hA, if_true, hav, Heap.alloc] at hw ⊢
  simp only [hw, Value.Elem, hk, Value.load, hrw, he]
/-- C11: let `p` be a value of pointer kind with element type `et`.  If `p` is
non-nil, `valueAtIndex` resolves the token against the variable `p` points to,
in the same heap: this step allocates nothing.  If `p` is nil and not settable,
it fails and the heap, and with it `p`, is as before.  If `p` is nil and
settable, one variable holding the zero value of `et` is allocated at the first
unused address, `p` is made to point to it, nothing else changes size, and the
token is resolved against that new variable. -/
theorem valueAtIndex_pointer (index : Value) (t : GoType) (loc : reflect.Loc) (ro : Bool)
    (h : Heap) (hk : t.kind = KindPtr) :
    ∃ et, t.Elem = some et ∧
      (∀ r, Value.load (.mk t loc ro) h = .ok (.ptr (some r)) →
        valueAtIndex index (.mk t loc ro) h = valueAtIndex index (.mk et (.ref r) ro) h) ∧
      (Value.load (.mk t loc ro) h = .ok (.ptr none) → Value.CanSet (.mk t loc ro) = false →
        valueAtIndex index (.mk t loc ro) h = .ok ((.zero, false), h)) ∧
      (∀ r, loc = .ref r → ro = false → h.read r = some (.ptr none) →
        ∃ h1, (h.alloc (zero et)).2.write r (.ptr (some ⟨h.cells.length, []⟩)) = some h1 ∧
          h1.cells.length = h.cells.length + 1 ∧
          h1.read r = some (.ptr (some ⟨h.cells.length, []⟩)) ∧
          h1.read ⟨h.cells.length, []⟩ = some (zero et) ∧
          valueAtIndex index (.mk t loc ro) h
            = valueAtIndex index (.mk et (.ref ⟨h.cells.length, []⟩) false) h1) := by
  obtain ⟨et, he⟩ := Elem_of_kind t (Or.inr (Or.inr (Or.inl hk)))
  refine ⟨et, he, fun r hl => valueAtIndex_ptr_nonnil index t loc ro h r et hk he hl,
    fun hl hc => valueAtIndex_ptr_nil_fixed index t loc ro h hk hl hc, ?_⟩
  rintro r rfl rfl hl
  exact valueAtIndex_ptr_nil_settable index t h r et hk he hl

/-- C11, on the nil pointer field `P` of a struct variable, resolving the token
"X": a zero `struct{X int}` is allocated at address 1, `P` points to it, and the
result is the field `X` of the new variable. -/
theorem valueAtIndex_pointer_witness :
    GoType.kind (.ptr (.struct (.cons "X" true .int .nil))) = KindPtr ∧
    Heap.read ⟨[.var (.struct [.ptr none])]⟩ ⟨0, [0]⟩ = some (.ptr none) ∧
    valueAtIndex (reflect.ValueOf (some (.string, .string "X")))
        (.mk (.ptr (.struct (.cons "X" true .int .nil))) (.ref ⟨0, [0]⟩) false)
        ⟨[.var (.struct [.ptr none])]⟩
      = .ok ((.mk .int (.ref ⟨1, [0]⟩) false, true),
          ⟨[.var (.struct [.ptr (some ⟨1, []⟩)]), .var (.struct [.int 0])]⟩) := by
  refine ⟨rfl, rfl, ?_⟩
  obtain ⟨et, he, -, -, hset⟩ := valueAtIndex_pointer
    (reflect.ValueOf (some (.string, .string "X")))
    (.ptr (.struct (.cons "X" true .int .nil))) (.ref ⟨0, [0]⟩) false
    ⟨[.var (.struct [.ptr none])]⟩ rfl
  cases he
  obtain ⟨h1, hw, -, -, -, heq⟩ := hset ⟨0, [0]⟩ rfl rfl rfl
  have hw1 : some (Heap.mk [.var (.struct [.ptr (some ⟨1, []⟩)]), .var (.struct [.int 0])])
      = some h1 := hw
  cases hw1
  rw [heq]
  rfl

/-! ## Path-anchored value source -/

theorem ObjectAtPath_ExtractObject_success_iff (p : ObjectPath) (ak : AssignableKind)
    (data : Object) (h : Heap) (y : Object) (h1 : Heap) :
    ObjectAtPath.ExtractObject p ak data h = .ok ((y, true), h1) ↔
      ∃ x, p.orRoot.FetchObject data h = .ok ((x, true), h1) ∧ ak ≠ .nil ∧
        ak.IsAssignable x = .ok true ∧ ak.AssignObject x = .ok (y, true) := by
  unfold ObjectAtPath.ExtractObject
  constructor
  · intro hr
    split at hr
    · cases hr
    · rename_i ofd ok h2 hf
      split at hr
      · simp at hr
      · rename_i hok
        simp only [Bool.not_eq_true, Bool.not_eq_false, Bool.not_eq_eq_eq_not,
          Bool.not_true, Bool.not_false] at hok
        subst hok
        split at hr
        · simp at hr
        · rename_i hnil
          split at hr
          · cases hr
          · simp at hr
          · rename_i hia
            split at hr
            · cases hr
            · simp at hr
            · rename_i ao hao
              simp only [Except.ok.injEq, Prod.mk.injEq, and_true] at hr
              obtain ⟨rfl, rfl⟩ := hr
              exact ⟨ofd, hf, fun hc => hnil hc, hia, hao⟩
  · rintro ⟨x, hf, hnil, hia, hao⟩
    cases ak with
    | nil => exact absurd rfl hnil
    | Kind k => simp [hf, hia, hao]
    | ConvertibleKind k f => simp [hf, hia, hao]
    | AssignmentFunction f => simp [hf, hia, hao]
    | AssignableKinds aks => simp [hf, hia, hao]

theorem ObjectAtPath_ExtractObject_failure (p : ObjectPath) (ak : AssignableKind)
    (data : Object) (h : Heap) (y : Object) (h1 : Heap)
    (hr : ObjectAtPath.ExtractObject p ak data h = .ok ((y, false), h1)) : y = none := by
  unfold ObjectAtPath.ExtractObject at hr
  repeat' split at hr
  all_goals first
    | (cases hr; done)
    | (cases hr; rfl)

/-- C13 (the code departs from the claim): for the source
`ObjectAtPath{ObjectPath: Path{}, AssignableKind: KindString}` and absent data,
the path resolves to the absent root, which is not a string, so the claim gives
failure with an absent object; `ExtractObject` panics instead, because
`Path.FetchObject` asks the zero `reflect.Value` whether it can be read.  With
the nil path, which means the root, the same call returns failure.  (Same defect
as C8.) -/
theorem ObjectAtPath_ExtractObject_panics_on_absent_data :
    ObjectAtPath.ExtractObject (.Path []) (.Kind KindString) none ⟨[]⟩ = .error .valueError ∧
    ObjectAtPath.ExtractObject .nil (.Kind KindString) none ⟨[]⟩ = .ok ((none, false), ⟨[]⟩) ∧
    ObjectAtPath.ExtractObject .nil (.Kind KindString) (some (.string, .string "a")) ⟨[]⟩
      = .ok ((some (.string, .string "a"), true), ⟨[]⟩) :=
  ⟨rfl, rfl, rfl⟩
/-! ## Prototype -/

theorem zero_of_interface_kind : ∀ (t : GoType), t.kind = KindInterface → zero t = .ifaceNil
  | .named _ u, hk => by
    have := zero_of_interface_kind u hk
    simpa [zero] using this
  | .emptyInterface, _ => rfl
  | .array _ _, hk | .slice _, hk | .map _ _, hk | .chan _, hk | .ptr _, hk
  | .bool, hk | .int, hk | .int8, hk | .int16, hk | .int32, hk | .int64, hk
  | .uint, hk | .uint8, hk | .uint16, hk | .uint32, hk | .uint64, hk | .uintptr, hk
  | .float32, hk | .float64, hk | .complex64, hk | .complex128, hk
  | .string, hk | .unsafePointer, hk | .func _, hk
  | .struct _, hk => by simp [GoType.kind] at hk

/-- C16 (the claim fails): a Descriptor with `Type` `int` and a nil `Filler`
yields the prototype 0, not an absent result. -/
theorem GetPrototype_with_nil_Filler :
    Descriptor.GetPrototype (some ⟨some .int, .nil⟩) ⟨[]⟩
      = .ok (some (.int, .int 0), ⟨[.var (.int 0)]⟩) :=
  rfl

/-- C16, amended: `GetPrototype` returns the absent result, allocating nothing,
for a nil Descriptor and for a Descriptor with a nil `Type`; for any other
Descriptor it allocates one variable holding the zero value of `Type` and returns
a copy of it, which is the absent object exactly when `Type` is of interface
kind.  The `Filler` plays no part: it is not run and the result is the same
whether it is nil or not. -/
theorem GetPrototype_returns_zero_instance (h : Heap) :
    Descriptor.GetPrototype none h = .ok (none, h) ∧
    (∀ filler : Filler, Descriptor.GetPrototype (some ⟨none, filler⟩) h = .ok (none, h)) ∧
    (∀ (t : GoType) (filler : Filler),
      Descriptor.GetPrototype (some ⟨some t, filler⟩) h
        = .ok ((if t.kind = KindInterface then none else some (t, zero t)),
            (h.alloc (zero t)).2) ∧
      (h.alloc (zero t)).2.read ⟨h.cells.length, []⟩ = some (zero t) ∧
      h.read ⟨h.cells.length, []⟩ = none) := by
  refine ⟨rfl, fun filler => rfl, fun t filler => ⟨?_, ?_, ?_⟩⟩
  · have hE : (reflect.New t h).1.Elem (h.alloc (zero t)).2
        = .ok (.mk t (.ref ⟨h.cells.length, []⟩) false) := by
      simp [reflect.New, Value.Elem, Value.load, GoType.kind, GoType.Elem, Heap.alloc]
    have hH : (reflect.New t h).2 = (h.alloc (zero t)).2 := rfl
    have hread : (h.alloc (zero t)).2.read ⟨h.cells.length, []⟩ = some (zero t) := by
      simp [Heap.read, Heap.alloc, Val.get]
    simp only [Descriptor.GetPrototype, hH, hE, Value.CanInterface, Bool.not_false]
    by_cases hk : t.kind = KindInterface
    · have hz := zero_of_interface_kind t hk
      rw [hz] at hread
      simp [Value.Interface, Value.load, hread, hk, hz]
    · simp [Value.Interface, Value.load, hread, hk]
  · simp [Heap.read, Heap.alloc, Val.get]
  · simp [Heap.read]

/-! ## Every rule is counted once -/

mutual
theorem Filler_Fill_counts_leaves : ∀ (f : Filler) (value : Value) (data : Object) (h : Heap)
    (c : Int × Int) (h1 : Heap), f.Fill value data h = .ok (c, h1) →
      c.1 + c.2 = f.leaves ∧ 0 ≤ c.1 ∧ 0 ≤ c.2 ∨ 2 ^ 63 ≤ f.leaves
  | .nil, _, _, _, _, _, hr => by cases hr
  | .ObjectFiller p s, value, data, h, c, h1, hr => by
    left
    simp only [Filler.Fill] at hr
    rcases ObjectFiller_Fill_returns p s value data h c h1 hr with hc | hc <;>
      simp [hc, Filler.leaves]
  | .Fillers fs, value, data, h, c, h1, hr => by
    simp only [Filler.Fill] at hr
    rcases Fillers_loop_counts_leaves fs value data 0 0 h c h1 hr (le_refl _) (le_refl _)
      with hc | hc
    · left; simpa [Filler.leaves] using hc
    · right; simpa [Filler.leaves] using hc
theorem Fillers_loop_counts_leaves : ∀ (fs : List Filler) (value : Value) (data : Object)
    (success failure : Int) (h : Heap) (c : Int × Int) (h1 : Heap),
    Fillers.Fill.loop fs value data success failure h = .ok (c, h1) →
    0 ≤ success → 0 ≤ failure →
      c.1 + c.2 = success + failure + Fillers.leaves fs ∧ 0 ≤ c.1 ∧ 0 ≤ c.2 ∨
        2 ^ 63 ≤ success + failure + Fillers.leaves fs
  | [], _, _, success, failure, _, c, _, hr, hs, hf => by
    left
    simp only [Fillers.Fill.loop, Except.ok.injEq, Prod.mk.injEq] at hr
    obtain ⟨rfl, -⟩ := hr
    simp [Fillers.leaves, hs, hf]
  | m :: rest, value, data, success, failure, h, c, h1, hr, hs, hf => by
    by_cases hm : m = .nil
    · subst hm
      simp only [Fillers.Fill.loop] at hr
      simpa [Fillers.leaves, Filler.leaves] using
        Fillers_loop_counts_leaves rest value data success failure h c h1 hr hs hf
    · rw [Fillers_Fill_loop_cons m rest value data success failure h hm] at hr
      split at hr
      · cases hr
      · rename_i s f h2 hv
        rcases Filler_Fill_counts_leaves m value data h _ _ hv with ⟨hsum, h0s, h0f⟩ | hbig
        · simp only at hsum h0s h0f
          by_cases hfit : success + failure + ((m.leaves : Int) + Fillers.leaves rest) < 2 ^ 63
          · have hleaves : (0 : Int) ≤ Fillers.leaves rest := Int.natCast_nonneg _
            have w1 : wrapInt (success + s) = success + s :=
              wrapInt_of_range _ (by omega) (by omega)
            have w2 : wrapInt (failure + f) = failure + f :=
              wrapInt_of_range _ (by omega) (by omega)
            rw [w1, w2] at hr
            rcases Fillers_loop_counts_leaves rest value data _ _ h2 c h1 hr (by omega)
              (by omega) with ⟨a, b, d⟩ | hbig
            · left
              refine ⟨?_, b, d⟩
              simp only [Fillers.leaves, Nat.cast_add]
              omega
            · right
              simp only [Fillers.leaves, Nat.cast_add]
              omega
          · right
            simp only [Fillers.leaves, Nat.cast_add]
            omega
        · right
          have hleaves : (0 : Int) ≤ Fillers.leaves rest := Int.natCast_nonneg _
          simp only [Fillers.leaves, Nat.cast_add]
          omega
end

/-- C18: for a filler built from `Fillers` lists nested to any depth, with nil
entries allowed, over single object fillers: whenever `Fill` returns (no object
filler panicked), the success and failure counts are non-negative and add up to
the number of object fillers in the tree, provided that number fits in an `int`. -/
theorem Fill_counts_every_rule_once (f : Filler) (value : Value) (data : Object) (h : Heap)
    (c : Int × Int) (h1 : Heap) (hr : f.Fill value data h = .ok (c, h1))
    (hfit : f.leaves < 2 ^ 63) :
    c.1 + c.2 = f.leaves ∧ 0 ≤ c.1 ∧ 0 ≤ c.2 := by
  rcases Filler_Fill_counts_leaves f value data h c h1 hr with hc | hbig
  · exact hc
  · exfalso
    have : (f.leaves : Int) < 2 ^ 63 := by exact_mod_cast hfit
    omega

/-- C18, on a tree with three object fillers (two of them in a nested list) and
two nil entries, over an `int` variable: the counts are (2,1). -/
theorem Fill_counts_every_rule_once_witness :
    Filler.Fill
        (.Fillers [.ObjectFiller .nil (.DefaultValue (some (.int, .int 5))), .nil,
          .Fillers [.ObjectFiller .nil (.DefaultValue (some (.string, .string "a"))), .nil,
            .ObjectFiller .nil (.DefaultValue (some (.int, .int 7)))]])
        (.mk .int (.ref ⟨0, []⟩) false) none ⟨[.var (.int 0)]⟩
      = .ok ((2, 1), ⟨[.var (.int 7)]⟩) ∧
    Filler.leaves
        (.Fillers [.ObjectFiller .nil (.DefaultValue (some (.int, .int 5))), .nil,
          .Fillers [.ObjectFiller .nil (.DefaultValue (some (.string, .string "a"))), .nil,
            .ObjectFiller .nil (.DefaultValue (some (.int, .int 7)))]]) < 2 ^ 63 ∧
    ((2 : Int) + 1 = (3 : Nat) ∧ (0 : Int) ≤ 2 ∧ (0 : Int) ≤ 1) :=
  ⟨rfl, by decide,
    Fill_counts_every_rule_once
      (.Fillers [.ObjectFiller .nil (.DefaultValue (some (.int, .int 5))), .nil,
        .Fillers [.ObjectFiller .nil (.DefaultValue (some (.string, .string "a"))), .nil,
          .ObjectFiller .nil (.DefaultValue (some (.int, .int 7)))]])
      (.mk .int (.ref ⟨0, []⟩) false) none ⟨[.var (.int 0)]⟩ (2, 1) ⟨[.var (.int 7)]⟩ rfl
      (by decide)⟩

/-! ## Destinations inside maps and strings -/

theorem derefKind_eq_kind : ∀ (t : GoType), t.kind ≠ KindPtr → t.derefKind = t.kind
  | .named _ u, hk => by
    have := derefKind_eq_kind u hk
    simpa [GoType.derefKind, GoType.kind] using this
  | .ptr _, hk => by simp [GoType.kind] at hk
  | .array _ _, _ | .slice _, _ | .map _ _, _ | .chan _, _
  | .bool, _ | .int, _ | .int8, _ | .int16, _ | .int32, _ | .int64, _
  | .uint, _ | .uint8, _ | .uint16, _ | .uint32, _ | .uint64, _ | .uintptr, _
  | .float32, _ | .float64, _ | .complex64, _ | .complex128, _
  | .string, _ | .unsafePointer, _ | .func _, _ | .emptyInterface, _
  | .struct _, _ => rfl

theorem derefKind_of_Elem : ∀ (t et : GoType), t.kind = KindPtr → t.Elem = some et →
    et.derefKind = t.derefKind
  | .named _ u, et, hk, he => by
    have := derefKind_of_Elem u et hk he
    simpa [GoType.derefKind] using this
  | .ptr e, et, _, he => by
    simp only [GoType.Elem, Option.some.injEq] at he
    subst he
    rfl
  | .array _ _, _, hk, _ | .slice _, _, hk, _ | .map _ _, _, hk, _ | .chan _, _, hk, _
  | .bool, _, hk, _ | .int, _, hk, _ | .int8, _, hk, _ | .int16, _, hk, _ | .int32, _, hk, _
  | .int64, _, hk, _ | .uint, _, hk, _ | .uint8, _, hk, _ | .uint16, _, hk, _
  | .uint32, _, hk, _ | .uint64, _, hk, _ | .uintptr, _, hk, _ | .float32, _, hk, _
  | .float64, _, hk, _ | .complex64, _, hk, _ | .complex128, _, hk, _ | .string, _, hk, _
  | .unsafePointer, _, hk, _ | .func _, _, hk, _ | .emptyInterface, _, hk, _
  | .struct _, _, hk, _ => by simp [GoType.kind] at hk

theorem Elem_derefKindOf (c e : Value) (h : Heap) (hk : kindOfValue c = KindPtr)
    (he : c.Elem h = .ok e) : e = .zero ∨ derefKindOf e = derefKindOf c := by
  cases c with
  | zero => cases he
  | mk t loc ro =>
    simp only [kindOfValue, Value.Kind] at hk
    unfold Value.Elem at he
    simp only [hk] at he
    split at he
    · cases he
    · cases he; left; rfl
    · rename_i r et hl het
      cases he
      right
      exact derefKind_of_Elem t et hk het
    · cases he

theorem MapIndex_not_settable (c key v : Value) (h : Heap)
    (hm : c.MapIndex key h = .ok v) : v.CanSet = false := by
  unfold Value.MapIndex at hm
  repeat' split at hm
  all_goals first
    | (cases hm; done)
    | (cases hm; rfl)

theorem Index_string_not_settable (t : GoType) (loc : reflect.Loc) (ro : Bool) (i : Int)
    (h : Heap) (v : Value) (hk : t.kind = KindString)
    (hi : Value.Index (.mk t loc ro) i h = .ok v) : v.CanSet = false := by
  unfold Value.Index at hi
  simp only [hk] at hi
  repeat' split at hi
  all_goals first
    | (cases hi; done)
    | (cases hi; rfl)

theorem valueAtIndexAux_zero_fails (n : Nat) (index v : Value) (h h1 : Heap) :
    valueAtIndexAux n index .zero h ≠ .ok ((v, true), h1) := by
  cases n with
  | zero => simp [valueAtIndexAux]
  | succ k => simp [valueAtIndexAux, kindOfValue, Value.Kind]

theorem valueAtIndexAux_not_settable : ∀ (fuel : Nat) (index c : Value) (h : Heap) (v : Value)
    (h1 : Heap), (derefKindOf c = KindMap ∨ derefKindOf c = KindString) →
      valueAtIndexAux fuel index c h = .ok ((v, true), h1) → v.CanSet = false := by
  intro fuel
  induction fuel with
  | zero => intro index c h v h1 _ hr; simp [valueAtIndexAux] at hr
  | succ n ih =>
    intro index c h v h1 hd hr
    cases c with
    | zero => exact absurd hr (valueAtIndexAux_zero_fails _ _ _ _ _)
    | mk t loc ro =>
      have step : ∀ (e : Value) (h2 : Heap), Value.Elem (.mk t loc ro) h2 = .ok e →
          t.kind = KindPtr → valueAtIndexAux n index e h2 = .ok ((v, true), h1) →
          v.CanSet = false := by
        intro e h2 he hk hr2
        rcases Elem_derefKindOf (.mk t loc ro) e h2 hk he with hz | hz
        · subst hz
          exact absurd hr2 (valueAtIndexAux_zero_fails _ _ _ _ _)
        · exact ih index e h2 v h1 (by rw [hz]; exact hd) hr2
      by_cases hp : t.kind = KindPtr
      · simp only [valueAtIndexAux, kindOfValue, Value.Kind, hp] at hr
        repeat' split at hr
        all_goals first
          | cases hr
          | exact step _ _ (by assumption) hp hr
      · have hdk := derefKind_eq_kind t hp
        simp only [derefKindOf, hdk] at hd
        rcases hd with hm | hs
        · simp only [valueAtIndexAux, kindOfValue, Value.Kind, hm] at hr
          repeat' split at hr
          all_goals first
            | (cases hr; done)
            | (cases hr; exact MapIndex_not_settable _ _ _ _ (by assumption))
        · simp only [valueAtIndexAux, kindOfValue, Value.Kind, hs] at hr
          repeat' split at hr
          all_goals first
            | (cases hr; done)
            | (cases hr; exact Index_string_not_settable _ _ _ _ _ _ hs (by assumption))

theorem valueAtIndex_map_or_string_keeps_heap (index : Value) (t : GoType)
    (loc : reflect.Loc) (ro : Bool) (h : Heap) (r : Value × Bool) (h1 : Heap)
    (hk : t.kind = KindMap ∨ t.kind = KindString)
    (hr : valueAtIndex index (.mk t loc ro) h = .ok (r, h1)) : h1 = h := by
  unfold valueAtIndex at hr
  rcases hk with hk | hk
  · simp only [valueAtIndexAux, kindOfValue, Value.Kind, hk] at hr
    repeat' split at hr
    all_goals first
      | (cases hr; done)
      | (cases hr; rfl)
  · simp only [valueAtIndexAux, kindOfValue, Value.Kind, hk] at hr
    repeat' split at hr
    all_goals first
      | (cases hr; done)
      | (cases hr; rfl)

theorem Fill_after_map_or_string_step (pre : List Object) (tok : Object) (s : ValueSource)
    (value : Value) (data : Object) (h : Heap) (c : Value) (h1 : Heap)
    (hpre : Path.FetchValue pre value h = .ok ((c, true), h1))
    (hk : derefKindOf c = KindMap ∨ derefKindOf c = KindString) :
    ∀ (r : Value × Bool) (h2 : Heap),
      valueAtIndex (reflect.ValueOf tok) c h1 = .ok (r, h2) →
        (r.2 = true → r.1.CanSet = false) ∧
        ObjectFiller.Fill (.Path (pre ++ [tok])) s value data h = .ok ((0, 1), h2) ∧
        (kindOfValue c = KindMap ∨ kindOfValue c = KindString → h2 = h1) := by
  intro r h2 hv
  obtain ⟨v, ok⟩ := r
  have hns : ok = true → v.CanSet = false := by
    intro hok
    subst hok
    exact valueAtIndexAux_not_settable _ _ c h1 v h2 hk hv
  refine ⟨hns, ?_, ?_⟩
  · have hf : Path.FetchValue (pre ++ [tok]) value h
        = .ok ((if ok then v else .zero, ok), h2) := by
      rw [Path_FetchValue_append, hpre]
      simp only [Path.FetchValue, hv]
      cases ok <;> rfl
    unfold ObjectFiller.Fill
    simp only [ObjectPath.orRoot, ObjectPath.FetchValue, hf]
    cases ok with
    | false => rfl
    | true => simp [hns rfl]
  · intro hkc
    cases c with
    | zero => simp [kindOfValue, Value.Kind] at hkc
    | mk t loc ro => exact valueAtIndex_map_or_string_keeps_heap _ t loc ro h1 _ h2 hkc hv

/-! ## End to end: a record built from a map, with defaults -/

theorem mapEntries_lt (h : Heap) (a : Nat) (es : List (Val × Val))
    (hes : h.mapEntries a = some es) : a < h.cells.length := by
  unfold Heap.mapEntries at hes
  rcases Nat.lt_or_ge a h.cells.length with hl | hl
  · exact hl
  · rw [List.getElem?_eq_none hl] at hes; cases hes

theorem FetchObject_string_key (k : String) (a : Nat) (es : List (Val × Val)) (hh : Heap)
    (E : GoType) (sv : String → Val) (o : Option String)
    (hsv : (E = .string ∧ sv = Val.string) ∨
      (E = .emptyInterface ∧ sv = fun v => .iface .string (.string v)))
    (hes : hh.mapEntries a = some es) (hl : lookupKey (.string k) es = o.map sv) :
    Path.FetchObject [some (.string, .string k)] (some (.map .string E, .map (some a))) hh =
      match o with
      | some v => .ok ((some (.string, .string v), true), hh)
      | none => .ok ((none, false), hh) := by
  have hM := MapIndex_eq (.map .string E) (.imm (.map (some a))) false .string
    (.imm (.string k)) false hh .string E (some a) es (.string k) rfl rfl rfl rfl hes
    (by decide) rfl rfl
  have hav : assignVal .string .string (.string k) = .string k := by
    simp [assignVal, GoType.kind]
  rw [hav, hl] at hM
  have hA : GoType.AssignableTo .string .string = true := by decide
  unfold Path.FetchObject
  simp only [Path.FetchValue, reflect.ValueOf,
    valueAtIndex_on_map_unfold _ (.map .string E) _ _ hh .string rfl rfl, Value.Type, hA,
    Bool.not_true, Bool.false_eq_true, if_false, hM]
  cases o with
  | none => rfl
  | some v =>
    rcases hsv with ⟨rfl, rfl⟩ | ⟨rfl, rfl⟩ <;>
      simp [Value.IsValid, Value.CanInterface, Value.Interface, Value.load, GoType.kind]

theorem ExtractObject_key_or_default (k d : String) (a : Nat) (es : List (Val × Val))
    (hh : Heap) (E : GoType) (sv : String → Val) (o : Option String)
    (hsv : (E = .string ∧ sv = Val.string) ∨
      (E = .emptyInterface ∧ sv = fun v => .iface .string (.string v)))
    (hes : hh.mapEntries a = some es) (hl : lookupKey (.string k) es = o.map sv) :
    ValueSource.ExtractObject
        (.ValueSources [.ObjectAtPath (.Path [some (.string, .string k)]) (.Kind KindString),
          .DefaultValue (some (.string, .string d))])
        (some (.map .string E, .map (some a))) hh
      = .ok ((some (.string, .string (o.getD d)), true), hh) := by
  have hF := FetchObject_string_key k a es hh E sv o hsv hes hl
  simp only [ValueSource.ExtractObject, ValueSources.ExtractObject, ObjectAtPath.ExtractObject,
    ObjectPath.orRoot, ObjectPath.FetchObject, hF]
  cases o with
  | none => rfl
  | some v => rfl

theorem FetchValue_field (f : String) (t : GoType) (r : Ref) (hh : Heap) (fs : Fields)
    (i : Nat) (e : Bool) (ft : GoType) (hk : t.kind = KindStruct) (hfs : t.fields = some fs)
    (hne : f ≠ "") (hlk : fs.lookup f 0 = some (i, e, ft)) :
    Path.FetchValue [some (.string, .string f)] (.mk t (.ref r) false) hh
      = .ok ((.mk ft (.ref ⟨r.addr, r.sel ++ [i]⟩) (!e), true), hh) := by
  simp only [Path.FetchValue, valueAtIndex, ptrDepthOf, valueAtIndexAux, kindOfValue,
    Value.Kind, hk, reflect.ValueOf, GoType.kind, Value.String, Value.load,
    Value.FieldByName, hfs, hne, if_false, hlk, Value.IsValid, Bool.not_true,
    Bool.false_eq_true, Bool.false_or]

theorem Fill_field_from_key_or_default (f k d : String) (t : GoType) (r : Ref) (fs : Fields)
    (i : Nat) (a : Nat) (es : List (Val × Val)) (hh hh1 : Heap)
    (E : GoType) (sv : String → Val) (o : Option String)
    (hsv : (E = .string ∧ sv = Val.string) ∨
      (E = .emptyInterface ∧ sv = fun v => .iface .string (.string v)))
    (hk : t.kind = KindStruct) (hfs : t.fields = some fs) (hne : f ≠ "")
    (hlk : fs.lookup f 0 = some (i, true, .string))
    (hes : hh.mapEntries a = some es) (hl : lookupKey (.string k) es = o.map sv)
    (hw : hh.write ⟨r.addr, r.sel ++ [i]⟩ (.string (o.getD d)) = some hh1) :
    Filler.Fill
        (.ObjectFiller (.Path [some (.string, .string f)])
          (.ValueSources [.ObjectAtPath (.Path [some (.string, .string k)]) (.Kind KindString),
            .DefaultValue (some (.string, .string d))]))
        (.mk t (.ref r) false) (some (.map .string E, .map (some a))) hh
      = .ok ((1, 0), hh1) := by
  have hF := FetchValue_field f t r hh fs i true .string hk hfs hne hlk
  have hX := ExtractObject_key_or_default k d a es hh E sv o hsv hes hl
  have hA : GoType.AssignableTo .string .string = true := by decide
  have hav : assignVal .string .string (.string (o.getD d)) = .string (o.getD d) := by
    simp [assignVal, GoType.kind]
  simp only [Filler.Fill, ObjectFiller.Fill, ObjectPath.orRoot, ObjectPath.FetchValue, hF,
    Bool.not_true, Bool.false_eq_true, if_false, Value.CanSet, hX, reflect.ValueOf, Value.Type,
    hA, Value.Set, if_true, Value.load, hav, hw]

/-- C14: let the record type have two exported string fields `f1`, `f2`, let
the data be a map with string keys whose elements are strings (a
`map[string]string`, or a `map[string]interface{}` holding strings), and let the
filler be the composite of two object fillers, the one for `fi` taking the
map's value under `ki` and falling back on the default `di`.  Then `Describe`
returns the counts (2, 0) and a new instance in which each field holds the map's
value when its key is present and its default otherwise; in particular, with
`k1` present and `k2` absent, the first field is the map's value and the second
its default. -/
theorem Describe_record_from_map (f1 f2 k1 k2 d1 d2 : String) (a : Nat)
    (es : List (Val × Val)) (h : Heap) (E : GoType) (sv : String → Val)
    (o1 o2 : Option String)
    (hsv : (E = .string ∧ sv = Val.string) ∨
      (E = .emptyInterface ∧ sv = fun v => .iface .string (.string v)))
    (hf1 : f1 ≠ "") (hf2 : f2 ≠ "") (hf : f1 ≠ f2)
    (hes : h.mapEntries a = some es)
    (hl1 : lookupKey (.string k1) es = o1.map sv)
    (hl2 : lookupKey (.string k2) es = o2.map sv) :
    Descriptor.Describe
        (some ⟨some (.struct (.cons f1 true .string (.cons f2 true .string .nil))),
          .Fillers
            [.ObjectFiller (.Path [some (.string, .string f1)])
              (.ValueSources
                [.ObjectAtPath (.Path [some (.string, .string k1)]) (.Kind KindString),
                  .DefaultValue (some (.string, .string d1))]),
             .ObjectFiller (.Path [some (.string, .string f2)])
              (.ValueSources
                [.ObjectAtPath (.Path [some (.string, .string k2)]) (.Kind KindString),
                  .DefaultValue (some (.string, .string d2))])]⟩)
        (some (.map .string E, .map (some a))) h
      = .ok ((some (.struct (.cons f1 true .string (.cons f2 true .string .nil)),
            .struct [.string (o1.getD d1), .string (o2.getD d2)]), 2, 0),
          ⟨h.cells ++ [.var (.struct [.string (o1.getD d1), .string (o2.getD d2)])]⟩) := by
  have hlt := mapEntries_lt h a es hes
  have hlk1 : Fields.lookup f1 (.cons f1 true .string (.cons f2 true .string .nil)) 0
      = some (0, true, .string) := by simp [Fields.lookup]
  have hlk2 : Fields.lookup f2 (.cons f1 true .string (.cons f2 true .string .nil)) 0
      = some (1, true, .string) := by simp [Fields.lookup, hf]
  have hes0 : Heap.mapEntries ⟨h.cells ++ [.var (.struct [.string "", .string ""])]⟩ a
      = some es := by
    unfold Heap.mapEntries at hes ⊢
    simpa [List.getElem?_append_left hlt] using hes
  have hes1 : Heap.mapEntries
      ⟨h.cells ++ [.var (.struct [.string (o1.getD d1), .string ""])]⟩ a = some es := by
    unfold Heap.mapEntries at hes ⊢
    simpa [List.getElem?_append_left hlt] using hes
  have hw0 : Heap.write ⟨h.cells ++ [.var (.struct [.string "", .string ""])]⟩
      ⟨h.cells.length, [] ++ [0]⟩ (.string (o1.getD d1))
      = some ⟨h.cells ++ [.var (.struct [.string (o1.getD d1), .string ""])]⟩ := by
    simp [Heap.write, Val.set]
  have hw1 : Heap.write ⟨h.cells ++ [.var (.struct [.string (o1.getD d1), .string ""])]⟩
      ⟨h.cells.length, [] ++ [1]⟩ (.string (o2.getD d2))
      = some ⟨h.cells ++ [.var (.struct [.string (o1.getD d1), .string (o2.getD d2)])]⟩ := by
    simp [Heap.write, Val.set]
  have hF1 := Fill_field_from_key_or_default f1 k1 d1
    (.struct (.cons f1 true .string (.cons f2 true .string .nil))) ⟨h.cells.length, []⟩ _ 0 a es
    _ _ E sv o1 hsv rfl rfl hf1 hlk1 hes0 hl1 hw0
  have hF2 := Fill_field_from_key_or_default f2 k2 d2
    (.struct (.cons f1 true .string (.cons f2 true .string .nil))) ⟨h.cells.length, []⟩ _ 1 a es
    _ _ E sv o2 hsv rfl rfl hf2 hlk2 hes1 hl2 hw1
  have hz : zero (.struct (.cons f1 true .string (.cons f2 true .string .nil)))
      = .struct [.string "", .string ""] := rfl
  have hFill : Filler.Fill
      (.Fillers
        [.ObjectFiller (.Path [some (.string, .string f1)])
          (.ValueSources
            [.ObjectAtPath (.Path [some (.string, .string k1)]) (.Kind KindString),
              .DefaultValue (some (.string, .string d1))]),
         .ObjectFiller (.Path [some (.string, .string f2)])
          (.ValueSources
            [.ObjectAtPath (.Path [some (.string, .string k2)]) (.Kind KindString),
              .DefaultValue (some (.string, .string d2))])])
      (.mk (.struct (.cons f1 true .string (.cons f2 true .string .nil)))
        (.ref ⟨h.cells.length, []⟩) false)
      (some (.map .string E, .map (some a)))
      ⟨h.cells ++ [.var (.struct [.string "", .string ""])]⟩
      = .ok ((2, 0), ⟨h.cells ++ [.var (.struct [.string (o1.getD d1), .string (o2.getD d2)])]⟩) := by
    simp only [Filler.Fill, Fillers.Fill.loop] at hF1 hF2 ⊢
    simp only [hF1, hF2]
    rfl
  rw [Describe_configured _ _ _ _ (by simp)]
  simp only [Heap.alloc, hz, hFill]
  simp [Value.Interface, Value.load, Heap.read, Val.get, GoType.kind]

/-- C14, on the record `struct{Name, City string}` and the map
`{"name": "Ann"}` held in a `map[string]interface{}`, with defaults "?" and
"Paris": the instance is `{Ann, Paris}` and the counts are (2, 0). -/
theorem Describe_record_from_map_witness :
    Heap.mapEntries ⟨[.map [(.string "name", .iface .string (.string "Ann"))]]⟩ 0
      = some [(.string "name", .iface .string (.string "Ann"))] ∧
    lookupKey (.string "name") [(.string "name", .iface .string (.string "Ann"))]
      = some (.iface .string (.string "Ann")) ∧
    lookupKey (.string "city") [(.string "name", .iface .string (.string "Ann"))] = none ∧
    Descriptor.Describe
        (some ⟨some (.struct (.cons "Name" true .string (.cons "City" true .string .nil))),
          .Fillers
            [.ObjectFiller (.Path [some (.string, .string "Name")])
              (.ValueSources
                [.ObjectAtPath (.Path [some (.string, .string "name")]) (.Kind KindString),
                  .DefaultValue (some (.string, .string "?"))]),
             .ObjectFiller (.Path [some (.string, .string "City")])
              (.ValueSources
                [.ObjectAtPath (.Path [some (.string, .string "city")]) (.Kind KindString),
                  .DefaultValue (some (.string, .string "Paris"))])]⟩)
        (some (.map .string .emptyInterface, .map (some 0)))
        ⟨[.map [(.string "name", .iface .string (.string "Ann"))]]⟩
      = .ok ((some (.struct (.cons "Name" true .string (.cons "City" true .string .nil)),
            .struct [.string "Ann", .string "Paris"]), 2, 0),
          ⟨[.map [(.string "name", .iface .string (.string "Ann"))],
            .var (.struct [.string "Ann", .string "Paris"])]⟩) :=
  ⟨rfl, rfl, rfl,
    Describe_record_from_map "Name" "City" "name" "city" "?" "Paris" 0
      [(.string "name", .iface .string (.string "Ann"))]
      ⟨[.map [(.string "name", .iface .string (.string "Ann"))]]⟩ .emptyInterface
      (fun v => .iface .string (.string v)) (some "Ann") none (Or.inr ⟨rfl, rfl⟩)
      (by decide) (by decide) (by decide) rfl rfl rfl⟩

/-! ## Slots, their parts, and what a write leaves alone -/

theorem Val_get_append : ∀ (q t : List Nat) (v : Val),
    v.get (q ++ t) = (v.get q).bind (fun u => u.get t) := by
  intro q
  induction q with
  | nil => intro t v; simp [Val.get]
  | cons i rest ih =>
    intro t v
    cases v <;> simp only [List.cons_append, Val.get, Option.bind_none, Option.none_bind]
    · rename_i es
      cases es[i]? with
      | none => rfl
      | some e => exact ih t e
    · rename_i es
      cases es[i]? with
      | none => rfl
      | some e => exact ih t e

theorem Val_get_leaf (v : Val) (hl : v.isLeaf = true) (i : Nat) (t : List Nat) :
    v.get (i :: t) = none := by
  cases v <;> simp [Val.isLeaf] at hl <;> rfl

theorem Val_get_through_leaf (v u w : Val) (q t : List Nat) (hq : v.get q = some u)
    (hl : u.isLeaf = true) (hw : v.get (q ++ t) = some w) : t = [] := by
  cases t with
  | nil => rfl
  | cons i t =>
    rw [Val_get_append, hq] at hw
    simp [Val_get_leaf u hl] at hw

theorem Val_get_set_other : ∀ (s q : List Nat) (v v1 x : Val), v.set s x = some v1 →
    ¬ s <+: q → ¬ q <+: s → v1.get q = v.get q := by
  intro s
  induction s with
  | nil => intro q v v1 x _ hsq _; exact absurd (List.nil_prefix) hsq
  | cons i s ih =>
    intro q v v1 x hs hsq hqs
    cases q with
    | nil => exact absurd (List.nil_prefix) hqs
    | cons j q =>
      cases v <;> simp only [Val.set] at hs <;> try cases hs
      all_goals
        rename_i es
        split at hs
        · rename_i e he
          split at hs
          · rename_i e1 he1
            simp only [Option.some.injEq] at hs
            subst hs
            have hlt : i < es.length := by
              rcases Nat.lt_or_ge i es.length with hl | hl
              · exact hl
              · rw [List.getElem?_eq_none hl] at he; cases he
            by_cases hij : i = j
            · subst hij
              have h1 : ¬ s <+: q := fun hc => hsq ((List.cons_prefix_cons).2 ⟨rfl, hc⟩)
              have h2 : ¬ q <+: s := fun hc => hqs ((List.cons_prefix_cons).2 ⟨rfl, hc⟩)
              have := ih q e e1 x he1 h1 h2
              simp [Val.get, hlt, he, this]
            · simp [Val.get, List.getElem?_set_ne hij]
          · cases hs
        · cases hs

theorem Val_shape_set : ∀ (s q : List Nat) (v v1 x u : Val), v.set s x = some v1 →
    ¬ s <+: q → v.get q = some u → ∃ u1, v1.get q = some u1 ∧ u1.shapeOf = u.shapeOf := by
  intro s
  induction s with
  | nil => intro q v v1 x u _ hsq _; exact absurd (List.nil_prefix) hsq
  | cons i s ih =>
    intro q v v1 x u hs hsq hu
    cases v <;> simp only [Val.set] at hs <;> try cases hs
    all_goals
      rename_i es
      split at hs
      · rename_i e he
        split at hs
        · rename_i e1 he1
          simp only [Option.some.injEq] at hs
          subst hs
          have hlt : i < es.length := by
            rcases Nat.lt_or_ge i es.length with hl | hl
            · exact hl
            · rw [List.getElem?_eq_none hl] at he; cases he
          cases q with
          | nil =>
            simp only [Val.get, Option.some.injEq] at hu
            subst hu
            exact ⟨_, rfl, by simp [Val.shapeOf]⟩
          | cons j q =>
            by_cases hij : i = j
            · subst hij
              have h1 : ¬ s <+: q := fun hc => hsq ((List.cons_prefix_cons).2 ⟨rfl, hc⟩)
              simp only [Val.get, he] at hu
              obtain ⟨u1, hu1, hsh⟩ := ih q e e1 x u he1 h1 hu
              exact ⟨u1, by simp [Val.get, hlt, hu1], hsh⟩
            · refine ⟨u, ?_, rfl⟩
              simp only [Val.get] at hu ⊢
              simpa [List.getElem?_set_ne hij] using hu
        · cases hs
      · cases hs

theorem noRefsList_get : ∀ (es : List Val) (i : Nat) (e : Val), Val.noRefsList es = true →
    es[i]? = some e → e.noRefs = true := by
  intro es
  induction es with
  | nil => intro i e _ he; simp at he
  | cons a rest ih =>
    intro i e hn he
    simp only [Val.noRefsList, Bool.and_eq_true] at hn
    cases i with
    | zero =>
      simp only [List.getElem?_cons_zero, Option.some.injEq] at he
      subst he
      exact hn.1
    | succ k =>
      simp only [List.getElem?_cons_succ] at he
      exact ih k e hn.2 he

theorem noRefs_get : ∀ (t : List Nat) (w u : Val), w.noRefs = true → w.get t = some u →
    u.noRefs = true := by
  intro t
  induction t with
  | nil =>
    intro w u hn hg
    simp only [Val.get, Option.some.injEq] at hg
    subst hg
    exact hn
  | cons i t ih =>
    intro w u hn hg
    cases w <;> simp only [Val.get] at hg <;> try cases hg
    all_goals
      rename_i es
      split at hg
      · rename_i e he
        simp only [Val.noRefs] at hn
        exact ih e u (noRefsList_get es i e hn he) hg
      · cases hg

theorem isRef_not_noRefs (u : Val) (hr : u.isRef = true) : u.noRefs = false := by
  cases u <;> simp [Val.isRef] at hr <;> rename_i o <;> cases o <;> simp [Val.isRef] at hr <;> rfl

theorem isRef_isLeaf (u : Val) (hr : u.isRef = true) : u.isLeaf = true := by
  cases u <;> simp [Val.isRef] at hr <;> rfl

theorem isRef_not_isNil (u : Val) (hr : u.isRef = true) : u.isNil = false := by
  cases u <;> simp [Val.isRef] at hr <;> rename_i o <;> cases o <;> simp [Val.isRef] at hr <;> rfl

theorem isNil_isLeaf (u : Val) (hr : u.isNil = true) : u.isLeaf = true := by
  cases u <;> simp [Val.isNil] at hr <;> rfl

theorem isLeaf_shapeOf (u : Val) (hl : u.isLeaf = true) : u.shapeOf = none := by
  cases u <;> simp [Val.isLeaf] at hl <;> rfl

theorem inside_iff (q d : Ref) : q.inside d = true ↔ q.addr = d.addr ∧ d.sel <+: q.sel := by
  simp [Ref.inside, List.isPrefixOf_iff_prefix]

theorem Heap_write_cell (h h1 : Heap) (r : Ref) (x : Val) (hw : h.write r x = some h1) :
    ∃ v v1, h.cells[r.addr]? = some (.var v) ∧ v.set r.sel x = some v1 ∧
      h1 = ⟨h.cells.set r.addr (.var v1)⟩ ∧ r.addr < h.cells.length := by
  unfold Heap.write at hw
  split at hw
  · rename_i v hv
    split at hw
    · rename_i v1 hv1
      simp only [Option.some.injEq] at hw
      have hlt : r.addr < h.cells.length := by
        rcases Nat.lt_or_ge r.addr h.cells.length with hl | hl
        · exact hl
        · rw [List.getElem?_eq_none hl] at hv; cases hv
      exact ⟨v, v1, hv, hv1, hw.symm, hlt⟩
    · cases hw
  · cases hw

theorem Heap_write_length (h h1 : Heap) (r : Ref) (x : Val) (hw : h.write r x = some h1) :
    h1.cells.length = h.cells.length := by
  obtain ⟨v, v1, -, -, rfl, -⟩ := Heap_write_cell h h1 r x hw
  simp

theorem Heap_write_maps (h h1 : Heap) (r : Ref) (x : Val) (hw : h.write r x = some h1)
    (a : Nat) : h1.mapEntries a = h.mapEntries a := by
  obtain ⟨v, v1, hv, -, rfl, hlt⟩ := Heap_write_cell h h1 r x hw
  by_cases ha : r.addr = a
  · subst ha
    simp [Heap.mapEntries, hv, hlt]
  · simp [Heap.mapEntries, List.getElem?_set_ne ha]

theorem Heap_write_other (h h1 : Heap) (r q : Ref) (x : Val) (hw : h.write r x = some h1)
    (hq : q.overlaps r = false) : h1.read q = h.read q := by
  by_cases ha : q.addr = r.addr
  · obtain ⟨v, v1, hv, hs, rfl, hlt⟩ := Heap_write_cell h h1 r x hw
    simp only [Ref.overlaps, Bool.or_eq_false_iff, Ref.inside, ha, decide_True, Bool.true_and,
      eq_self_iff_true] at hq
    have h1 : ¬ r.sel <+: q.sel := by
      rw [← List.isPrefixOf_iff_prefix]; simp [hq.1]
    have h2 : ¬ q.sel <+: r.sel := by
      rw [← List.isPrefixOf_iff_prefix]; simp [hq.2]
    have := Val_get_set_other r.sel q.sel v v1 x hs h1 h2
    simp [Heap.read, ha, hv, hlt, this]
  · exact Heap_read_write_other_cell h h1 r q x hw ha

theorem Heap_write_shape (h h1 : Heap) (r q : Ref) (x v : Val) (hw : h.write r x = some h1)
    (hq : q.inside r = false) (hv : h.read q = some v) :
    ∃ v1, h1.read q = some v1 ∧ v1.shapeOf = v.shapeOf := by
  by_cases ha : q.addr = r.addr
  · obtain ⟨c, c1, hc, hs, rfl, hlt⟩ := Heap_write_cell h h1 r x hw
    simp only [Ref.inside, ha, decide_True, Bool.true_and] at hq
    have h1 : ¬ r.sel <+: q.sel := by
      rw [← List.isPrefixOf_iff_prefix]; simp [hq]
    simp only [Heap.read, ha, hc] at hv
    obtain ⟨u1, hu1, hsh⟩ := Val_shape_set r.sel q.sel c c1 x v hs h1 hv
    exact ⟨u1, by simp [Heap.read, ha, hlt, hu1], hsh⟩
  · exact ⟨v, by rw [Heap_read_write_other_cell h h1 r q x hw ha]; exact hv, rfl⟩

theorem Heap_read_inside (h : Heap) (d q : Ref) (w u : Val) (hd : h.read d = some w)
    (hi : q.inside d = true) (hq : h.read q = some u) :
    ∃ t, q.sel = d.sel ++ t ∧ w.get t = some u := by
  obtain ⟨ha, t, ht⟩ := (inside_iff q d).1 hi
  refine ⟨t, ht.symm, ?_⟩
  unfold Heap.read at hd hq
  rw [ha] at hq
  split at hd
  · rename_i c hc
    simp only [hc, ← ht, Val_get_append, hd, Option.some_bind] at hq
    exact hq
  · cases hd

theorem Heap_leaf_inside (h : Heap) (d q : Ref) (w u : Val) (hd : h.read d = some w)
    (hl : w.isLeaf = true) (hi : q.inside d = true) (hq : h.read q = some u) : q = d := by
  obtain ⟨ha, t, ht⟩ := (inside_iff q d).1 hi
  obtain ⟨t1, ht1, hg⟩ := Heap_read_inside h d q w u hd hi hq
  have : t1 = [] := by
    cases t1 with
    | nil => rfl
    | cons i t1 => simp [Val_get_leaf w hl] at hg
  subst this
  cases q
  cases d
  simp only [List.append_nil] at ht1
  simp only at ha
  subst ha ht1
  rfl

theorem Heap_leaves_apart (h : Heap) (r q : Ref) (w v : Val) (hr : h.read r = some w)
    (hw : w.isLeaf = true) (hq : h.read q = some v) (hv : v.isLeaf = true) (hne : q ≠ r) :
    q.overlaps r = false := by
  cases hqr : q.inside r with
  | true => exact absurd (Heap_leaf_inside h r q w v hr hw hqr hq) hne
  | false =>
    cases hrq : r.inside q with
    | true => exact absurd (Heap_leaf_inside h q r v w hq hv hrq hr).symm hne
    | false => simp [Ref.overlaps, hqr, hrq]

theorem Heap_read_alloc_lt (h : Heap) (z : Val) (q : Ref) (hlt : q.addr < h.cells.length) :
    (h.alloc z).2.read q = h.read q := by
  simp [Heap.read, Heap.alloc, List.getElem?_append_left hlt]

theorem Heap_mapEntries_alloc (h : Heap) (z : Val) (a : Nat) (es : List (Val × Val))
    (hes : h.mapEntries a = some es) : (h.alloc z).2.mapEntries a = some es := by
  have hlt := mapEntries_lt h a es hes
  simpa [Heap.mapEntries, Heap.alloc, List.getElem?_append_left hlt] using hes

theorem Vivifies_refl (h : Heap) : h.Vivifies h :=
  ⟨le_refl _, fun _ _ he => he, fun _ v hv => ⟨v, hv, rfl⟩, fun _ _ hv _ => Or.inl hv⟩

theorem Vivifies_trans {h h1 h2 : Heap} (a : h.Vivifies h1) (b : h1.Vivifies h2) :
    h.Vivifies h2 := by
  obtain ⟨al, am, ash, alf⟩ := a
  obtain ⟨bl, bm, bsh, blf⟩ := b
  refine ⟨le_trans al bl, fun x es he => bm x es (am x es he), ?_, ?_⟩
  · intro q v hv
    obtain ⟨v1, hv1, hs1⟩ := ash q v hv
    obtain ⟨v2, hv2, hs2⟩ := bsh q v1 hv1
    exact ⟨v2, hv2, hs2.trans hs1⟩
  · intro q v hv hl
    rcases alf q v hv hl with h1v | ⟨hn, x, hx, h1v⟩
    · rcases blf q v h1v hl with h2v | ⟨hn, x, hx, h2v⟩
      · exact Or.inl h2v
      · exact Or.inr ⟨hn, x, le_trans al hx, h2v⟩
    · rcases blf q _ h1v rfl with h2v | ⟨hn2, -⟩
      · exact Or.inr ⟨hn, x, hx, h2v⟩
      · simp [Val.isNil] at hn2

theorem Vivifies_alloc_write (h h1 : Heap) (r : Ref) (w z : Val) (hr : h.read r = some w)
    (hn : w.isNil = true)
    (hw : (h.alloc z).2.write r (.ptr (some ⟨h.cells.length, []⟩)) = some h1) :
    h.Vivifies h1 := by
  have hlen := Heap_write_length _ _ _ _ hw
  have hwl := isNil_isLeaf w hn
  have hrA : (h.alloc z).2.read r = some w := Heap_read_alloc h z r w hr
  refine ⟨by rw [hlen]; simp [Heap.alloc], ?_, ?_, ?_⟩
  · intro a es he
    rw [Heap_write_maps _ _ _ _ hw]
    exact Heap_mapEntries_alloc h z a es he
  · intro q v hv
    have hvA : (h.alloc z).2.read q = some v := Heap_read_alloc h z q v hv
    cases hi : q.inside r with
    | false => exact Heap_write_shape _ _ r q _ v hw hi hvA
    | true =>
      have hqr := Heap_leaf_inside _ r q w v hrA hwl hi hvA
      subst hqr
      obtain ⟨h2, hw2, hrd, -⟩ := Heap_write_of_read (h.alloc z).2 q w
        (.ptr (some ⟨h.cells.length, []⟩)) hrA
      rw [hw] at hw2
      cases hw2
      rw [hr] at hv
      cases hv
      exact ⟨_, hrd, by rw [isLeaf_shapeOf w hwl]; rfl⟩
  · intro q v hv hl
    have hvA : (h.alloc z).2.read q = some v := Heap_read_alloc h z q v hv
    by_cases hqr : q = r
    · subst hqr
      obtain ⟨h2, hw2, hrd, -⟩ := Heap_write_of_read (h.alloc z).2 q w
        (.ptr (some ⟨h.cells.length, []⟩)) hrA
      rw [hw] at hw2
      cases hw2
      rw [hr] at hv
      cases hv
      exact Or.inr ⟨hn, h.cells.length, le_refl _, hrd⟩
    · left
      rw [Heap_write_other _ _ r q _ hw (Heap_leaves_apart _ r q w v hrA hwl hvA hl hqr)]
      exact hvA

theorem Vivifies_alloc (h : Heap) (z : Val) : h.Vivifies (h.alloc z).2 :=
  ⟨by simp [Heap.alloc], fun a es he => Heap_mapEntries_alloc h z a es he,
    fun q v hv => ⟨v, Heap_read_alloc h z q v hv, rfl⟩,
    fun q v hv _ => Or.inl (Heap_read_alloc h z q v hv)⟩

theorem Vivifies_KeepsPaths (d : Ref) {h h1 : Heap} (a : h.Vivifies h1) : h.KeepsPaths d h1 := by
  obtain ⟨-, am, ash, alf⟩ := a
  refine ⟨fun q v hv hr => ?_, am, fun q v hv _ => ash q v hv⟩
  rcases alf q v hv (isRef_isLeaf v hr) with h1v | ⟨hn, -⟩
  · exact h1v
  · rw [isRef_not_isNil v hr] at hn; cases hn

theorem KeepsPaths_trans {d : Ref} {h h1 h2 : Heap} (a : h.KeepsPaths d h1)
    (b : h1.KeepsPaths d h2) : h.KeepsPaths d h2 := by
  obtain ⟨ar, am, ash⟩ := a
  obtain ⟨br, bm, bsh⟩ := b
  refine ⟨fun q v hv hr => br q v (ar q v hv hr) hr, fun x es he => bm x es (am x es he), ?_⟩
  intro q v hv hi
  obtain ⟨v1, hv1, hs1⟩ := ash q v hv hi
  obtain ⟨v2, hv2, hs2⟩ := bsh q v1 hv1 hi
  exact ⟨v2, hv2, hs2.trans hs1⟩

theorem KeepsPaths_write (h h1 : Heap) (d : Ref) (w x : Val) (hd : h.read d = some w)
    (hn : w.noRefs = true) (hw : h.write d x = some h1) : h.KeepsPaths d h1 := by
  refine ⟨?_, fun a es he => by rw [Heap_write_maps _ _ _ _ hw]; exact he,
    fun q v hv hi => Heap_write_shape h h1 d q x v hw hi hv⟩
  intro q v hv hr
  cases hqd : q.inside d with
  | true =>
    obtain ⟨t, -, hg⟩ := Heap_read_inside h d q w v hd hqd hv
    have := noRefs_get t w v hn hg
    rw [isRef_not_noRefs v hr] at this
    cases this
  | false =>
    cases hdq : d.inside q with
    | true =>
      have := Heap_leaf_inside h q d v w hv (isRef_isLeaf v hr) hdq hd
      subst this
      have : d.inside d = true := (inside_iff d d).2 ⟨rfl, List.prefix_refl _⟩
      rw [this] at hqd
      cases hqd
    | false =>
      rw [Heap_write_other h h1 d q x hw (by simp [Ref.overlaps, hqd, hdq])]
      exact hv

/-! ## Path resolution and extraction only allocate and fill nil pointers -/

theorem IsNil_true_read (t : GoType) (r : Ref) (ro : Bool) (h : Heap)
    (hn : Value.IsNil (.mk t (.ref r) ro) h = .ok true) :
    ∃ w, h.read r = some w ∧ w.isNil = true := by
  unfold Value.IsNil Value.load at hn
  cases hr : h.read r with
  | none => simp [hr] at hn
  | some w =>
    refine ⟨w, rfl, ?_⟩
    simp only [hr] at hn
    cases w <;> simp at hn <;> simp [Val.isNil, hn]

theorem Set_New_vivifies (c : Value) (et : GoType) (h h1 : Heap)
    (hn : c.IsNil h = .ok true) (hk : kindOfValue c = KindPtr)
    (hs : c.Set (reflect.New et h).1 (reflect.New et h).2 = .ok h1) : h.Vivifies h1 := by
  cases c with
  | zero => cases hs
  | mk t loc ro =>
    cases loc with
    | imm x => cases hs
    | ref r =>
      cases ro with
      | true => cases hs
      | false =>
        obtain ⟨w, hr, hw⟩ := IsNil_true_read t r false h hn
        simp only [kindOfValue, Value.Kind] at hk
        have hav : assignVal (.ptr et) t (.ptr (some ⟨h.cells.length, []⟩))
            = .ptr (some ⟨h.cells.length, []⟩) := by
          simp [assignVal, hk]
        simp only [Value.Set, reflect.New, Value.load, Heap.alloc, hav] at hs
        split at hs
        · split at hs
          · rename_i h2 hwr
            cases hs
            exact Vivifies_alloc_write h h1 r w (zero et) hr hw hwr
          · cases hs
        · cases hs

theorem valueAtIndexAux_vivifies : ∀ (fuel : Nat) (index c : Value) (h : Heap)
    (r : Value × Bool) (h1 : Heap), valueAtIndexAux fuel index c h = .ok (r, h1) →
      h.Vivifies h1 := by
  intro fuel
  induction fuel with
  | zero => intro index c h r h1 hr; simp [valueAtIndexAux] at hr
  | succ n ih =>
    intro index c h r h1 hr
    by_cases hp : kindOfValue c = KindPtr
    · simp only [valueAtIndexAux, hp] at hr
      split at hr
      · cases hr
      · rename_i hnil
        split at hr
        · cases hr; exact Vivifies_refl _
        · repeat' split at hr
          all_goals first
            | cases hr
            | exact Vivifies_trans (Set_New_vivifies c _ h _ hnil hp (by assumption))
                (ih _ _ _ _ _ hr)
      · split at hr
        · cases hr
        · exact ih _ _ _ _ _ hr
    · unfold valueAtIndexAux at hr
      repeat' split at hr
      all_goals first
        | exact absurd (by assumption) hp
        | (cases hr; done)
        | (cases hr; exact Vivifies_refl _)

theorem Path_FetchValue_vivifies : ∀ (op : List Object) (v : Value) (h : Heap)
    (r : Value × Bool) (h1 : Heap), Path.FetchValue op v h = .ok (r, h1) → h.Vivifies h1 := by
  intro op
  induction op with
  | nil =>
    intro v h r h1 hr
    simp only [Path.FetchValue, Except.ok.injEq, Prod.mk.injEq] at hr
    obtain ⟨-, rfl⟩ := hr
    exact Vivifies_refl _
  | cons index rest ih =>
    intro v h r h1 hr
    unfold Path.FetchValue at hr
    split at hr
    · cases hr
    · rename_i v1 ok h2 hv
      have g := valueAtIndexAux_vivifies _ _ _ _ _ _ hv
      split at hr
      · cases hr; exact g
      · exact Vivifies_trans g (ih _ _ _ _ hr)

theorem Path_FetchObject_vivifies (op : List Object) (root : Object) (h : Heap)
    (r : Object × Bool) (h1 : Heap) (hr : Path.FetchObject op root h = .ok (r, h1)) :
    h.Vivifies h1 := by
  unfold Path.FetchObject at hr
  split at hr
  · cases hr
  · rename_i v ok h2 hv
    have g := Path_FetchValue_vivifies _ _ _ _ _ hv
    repeat' split at hr
    all_goals first
      | (cases hr; done)
      | (cases hr; exact g)

theorem ObjectPath_FetchValue_vivifies (p : ObjectPath) (root : Value) (h : Heap)
    (r : Value × Bool) (h1 : Heap) (hr : p.FetchValue root h = .ok (r, h1)) :
    h.Vivifies h1 := by
  cases p with
  | nil => cases hr
  | RootAsPath => cases hr; exact Vivifies_refl _
  | Path op => exact Path_FetchValue_vivifies _ _ _ _ _ hr

theorem ObjectPath_FetchObject_vivifies (p : ObjectPath) (root : Object) (h : Heap)
    (r : Object × Bool) (h1 : Heap) (hr : p.FetchObject root h = .ok (r, h1)) :
    h.Vivifies h1 := by
  cases p with
  | nil => cases hr
  | RootAsPath => cases hr; exact Vivifies_refl _
  | Path op => exact Path_FetchObject_vivifies _ _ _ _ _ hr

theorem ObjectAtPath_ExtractObject_vivifies (p : ObjectPath) (ak : AssignableKind)
    (data : Object) (h : Heap) (r : Object × Bool) (h1 : Heap)
    (hr : ObjectAtPath.ExtractObject p ak data h = .ok (r, h1)) : h.Vivifies h1 := by
  unfold ObjectAtPath.ExtractObject at hr
  split at hr
  · cases hr
  · rename_i ofd ok h2 hv
    have g := ObjectPath_FetchObject_vivifies _ _ _ _ _ hv
    repeat' split at hr
    all_goals first
      | (cases hr; done)
      | (cases hr; exact g)

mutual
theorem ValueSource_ExtractObject_vivifies : ∀ (s : ValueSource) (data : Object) (h : Heap)
    (r : Object × Bool) (h1 : Heap), s.ExtractObject data h = .ok (r, h1) → h.Vivifies h1
  | .nil, _, _, _, _, hr => by cases hr
  | .ObjectAtPath p ak, _, _, _, _, hr => ObjectAtPath_ExtractObject_vivifies p ak _ _ _ _ hr
  | .DefaultValue _, _, _, _, _, hr => by cases hr; exact Vivifies_refl _
  | .ValueSources vs, data, h, r, h1, hr => by
    simp only [ValueSource.ExtractObject] at hr
    exact ValueSources_ExtractObject_vivifies vs data h r h1 hr
theorem ValueSources_ExtractObject_vivifies : ∀ (vs : List ValueSource) (data : Object)
    (h : Heap) (r : Object × Bool) (h1 : Heap),
    ValueSources.ExtractObject vs data h = .ok (r, h1) → h.Vivifies h1
  | [], _, _, _, _, hr => by cases hr; exact Vivifies_refl _
  | m :: rest, data, h, r, h1, hr => by
    by_cases hm : m = .nil
    · subst hm
      simp only [ValueSources.ExtractObject] at hr
      exact ValueSources_ExtractObject_vivifies rest data h r h1 hr
    · rw [ValueSources_ExtractObject_cons m rest data h hm] at hr
      split at hr
      · cases hr
      · rename_i o h2 hv
        cases hr
        exact ValueSource_ExtractObject_vivifies m data h _ _ hv
      · rename_i o h2 hv
        exact Vivifies_trans (ValueSource_ExtractObject_vivifies m data h _ _ hv)
          (ValueSources_ExtractObject_vivifies rest data h2 r h1 hr)
end

/-! ## Resolving a path again in a later heap -/

theorem ValueOf_load (tok : Object) (h h2 : Heap) :
    (reflect.ValueOf tok).load h2 = (reflect.ValueOf tok).load h := by
  cases tok with
  | none => rfl
  | some p => rfl

theorem intOfIndex_ValueOf (tok : Object) (h h2 : Heap) :
    intOfIndex (reflect.ValueOf tok) h2 = intOfIndex (reflect.ValueOf tok) h := by
  unfold intOfIndex Value.Int Value.Uint
  simp only [ValueOf_load tok h h2]

theorem String_ValueOf (tok : Object) (h h2 : Heap) :
    (reflect.ValueOf tok).String h2 = (reflect.ValueOf tok).String h := by
  unfold Value.String
  simp only [ValueOf_load tok h h2]

theorem child_outside (D r : Ref) (i : Nat)
    (hn : Ref.inside ⟨r.addr, r.sel ++ [i]⟩ D = true → (⟨r.addr, r.sel ++ [i]⟩ : Ref) = D) :
    r.inside D = false := by
  cases hi : r.inside D with
  | false => rfl
  | true =>
    obtain ⟨ha, t, ht⟩ := (inside_iff r D).1 hi
    have hc : Ref.inside ⟨r.addr, r.sel ++ [i]⟩ D = true :=
      (inside_iff _ D).2 ⟨ha, t ++ [i], by rw [← List.append_assoc, ht]⟩
    have hD := hn hc
    rw [← hD] at ht
    have := congrArg List.length ht
    simp at this

theorem shapeOf_array (v : Val) (n : Nat) (hs : v.shapeOf = some (true, n)) :
    ∃ es, v = .array es ∧ es.length = n := by
  cases v <;> simp [Val.shapeOf] at hs
  exact ⟨_, rfl, hs⟩

theorem load_kept (D : Ref) (t : GoType) (loc : reflect.Loc) (ro : Bool) (h h2 : Heap)
    (v : Val) (hl : Value.load (.mk t loc ro) h = .ok v) (hr : v.isRef = true)
    (hk : h.KeepsPaths D h2) : Value.load (.mk t loc ro) h2 = .ok v := by
  cases loc with
  | imm x => exact hl
  | ref r =>
    unfold Value.load at hl ⊢
    cases hq : h.read r with
    | none => simp [hq] at hl
    | some w =>
      simp only [hq, Except.ok.injEq] at hl
      subst hl
      simp [hk.1 r w hq hr]

theorem load_ref_outside (D : Ref) (t : GoType) (loc : reflect.Loc) (ro : Bool) (h : Heap)
    (v : Val) (hl : Value.load (.mk t loc ro) h = .ok v) (hr : v.isRef = true)
    (hnri : ∀ q v, h.read q = some v → v.isRef = true → q.inside D = false) :
    ∀ r, refOf (.mk t loc ro) = some r → r.inside D = false := by
  intro r hro
  cases loc with
  | imm x => cases hro
  | ref r1 =>
    simp only [refOf, Option.some.injEq] at hro
    subst hro
    unfold Value.load at hl
    cases hq : h.read r1 with
    | none => simp [hq] at hl
    | some w =>
      simp only [hq, Except.ok.injEq] at hl
      subst hl
      exact hnri r1 w hq hr

theorem valueAtIndexAux_seq_congr (n : Nat) (tok : Object) (c : Value) (h h2 : Heap)
    (hk : (kindOfValue c).isSequence = true)
    (hlen : c.Len h2 = c.Len h) (hidx : ∀ i, c.Index i h2 = c.Index i h)
    (r : Value × Bool) (h1 : Heap)
    (hr : valueAtIndexAux (n + 1) (reflect.ValueOf tok) c h = .ok (r, h1)) :
    valueAtIndexAux (n + 1) (reflect.ValueOf tok) c h2 = .ok (r, h2) := by
  revert hr
  unfold valueAtIndexAux
  rw [intOfIndex_ValueOf tok h h2, hlen]
  simp only [hidx]
  cases hkc : kindOfValue c <;> simp [Kind.isSequence, hkc] at hk <;>
  · simp only []
    repeat' split
    all_goals first
      | (intro hr; cases hr; done)
      | (intro hr; cases hr; rfl)

theorem Len_Index_of_load (t : GoType) (loc : reflect.Loc) (ro : Bool) (h h2 : Heap)
    (hl : Value.load (.mk t loc ro) h2 = Value.load (.mk t loc ro) h) :
    Value.Len (.mk t loc ro) h2 = Value.Len (.mk t loc ro) h ∧
    ∀ i, Value.Index (.mk t loc ro) i h2 = Value.Index (.mk t loc ro) i h := by
  refine ⟨?_, fun i => ?_⟩ <;> simp only [Value.Len, Value.seqLen, Value.Index, hl]

theorem seqLen_slice_pos (t : GoType) (loc : reflect.Loc) (ro : Bool) (h : Heap) (N : Int)
    (hk : t.kind = KindSlice) (hlen : Value.Len (.mk t loc ro) h = .ok N) (hN : ¬ N < 1) :
    ∃ s, Value.load (.mk t loc ro) h = .ok (.slice (some s)) := by
  unfold Value.Len Value.seqLen at hlen
  simp only [hk] at hlen
  cases hl : Value.load (.mk t loc ro) h with
  | error e => rw [hl] at hlen; simp at hlen
  | ok v =>
    rw [hl] at hlen
    cases v <;> try simp at hlen
    rename_i hdr
    cases hdr with
    | none =>
      simp at hlen
      subst hlen
      exact absurd (by decide) hN
    | some s => exact ⟨s, rfl⟩

theorem valueAtIndexAux_seq_parts (n : Nat) (index c : Value) (h : Heap) (v1 : Value)
    (h1 : Heap) (hk : (kindOfValue c).isSequence = true)
    (hr : valueAtIndexAux (n + 1) index c h = .ok ((v1, true), h1)) :
    ∃ i N, c.Len h = .ok N ∧ c.Index i h = .ok v1 ∧ ¬ N < 1 ∧ 0 ≤ i ∧ i < N ∧ h1 = h := by
  unfold valueAtIndexAux at hr
  cases hkc : kindOfValue c <;> simp [Kind.isSequence, hkc] at hk <;>
  · simp only [hkc] at hr
    repeat' split at hr
    all_goals first
      | (cases hr; done)
      | (cases hr
         exact ⟨_, _, by assumption, by assumption, by omega, by omega, by omega, rfl⟩)

theorem valueAtIndexAux_array_again (D : Ref) (n : Nat) (tok : Object) (t : GoType)
    (loc : reflect.Loc) (ro : Bool) (hc : Heap) (v1 : Value) (hc1 : Heap)
    (hk : t.kind = KindArray)
    (hr : valueAtIndexAux (n + 1) (reflect.ValueOf tok) (.mk t loc ro) hc = .ok ((v1, true), hc1))
    (hnsi : ∀ r, refOf v1 = some r → r.inside D = true → r = D) :
    (∀ r, refOf (.mk t loc ro) = some r → r.inside D = false) ∧
    ∀ h2, hc.KeepsPaths D h2 →
      valueAtIndexAux (n + 1) (reflect.ValueOf tok) (.mk t loc ro) h2 = .ok ((v1, true), h2) := by
  have hseq : (kindOfValue (.mk t loc ro)).isSequence = true := by
    simp [kindOfValue, Value.Kind, hk, Kind.isSequence]
  obtain ⟨i, N, hlen, hidx, hN, hi0, hiN, rfl⟩ :=
    valueAtIndexAux_seq_parts n _ _ hc v1 hc1 hseq hr
  cases loc with
  | imm x =>
    refine ⟨fun r hro => (by cases hro), fun h2 _ => ?_⟩
    obtain ⟨h1, h2i⟩ := Len_Index_of_load t (.imm x) ro hc1 h2 rfl
    exact valueAtIndexAux_seq_congr n tok _ hc1 h2 hseq h1 h2i _ _ hr
  | ref r =>
    unfold Value.Index at hidx
    simp only [hk, Value.load] at hidx
    cases hq : hc1.read r with
    | none => simp [hq] at hidx
    | some w =>
      simp only [hq] at hidx
      split at hidx
      · cases hidx
      · rename_i es e hw he
        simp only [Except.ok.injEq, Val.array.injEq] at hw
        subst hw
        split at hidx
        · cases hidx
        · simp only [Except.ok.injEq] at hidx
          subst hidx
          have hout : r.inside D = false := child_outside D r i.toNat (hnsi _ rfl)
          refine ⟨fun r1 hro => (by cases hro; exact hout), fun h2 hkp => ?_⟩
          obtain ⟨w1, hw1, hsh⟩ := hkp.2.2 r _ hq hout
          obtain ⟨es1, rfl, hl1⟩ := shapeOf_array w1 es.length hsh
          have hlen2 : Value.Len (.mk t (.ref r) ro) h2 = Value.Len (.mk t (.ref r) ro) hc1 := by
            simp [Value.Len, Value.seqLen, hk, Value.load, hq, hw1, hl1]
          have hidx2 : ∀ j, Value.Index (.mk t (.ref r) ro) j h2
              = Value.Index (.mk t (.ref r) ro) j hc1 := by
            intro j
            simp [Value.Index, hk, Value.load, hq, hw1, hl1, he]
          exact valueAtIndexAux_seq_congr n tok _ hc1 h2 hseq hlen2 hidx2 _ _ hr
      · cases hidx

theorem valueAtIndexAux_slice_again (D : Ref) (n : Nat) (tok : Object) (t : GoType)
    (loc : reflect.Loc) (ro : Bool) (hc : Heap) (v1 : Value) (hc1 : Heap)
    (hk : t.kind = KindSlice)
    (hr : valueAtIndexAux (n + 1) (reflect.ValueOf tok) (.mk t loc ro) hc = .ok ((v1, true), hc1))
    (hnri : ∀ q v, hc1.read q = some v → v.isRef = true → q.inside D = false) :
    (∀ r, refOf (.mk t loc ro) = some r → r.inside D = false) ∧
    ∀ h2, hc1.KeepsPaths D h2 →
      valueAtIndexAux (n + 1) (reflect.ValueOf tok) (.mk t loc ro) h2 = .ok ((v1, true), h2) := by
  have hseq : (kindOfValue (.mk t loc ro)).isSequence = true := by
    simp [kindOfValue, Value.Kind, hk, Kind.isSequence]
  obtain ⟨i, N, hlen, hidx, hN, hi0, hiN, rfl⟩ :=
    valueAtIndexAux_seq_parts n _ _ hc v1 hc1 hseq hr
  obtain ⟨s, hl⟩ := seqLen_slice_pos t loc ro hc1 N hk hlen hN
  refine ⟨load_ref_outside D t loc ro hc1 _ hl rfl hnri, fun h2 hkp => ?_⟩
  have hl2 := load_kept D t loc ro hc1 h2 _ hl rfl hkp
  obtain ⟨h1, h2i⟩ := Len_Index_of_load t loc ro hc1 h2 (hl2.trans hl.symm)
  exact valueAtIndexAux_seq_congr n tok _ hc1 h2 hseq h1 h2i _ _ hr

theorem valueAtIndexAux_string_byte (n : Nat) (index : Value) (t : GoType)
    (loc : reflect.Loc) (ro : Bool) (hc : Heap) (v1 : Value) (hc1 : Heap)
    (hk : t.kind = KindString)
    (hr : valueAtIndexAux (n + 1) index (.mk t loc ro) hc = .ok ((v1, true), hc1)) :
    ∃ b, v1 = .mk .uint8 (.imm (.uint b)) ro := by
  have hseq : (kindOfValue (.mk t loc ro)).isSequence = true := by
    simp [kindOfValue, Value.Kind, hk, Kind.isSequence]
  obtain ⟨i, N, hlen, hidx, hN, hi0, hiN, rfl⟩ :=
    valueAtIndexAux_seq_parts n _ _ hc v1 hc1 hseq hr
  unfold Value.Index at hidx
  simp only [hk] at hidx
  repeat' split at hidx
  all_goals first
    | (cases hidx; done)
    | (cases hidx; exact ⟨_, rfl⟩)

theorem valueAtIndexAux_struct_again (D : Ref) (n : Nat) (tok : Object) (t : GoType)
    (loc : reflect.Loc) (ro : Bool) (hc : Heap) (v1 : Value) (hc1 : Heap)
    (hk : t.kind = KindStruct)
    (hr : valueAtIndexAux (n + 1) (reflect.ValueOf tok) (.mk t loc ro) hc = .ok ((v1, true), hc1))
    (hnsi : ∀ r, refOf v1 = some r → r.inside D = true → r = D) :
    (∀ r, refOf (.mk t loc ro) = some r → r.inside D = false) ∧
    ∀ h2, valueAtIndexAux (n + 1) (reflect.ValueOf tok) (.mk t loc ro) h2
      = .ok ((v1, true), h2) := by
  constructor
  · intro r hro
    cases loc with
    | imm x => cases hro
    | ref r1 =>
      simp only [refOf, Option.some.injEq] at hro
      subst hro
      have hf : ∃ name, Value.FieldByName (.mk t (.ref r1) ro) name = .ok v1 := by
        unfold valueAtIndexAux at hr
        simp only [kindOfValue, Value.Kind, hk] at hr
        repeat' split at hr
        all_goals first
          | (cases hr; done)
          | (cases hr; exact ⟨_, by assumption⟩)
      obtain ⟨name, hf⟩ := hf
      have hv : v1 ≠ .zero := by
        intro hz
        subst hz
        unfold valueAtIndexAux at hr
        simp only [kindOfValue, Value.Kind, hk] at hr
        repeat' split at hr
        all_goals first
          | (cases hr; done)
          | (cases hr; simp_all [Value.IsValid])
      unfold Value.FieldByName at hf
      simp only [hk] at hf
      repeat' split at hf
      all_goals first
        | (cases hf; done)
        | (cases hf; exact absurd rfl hv)
        | (cases hf; exact child_outside D r1 _ (hnsi _ rfl))
  · intro h2
    revert hr
    unfold valueAtIndexAux
    simp only [kindOfValue, Value.Kind, hk]
    rw [String_ValueOf tok hc h2]
    repeat' split
    all_goals first
      | (intro hr; cases hr; done)
      | (intro hr; cases hr; rfl)

theorem valueAtIndexAux_ptr_step (n : Nat) (index : Value) (t : GoType) (loc : reflect.Loc)
    (ro : Bool) (h : Heap) (r : Ref) (et : GoType) (hk : t.kind = KindPtr)
    (he : t.Elem = some et) (hl : Value.load (.mk t loc ro) h = .ok (.ptr (some r))) :
    valueAtIndexAux (n + 1) index (.mk t loc ro) h
      = valueAtIndexAux n index (.mk et (.ref r) ro) h := by
  rw [valueAtIndexAux]
  simp only [kindOfValue, Value.Kind, hk, Value.IsNil, hl, Option.isNone_some, Value.Elem, he]

theorem Elem_ptr_load (t : GoType) (loc : reflect.Loc) (ro : Bool) (h : Heap) (elem : Value)
    (hk : t.kind = KindPtr) (he : Value.Elem (.mk t loc ro) h = .ok elem)
    (hz : elem ≠ .zero) :
    ∃ r et, Value.load (.mk t loc ro) h = .ok (.ptr (some r)) ∧ t.Elem = some et ∧
      elem = .mk et (.ref r) ro := by
  unfold Value.Elem at he
  simp only [hk] at he
  split at he
  · cases he
  · cases he; exact absurd rfl hz
  · rename_i r et hl het
    cases he
    exact ⟨r, et, hl, het, rfl⟩
  · cases he

theorem MapIndex_again (D : Ref) (tok : Object) (t : GoType) (loc : reflect.Loc) (ro : Bool)
    (hc : Heap) (v1 : Value)
    (hm : Value.MapIndex (.mk t loc ro) (reflect.ValueOf tok) hc = .ok v1)
    (hv : v1.IsValid = true) :
    (∃ a, Value.load (.mk t loc ro) hc = .ok (.map (some a))) ∧
    ∀ h2, hc.KeepsPaths D h2 →
      Value.MapIndex (.mk t loc ro) (reflect.ValueOf tok) h2 = .ok v1 := by
  cases tok with
  | none => cases hm
  | some p =>
    obtain ⟨kt, kv⟩ := p
    simp only [reflect.ValueOf] at hm ⊢
    unfold Value.MapIndex at hm
    simp only [] at hm
    split at hm
    · rename_i K E hk hK hE
      split at hm
      · rename_i hA
        split at hm
        · cases hm
        · cases hm
        · rename_i m kv1 hl hkl
          split at hm
          · rename_i hh
            split at hm
            · cases hm; cases hv
            · rename_i a
              split at hm
              · cases hm
              · rename_i es hes
                split at hm
                · cases hm; cases hv
                · rename_i x hx
                  cases hm
                  refine ⟨⟨a, hl⟩, fun h2 hkp => ?_⟩
                  have hl2 := load_kept D t loc ro hc h2 _ hl rfl hkp
                  have hes2 := hkp.2.1 a es hes
                  have hkl2 : Value.load (.mk kt (.imm kv) false) h2 = .ok kv1 := hkl
                  unfold Value.MapIndex
                  simp only [hk, hK, hE, hA, if_true, hl2, hkl2, hh, hes2, hx]
          · cases hm
        · cases hm
      · cases hm
    · cases hm

theorem valueAtIndexAux_map_again (D : Ref) (n : Nat) (tok : Object) (t : GoType)
    (loc : reflect.Loc) (ro : Bool) (hc : Heap) (v1 : Value) (hc1 : Heap)
    (hk : t.kind = KindMap)
    (hr : valueAtIndexAux (n + 1) (reflect.ValueOf tok) (.mk t loc ro) hc = .ok ((v1, true), hc1))
    (hnri : ∀ q v, hc1.read q = some v → v.isRef = true → q.inside D = false) :
    (∀ r, refOf (.mk t loc ro) = some r → r.inside D = false) ∧
    ∀ h2, hc1.KeepsPaths D h2 →
      valueAtIndexAux (n + 1) (reflect.ValueOf tok) (.mk t loc ro) h2 = .ok ((v1, true), h2) := by
  have hparts : hc1 = hc ∧ Value.MapIndex (.mk t loc ro) (reflect.ValueOf tok) hc = .ok v1 ∧
      v1.IsValid = true := by
    unfold valueAtIndexAux at hr
    simp only [kindOfValue, Value.Kind, hk] at hr
    repeat' split at hr
    all_goals first
      | (cases hr; done)
      | (cases hr; exact ⟨rfl, by assumption, by simp_all⟩)
  obtain ⟨rfl, hm, hv⟩ := hparts
  obtain ⟨⟨a, hl⟩, hagain⟩ := MapIndex_again D tok t loc ro hc1 v1 hm hv
  refine ⟨load_ref_outside D t loc ro hc1 _ hl rfl hnri, fun h2 hkp => ?_⟩
  have hm2 := hagain h2 hkp
  revert hr
  unfold valueAtIndexAux
  simp only [kindOfValue, Value.Kind, hk, hm, hm2]
  repeat' split
  all_goals first
    | (intro hr; cases hr; done)
    | (intro hr; cases hr; rfl)

theorem valueAtIndexAux_again (D : Ref) : ∀ (fuel : Nat) (tok : Object) (c : Value)
    (hc : Heap) (v1 : Value) (hc1 : Heap),
    valueAtIndexAux fuel (reflect.ValueOf tok) c hc = .ok ((v1, true), hc1) →
    (∀ q v, hc1.read q = some v → v.isRef = true → q.inside D = false) →
    (∀ r, refOf v1 = some r → r.inside D = true → r = D) →
    (∀ b ro1, v1 ≠ .mk .uint8 (.imm (.uint b)) ro1) →
    (∀ r, refOf c = some r → r.inside D = false) ∧
    ∀ h2, hc1.KeepsPaths D h2 →
      valueAtIndexAux fuel (reflect.ValueOf tok) c h2 = .ok ((v1, true), h2) := by
  intro fuel
  induction fuel with
  | zero => intro tok c hc v1 hc1 hr; simp [valueAtIndexAux] at hr
  | succ n ih =>
    intro tok c hc v1 hc1 hr hnri hnsi hv1
    cases c with
    | zero => exact absurd hr (valueAtIndexAux_zero_fails _ _ _ _ _)
    | mk t loc ro =>
      have finish : ∀ (hB : Heap) (elem : Value), t.kind = KindPtr →
          Value.Elem (.mk t loc ro) hB = .ok elem →
          valueAtIndexAux n (reflect.ValueOf tok) elem hB = .ok ((v1, true), hc1) →
          (∀ r, refOf (.mk t loc ro) = some r → r.inside D = false) ∧
          ∀ h2, hc1.KeepsPaths D h2 →
            valueAtIndexAux (n + 1) (reflect.ValueOf tok) (.mk t loc ro) h2
              = .ok ((v1, true), h2) := by
        intro hB elem hp he hrec
        have hz : elem ≠ .zero := by
          intro hz
          subst hz
          exact absurd hrec (valueAtIndexAux_zero_fails _ _ _ _ _)
        obtain ⟨r, et, hl, het, rfl⟩ := Elem_ptr_load t loc ro hB elem hp he hz
        obtain ⟨-, hre⟩ := ih tok _ hB v1 hc1 hrec hnri hnsi hv1
        have hkp := Vivifies_KeepsPaths D (valueAtIndexAux_vivifies _ _ _ _ _ _ hrec)
        have hl1 := load_kept D t loc ro hB hc1 _ hl rfl hkp
        refine ⟨load_ref_outside D t loc ro hc1 _ hl1 rfl hnri, fun h2 hk2 => ?_⟩
        have hl2 := load_kept D t loc ro hc1 h2 _ hl1 rfl hk2
        rw [valueAtIndexAux_ptr_step n _ t loc ro h2 r et hp het hl2]
        exact hre h2 hk2
      cases hk : t.kind with
      | KindPtr =>
        simp only [valueAtIndexAux, kindOfValue, Value.Kind, hk] at hr
        repeat' split at hr
        all_goals first
          | cases hr
          | exact finish _ _ hk (by assumption) hr
      | KindStruct =>
        obtain ⟨ho, hre⟩ := valueAtIndexAux_struct_again D n tok t loc ro hc v1 hc1 hk hr hnsi
        exact ⟨ho, fun h2 _ => hre h2⟩
      | KindMap => exact valueAtIndexAux_map_again D n tok t loc ro hc v1 hc1 hk hr hnri
      | KindSlice => exact valueAtIndexAux_slice_again D n tok t loc ro hc v1 hc1 hk hr hnri
      | KindArray =>
        have hseq : (kindOfValue (.mk t loc ro)).isSequence = true := by
          simp [kindOfValue, Value.Kind, hk, Kind.isSequence]
        obtain ⟨_, _, _, _, _, _, _, heq⟩ := valueAtIndexAux_seq_parts n _ _ hc v1 hc1 hseq hr
        subst heq
        exact valueAtIndexAux_array_again D n tok t loc ro _ v1 _ hk hr hnsi
      | KindString =>
        obtain ⟨b, hb⟩ := valueAtIndexAux_string_byte n _ t loc ro hc v1 hc1 hk hr
        exact absurd hb (hv1 b ro)
      | _ => simp [valueAtIndexAux, kindOfValue, Value.Kind, hk] at hr

theorem Path_FetchValue_again (D : Ref) (ft : GoType) (ro : Bool) (h1 : Heap)
    (hnri : ∀ q v, h1.read q = some v → v.isRef = true → q.inside D = false) :
    ∀ (rest : List Object) (v : Value) (hc : Heap),
      Path.FetchValue rest v hc = .ok ((.mk ft (.ref D) ro, true), h1) →
      (rest ≠ [] → ∀ r, refOf v = some r → r.inside D = false) ∧
      ∀ h2, h1.KeepsPaths D h2 →
        Path.FetchValue rest v h2 = .ok ((.mk ft (.ref D) ro, true), h2) := by
  intro rest
  induction rest with
  | nil =>
    intro v hc hr
    simp only [Path.FetchValue, Except.ok.injEq, Prod.mk.injEq, and_true] at hr
    obtain ⟨rfl, rfl⟩ := hr
    exact ⟨fun hne => absurd rfl hne, fun h2 _ => rfl⟩
  | cons tok rest ih =>
    intro v hc hr
    unfold Path.FetchValue at hr
    split at hr
    · cases hr
    · rename_i v1 ok hc1 hstep
      split at hr
      · cases hr
      · rename_i hok
        simp only [Bool.not_eq_true, Bool.not_eq_false, Bool.not_eq_eq_eq_not, Bool.not_true,
          Bool.not_false] at hok
        subst hok
        obtain ⟨hout1, hre1⟩ := ih v1 hc1 hr
        have hkp1 := Vivifies_KeepsPaths D (Path_FetchValue_vivifies _ _ _ _ _ hr)
        have hnri1 : ∀ q v, hc1.read q = some v → v.isRef = true → q.inside D = false :=
          fun q w hq hw => hnri q w (hkp1.1 q w hq hw) hw
        have hnsi : ∀ r, refOf v1 = some r → r.inside D = true → r = D := by
          intro r hro hin
          cases rest with
          | nil =>
            simp only [Path.FetchValue, Except.ok.injEq, Prod.mk.injEq, and_true] at hr
            obtain ⟨rfl, -⟩ := hr
            simp only [refOf, Option.some.injEq] at hro
            exact hro.symm
          | cons t2 rest2 =>
            have := hout1 (by simp) r hro
            rw [this] at hin
            cases hin
        have hv1 : ∀ b ro1, v1 ≠ .mk .uint8 (.imm (.uint b)) ro1 := by
          intro b ro1 hv
          subst hv
          cases rest with
          | nil =>
            simp only [Path.FetchValue, Except.ok.injEq, Prod.mk.injEq, and_true] at hr
            obtain ⟨hr, -⟩ := hr
            cases hr
          | cons t2 rest2 =>
            have hf := valueAtIndex_on_other_kind (reflect.ValueOf t2)
              (.mk .uint8 (.imm (.uint b)) ro1) hc1 rfl
            simp [Path.FetchValue, hf] at hr
        obtain ⟨hout, hre⟩ := valueAtIndexAux_again D _ tok v hc v1 hc1 hstep hnri1 hnsi hv1
        refine ⟨fun _ => hout, fun h2 hk2 => ?_⟩
        have hs2 := hre h2 (KeepsPaths_trans hkp1 hk2)
        unfold Path.FetchValue
        simp only [valueAtIndex, hs2, Bool.not_true, Bool.false_eq_true, if_false]
        exact hre1 h2 hk2

theorem Val_get_of_set : ∀ (s : List Nat) (v v1 x : Val), v.set s x = some v1 →
    ∃ w, v.get s = some w := by
  intro s
  induction s with
  | nil => intro v v1 x _; exact ⟨v, by simp [Val.get]⟩
  | cons i s ih =>
    intro v v1 x hs
    cases v <;> simp only [Val.set] at hs <;> try cases hs
    all_goals
      rename_i es
      split at hs
      · rename_i e he
        split at hs
        · rename_i e1 he1
          obtain ⟨w, hw⟩ := ih e e1 x he1
          exact ⟨w, by simp [Val.get, he, hw]⟩
        · cases hs
      · cases hs

theorem Heap_read_of_write (h h1 : Heap) (r : Ref) (x : Val) (hw : h.write r x = some h1) :
    (∃ w, h.read r = some w) ∧ h1.read r = some x := by
  obtain ⟨v, v1, hv, hs, -, -⟩ := Heap_write_cell h h1 r x hw
  obtain ⟨w, hg⟩ := Val_get_of_set r.sel v v1 x hs
  have hr : h.read r = some w := by simp [Heap.read, hv, hg]
  obtain ⟨h2, hw2, hrd, -⟩ := Heap_write_of_read h r w x hr
  rw [hw] at hw2
  cases hw2
  exact ⟨⟨w, hr⟩, hrd⟩

theorem Interface_after_assign (ft et : GoType) (d : Ref) (x : Val) (h : Heap)
    (hk : et.kind ≠ KindInterface) (hr : h.read d = some (assignVal et ft x)) :
    Value.Interface (.mk ft (.ref d) false) h = .ok (storedAs ft et x) := by
  by_cases hf : ft.kind = KindInterface
  · have : assignVal et ft x = .iface et x := by simp [assignVal, hf, hk]
    rw [this] at hr
    simp [Value.Interface, Value.load, hr, hf, storedAs]
  · have : assignVal et ft x = x := by simp [assignVal, hf]
    rw [this] at hr
    simp [Value.Interface, Value.load, hr, hf, storedAs]

theorem Path_FetchValue_through_pointer (tok : Object) (rest : List Object) (T : GoType)
    (r : Ref) (h : Heap) :
    Path.FetchValue (tok :: rest) (reflect.ValueOf (some (.ptr T, .ptr (some r)))) h
      = Path.FetchValue (tok :: rest) (.mk T (.ref r) false) h := by
  have := valueAtIndex_ptr_nonnil (reflect.ValueOf tok) (.ptr T) (.imm (.ptr (some r))) false h
    r T rfl rfl rfl
  simp only [Path.FetchValue, reflect.ValueOf] at this ⊢
  rw [this]

/-! ## Single object filler: what a successful fill leaves behind -/

/-- C19 (the claim fails in two ways).  First, a slot whose declared type is
the named type `IDs` (a slice of `int`) accepts a candidate `x` of type `[]int`;
`Fill` returns (1,0), and reading the path back, through a pointer to the target
or on a copy of it, gives the contents at type `IDs`, which is not `x`.  Second,
when the data is a pointer to the target itself, the value source resolves its
own path "P", "X" in the target and fills the nil pointer `P` with a new
variable: `Fill` for the destination "A" returns (1,0), resolving "A" allocated
nothing, and yet the slot `P`, which is not on the destination path, changed. -/
theorem Fill_reads_back_at_slot_type :
    (ObjectFiller.Fill (.Path [some (.string, .string "L")])
        (.DefaultValue (some (.slice .int, .slice none)))
        (.mk (.struct (.cons "L" true (.named "IDs" (.slice .int)) .nil)) (.ref ⟨0, []⟩) false)
        none ⟨[.var (.struct [.slice none])]⟩
      = .ok ((1, 0), ⟨[.var (.struct [.slice none])]⟩) ∧
    ValueSource.ExtractObject (.DefaultValue (some (.slice .int, .slice none))) none
        ⟨[.var (.struct [.slice none])]⟩
      = .ok ((some (.slice .int, .slice none), true), ⟨[.var (.struct [.slice none])]⟩) ∧
    Path.FetchObject [some (.string, .string "L")]
        (some (.ptr (.struct (.cons "L" true (.named "IDs" (.slice .int)) .nil)),
          .ptr (some ⟨0, []⟩)))
        ⟨[.var (.struct [.slice none])]⟩
      = .ok ((some (.named "IDs" (.slice .int), .slice none), true),
          ⟨[.var (.struct [.slice none])]⟩) ∧
    Path.FetchObject [some (.string, .string "L")]
        (some (.struct (.cons "L" true (.named "IDs" (.slice .int)) .nil),
          .struct [.slice none]))
        ⟨[.var (.struct [.slice none])]⟩
      = .ok ((some (.named "IDs" (.slice .int), .slice none), true),
          ⟨[.var (.struct [.slice none])]⟩) ∧
    (some (GoType.named "IDs" (.slice .int), Val.slice none) : Object)
      ≠ some (.slice .int, .slice none)) ∧
    (ObjectFiller.Fill (.Path [some (.string, .string "A")])
        (.ObjectAtPath (.Path [some (.string, .string "P"), some (.string, .string "X")])
          (.Kind KindString))
        (.mk (.struct (.cons "A" true .string
            (.cons "P" true (.ptr (.struct (.cons "X" true .string .nil))) .nil)))
          (.ref ⟨0, []⟩) false)
        (some (.ptr (.struct (.cons "A" true .string
            (.cons "P" true (.ptr (.struct (.cons "X" true .string .nil))) .nil))),
          .ptr (some ⟨0, []⟩)))
        ⟨[.var (.struct [.string "a", .ptr none])]⟩
      = .ok ((1, 0),
          ⟨[.var (.struct [.string "", .ptr (some ⟨1, []⟩)]), .var (.struct [.string ""])]⟩) ∧
    Path.FetchValue [some (.string, .string "A")]
        (.mk (.struct (.cons "A" true .string
            (.cons "P" true (.ptr (.struct (.cons "X" true .string .nil))) .nil)))
          (.ref ⟨0, []⟩) false)
        ⟨[.var (.struct [.string "a", .ptr none])]⟩
      = .ok ((.mk .string (.ref ⟨0, [0]⟩) false, true),
          ⟨[.var (.struct [.string "a", .ptr none])]⟩) ∧
    Ref.overlaps ⟨0, [1]⟩ ⟨0, [0]⟩ = false ∧
    Heap.read ⟨[.var (.struct [.string "a", .ptr none])]⟩ ⟨0, [1]⟩ = some (.ptr none) ∧
    Heap.read ⟨[.var (.struct [.string "", .ptr (some ⟨1, []⟩)]), .var (.struct [.string ""])]⟩
        ⟨0, [1]⟩
      = some (.ptr (some ⟨1, []⟩))) := by
  refine ⟨⟨rfl, rfl, rfl, rfl, ?_⟩, rfl, rfl, rfl, rfl, rfl⟩
  intro hc
  cases hc

/-- C19, amended: whenever `ObjectFiller{p, s}.Fill(target, data)` returns (1,0),
`p` resolved to a settable slot `d` of declared type `ft`, and the value source
returned a non-nil candidate of type `et` with contents `x`, assignable to `ft`.
Up to the assignment, path resolution and extraction only allocated variables
and made nil slots point to them (`Vivifies`; extraction can do so inside the
target when the data aliases it).  The assignment is one write of the candidate
to `d`: every slot that does not overlap `d` and every map is as before it, and
`d` read back gives `storedAs ft et x`, which is the candidate itself when `d`
is of interface kind or `et` is `ft`, and the same contents at type `ft`
otherwise.  If `d` held no non-nil pointer, slice or map before the assignment,
`p` resolves on the resulting heap to `d` again, allocating nothing, and for a
path of one token or more `FetchObject` on a pointer to the target returns the
read-back value. -/
theorem Fill_round_trip (p : ObjectPath) (s : ValueSource) (value : Value) (data : Object)
    (h h3 : Heap) (hr : ObjectFiller.Fill p s value data h = .ok ((1, 0), h3)) :
    ∃ (ft : GoType) (d : Ref) (h1 : Heap) (et : GoType) (x : Val) (h2 : Heap),
      p.orRoot.FetchValue value h = .ok ((.mk ft (.ref d) false, true), h1) ∧
      s.ExtractObject data h1 = .ok ((some (et, x), true), h2) ∧
      et.AssignableTo ft = true ∧
      h.Vivifies h2 ∧
      h2.write d (assignVal et ft x) = some h3 ∧
      (∀ q, q.overlaps d = false → h3.read q = h2.read q) ∧
      (∀ a, h3.mapEntries a = h2.mapEntries a) ∧
      h3.cells.length = h2.cells.length ∧
      (et.kind ≠ KindInterface →
        Value.Interface (.mk ft (.ref d) false) h3 = .ok (storedAs ft et x)) ∧
      (ft.kind = KindInterface ∨ et = ft → storedAs ft et x = some (et, x)) ∧
      (∀ w, h2.read d = some w → w.noRefs = true →
        p.orRoot.FetchValue value h3 = .ok ((.mk ft (.ref d) false, true), h3) ∧
        (∀ T r tok rest, value = .mk T (.ref r) false → p = .Path (tok :: rest) →
          et.kind ≠ KindInterface →
          Path.FetchObject (tok :: rest) (some (.ptr T, .ptr (some r))) h3
            = .ok ((storedAs ft et x, true), h3))) := by
  obtain ⟨fv, h1, xo, h2, et, ft, hfv, hcs, hx, het, hft, hat, hset⟩ :=
    (ObjectFiller_Fill_success_iff p s value data h h3).1 hr
  cases fv with
  | zero => cases hcs
  | mk t loc ro =>
    cases loc with
    | imm y => cases hcs
    | ref d =>
      cases ro with
      | true => cases hcs
      | false =>
        cases xo with
        | none => cases het
        | some tx =>
          obtain ⟨et1, x⟩ := tx
          simp only [reflect.ValueOf, Value.Type, Except.ok.injEq] at het hft
          subst het hft
          have hw : h2.write d (assignVal et1 t x) = some h3 := by
            simp only [reflect.ValueOf, Value.Set, hat, if_true, Value.load] at hset
            split at hset
            · rename_i h4 hw4
              cases hset
              exact hw4
            · cases hset
          obtain ⟨⟨w0, hw0⟩, hback⟩ := Heap_read_of_write h2 h3 d _ hw
          have hv1 := ObjectPath_FetchValue_vivifies _ _ _ _ _ hfv
          have hv2 := ValueSource_ExtractObject_vivifies _ _ _ _ _ hx
          have hint : et1.kind ≠ KindInterface →
              Value.Interface (.mk t (.ref d) false) h3 = .ok (storedAs t et1 x) :=
            fun hk => Interface_after_assign t et1 d x h3 hk hback
          refine ⟨t, d, h1, et1, x, h2, hfv, hx, hat, Vivifies_trans hv1 hv2, hw,
            fun q hq => Heap_write_other h2 h3 d q _ hw hq,
            fun a => Heap_write_maps h2 h3 d _ hw a,
            Heap_write_length h2 h3 d _ hw, hint, ?_, ?_⟩
          · rintro (hk | rfl)
            · simp [storedAs, hk]
            · simp [storedAs]
          · intro w hwd hn
            have hk12 : h1.KeepsPaths d h2 := Vivifies_KeepsPaths d hv2
            have hk13 : h1.KeepsPaths d h3 :=
              KeepsPaths_trans hk12 (KeepsPaths_write h2 h3 d w _ hwd hn hw)
            have hnri : ∀ q v, h1.read q = some v → v.isRef = true → q.inside d = false := by
              intro q v hq hv
              cases hin : q.inside d with
              | false => rfl
              | true =>
                obtain ⟨tl, -, hg⟩ := Heap_read_inside h2 d q w v hwd hin (hk12.1 q v hq hv)
                have := noRefs_get tl w v hn hg
                rw [isRef_not_noRefs v hv] at this
                cases this
            have hagain : p.orRoot.FetchValue value h3
                = .ok ((.mk t (.ref d) false, true), h3) := by
              cases p with
              | nil =>
                simp only [ObjectPath.orRoot, Root, ObjectPath.FetchValue, RootAsPath.FetchValue,
                  Except.ok.injEq, Prod.mk.injEq, and_true] at hfv ⊢
                exact hfv.1
              | RootAsPath =>
                simp only [ObjectPath.orRoot, ObjectPath.FetchValue, RootAsPath.FetchValue,
                  Except.ok.injEq, Prod.mk.injEq, and_true] at hfv ⊢
                exact hfv.1
              | Path op =>
                exact (Path_FetchValue_again d t false h1 hnri op value h hfv).2 h3 hk13
            refine ⟨hagain, ?_⟩
            rintro T r tok rest rfl rfl hk
            simp only [ObjectPath.orRoot, ObjectPath.FetchValue] at hagain
            unfold Path.FetchObject
            rw [Path_FetchValue_through_pointer, hagain]
            simp [Value.CanInterface, hint hk]

/-- C19, amended, on a struct variable whose pointer field `P` is nil, with the
destination "P", "X" and the `int` candidate 5: `Fill` returns (1,0) after
allocating the pointee of `P`; the field `X` held 0 before the assignment, so
the path read back through a pointer to the target returns 5. -/
theorem Fill_round_trip_witness :
    ObjectFiller.Fill (.Path [some (.string, .string "P"), some (.string, .string "X")])
        (.DefaultValue (some (.int, .int 5)))
        (.mk (.struct (.cons "P" true (.ptr (.struct (.cons "X" true .int .nil))) .nil))
          (.ref ⟨0, []⟩) false)
        none ⟨[.var (.struct [.ptr none])]⟩
      = .ok ((1, 0), ⟨[.var (.struct [.ptr (some ⟨1, []⟩)]), .var (.struct [.int 5])]⟩) ∧
    Heap.Vivifies ⟨[.var (.struct [.ptr none])]⟩
      ⟨[.var (.struct [.ptr (some ⟨1, []⟩)]), .var (.struct [.int 0])]⟩ ∧
    Path.FetchObject [some (.string, .string "P"), some (.string, .string "X")]
        (some (.ptr (.struct (.cons "P" true (.ptr (.struct (.cons "X" true .int .nil))) .nil)),
          .ptr (some ⟨0, []⟩)))
        ⟨[.var (.struct [.ptr (some ⟨1, []⟩)]), .var (.struct [.int 5])]⟩
      = .ok ((some (.int, .int 5), true),
          ⟨[.var (.struct [.ptr (some ⟨1, []⟩)]), .var (.struct [.int 5])]⟩) := by
  have hfill : ObjectFiller.Fill
      (.Path [some (.string, .string "P"), some (.string, .string "X")])
      (.DefaultValue (some (.int, .int 5)))
      (.mk (.struct (.cons "P" true (.ptr (.struct (.cons "X" true .int .nil))) .nil))
        (.ref ⟨0, []⟩) false)
      none ⟨[.var (.struct [.ptr none])]⟩
      = .ok ((1, 0), ⟨[.var (.struct [.ptr (some ⟨1, []⟩)]), .var (.struct [.int 5])]⟩) := rfl
  obtain ⟨ft, d, h1, et, x, h2, hfv, hx, -, hviv, -, -, -, -, -, -, hre⟩ :=
    Fill_round_trip _ _ _ _ _ _ hfill
  have e1 : ObjectPath.FetchValue
      (ObjectPath.orRoot (.Path [some (.string, .string "P"), some (.string, .string "X")]))
      (.mk (.struct (.cons "P" true (.ptr (.struct (.cons "X" true .int .nil))) .nil))
        (.ref ⟨0, []⟩) false) ⟨[.var (.struct [.ptr none])]⟩
      = .ok ((.mk .int (.ref ⟨1, [0]⟩) false, true),
          ⟨[.var (.struct [.ptr (some ⟨1, []⟩)]), .var (.struct [.int 0])]⟩) := rfl
  rw [e1] at hfv
  cases hfv
  have e2 : ValueSource.ExtractObject (.DefaultValue (some (.int, .int 5))) none
      ⟨[.var (.struct [.ptr (some ⟨1, []⟩)]), .var (.struct [.int 0])]⟩
      = .ok ((some (.int, .int 5), true),
          ⟨[.var (.struct [.ptr (some ⟨1, []⟩)]), .var (.struct [.int 0])]⟩) := rfl
  rw [e2] at hx
  cases hx
  exact ⟨hfill, hviv, (hre (.int 0) rfl rfl).2 _ _ _ _ rfl rfl (by decide)⟩

/-! ## Map keys that are floats -/

theorem floatEq_of_isNaN (a b : Nat) (hb : isNaN b = true) : floatEq a b = false := by
  simp [floatEq, hb]

theorem lookupKey_NaN (b : Nat) (hb : isNaN b = true) : ∀ (es : List (Val × Val)),
    lookupKey (.float b) es = none := by
  intro es
  induction es with
  | nil => rfl
  | cons e rest ih =>
    obtain ⟨k1, v⟩ := e
    have hne : Val.beq k1 (.float b) = false := by
      cases k1 <;> simp [Val.beq, floatEq_of_isNaN _ b hb]
    simp [lookupKey, hne, ih]

theorem lookupKey_float_keys (x : Val) :
    isNaN 0x7FF8000000000000 = true ∧
    lookupKey (.float 0x7FF8000000000000) [(.float 0x7FF8000000000000, x)] = none ∧
    lookupKey (.float 0x8000000000000000) [(.float 0, x)] = some x ∧
    lookupKey (.float 0) [(.float 0x8000000000000000, x)] = some x ∧
    lookupKey (.float 0x3FF0000000000000) [(.float 0x3FF0000000000000, x)] = some x ∧
    lookupKey (.float 0x3FF0000000000000) [(.float 0x4000000000000000, x)] = none := by
  refine ⟨by decide, lookupKey_NaN _ (by decide) _, ?_, ?_, ?_, ?_⟩ <;>
    simp [lookupKey, Val.beq, floatEq, isNaN]

/-! ## Single object filler: a candidate that does not fit -/

theorem Vivifies_load_kept (fv : Value) (h1 h2 : Heap) (v : Val) (hv : h1.Vivifies h2)
    (hl : fv.load h1 = .ok v) (hleaf : v.isLeaf = true) (hn : v.isNil = false) :
    fv.load h2 = .ok v := by
  cases fv with
  | zero => cases hl
  | mk t loc ro =>
    cases loc with
    | imm x => exact hl
    | ref d =>
      unfold Value.load at hl ⊢
      cases hq : h1.read d with
      | none => simp [hq] at hl
      | some w =>
        simp only [hq, Except.ok.injEq] at hl
        subst hl
        rcases hv.2.2.2 d w hq hleaf with h2v | ⟨hn2, -⟩
        · simp [h2v]
        · rw [hn] at hn2; cases hn2

/-- C12 (the claim fails when the data is the target itself): the destination
is the nil pointer field `P` of a struct variable, the data is a pointer to
that variable, and the value source reads "P", "X" from the data.  Resolving the
destination allocates nothing; the value source, following its own path, gives
`P` a new pointee and extracts the string in it, which is not assignable to the
pointer type of `P`.  `Fill` returns (0,1), and yet the slot `P` no longer holds
its previous value. -/
theorem Fill_not_assignable_fills_aliased_pointer :
    Path.FetchValue [some (.string, .string "P")]
        (.mk (.struct (.cons "P" true (.ptr (.struct (.cons "X" true .string .nil))) .nil))
          (.ref ⟨0, []⟩) false)
        ⟨[.var (.struct [.ptr none])]⟩
      = .ok ((.mk (.ptr (.struct (.cons "X" true .string .nil))) (.ref ⟨0, [0]⟩) false, true),
          ⟨[.var (.struct [.ptr none])]⟩) ∧
    ValueSource.ExtractObject
        (.ObjectAtPath (.Path [some (.string, .string "P"), some (.string, .string "X")])
          (.Kind KindString))
        (some (.ptr (.struct (.cons "P" true (.ptr (.struct (.cons "X" true .string .nil)))
            .nil)), .ptr (some ⟨0, []⟩)))
        ⟨[.var (.struct [.ptr none])]⟩
      = .ok ((some (.string, .string ""), true),
          ⟨[.var (.struct [.ptr (some ⟨1, []⟩)]), .var (.struct [.string ""])]⟩) ∧
    GoType.AssignableTo .string (.ptr (.struct (.cons "X" true .string .nil))) = false ∧
    ObjectFiller.Fill (.Path [some (.string, .string "P")])
        (.ObjectAtPath (.Path [some (.string, .string "P"), some (.string, .string "X")])
          (.Kind KindString))
        (.mk (.struct (.cons "P" true (.ptr (.struct (.cons "X" true .string .nil))) .nil))
          (.ref ⟨0, []⟩) false)
        (some (.ptr (.struct (.cons "P" true (.ptr (.struct (.cons "X" true .string .nil)))
            .nil)), .ptr (some ⟨0, []⟩)))
        ⟨[.var (.struct [.ptr none])]⟩
      = .ok ((0, 1),
          ⟨[.var (.struct [.ptr (some ⟨1, []⟩)]), .var (.struct [.string ""])]⟩) ∧
    Heap.read ⟨[.var (.struct [.ptr none])]⟩ ⟨0, [0]⟩ = some (.ptr none) ∧
    Heap.read ⟨[.var (.struct [.ptr (some ⟨1, []⟩)]), .var (.struct [.string ""])]⟩ ⟨0, [0]⟩
      = some (.ptr (some ⟨1, []⟩)) :=
  ⟨rfl, rfl, by decide, rfl, rfl, rfl⟩

/-- C12, amended: when the destination resolves to a settable slot and the
value source extracts a candidate whose runtime type is not assignable to the
declared type of the slot, `Fill` returns (0,1) and assigns nothing: the heap it
leaves is the one the value source left.  Until then only path resolution ran,
for the destination and, inside the value source, for the data; it allocates
variables and makes nil slots point to them and changes nothing else
(`Vivifies`).  So a slot that held a value without parts other than nil, such
as an `int` field, holds it still; a slot that held nil holds nil or, when the
path of the value source goes through it because the data is the target, points
to a new variable; a slot with parts keeps its outline.  A `DefaultValue`
source leaves the heap as path resolution of the destination left it.
Conversely `Fill` returns (1,0), having assigned to the slot, only for a
candidate whose runtime type is assignable to the type of the slot. -/
theorem ObjectFiller_Fill_not_assignable (p : ObjectPath) (s : ValueSource) (value : Value)
    (data : Object) (h : Heap) :
    (∀ (fv : Value) (h1 : Heap) (x : Object) (h2 : Heap) (et ft : GoType),
      p.orRoot.FetchValue value h = .ok ((fv, true), h1) → fv.CanSet = true →
      s.ExtractObject data h1 = .ok ((x, true), h2) →
      (reflect.ValueOf x).Type = .ok et → fv.Type = .ok ft →
      et.AssignableTo ft = false →
      ObjectFiller.Fill p s value data h = .ok ((0, 1), h2) ∧
      h.Vivifies h1 ∧ h1.Vivifies h2 ∧
      (∀ v, fv.load h1 = .ok v → v.isLeaf = true → v.isNil = false → fv.load h2 = .ok v) ∧
      (∀ d v, refOf fv = some d → h1.read d = some v →
        (∃ v1, h2.read d = some v1 ∧ v1.shapeOf = v.shapeOf) ∧
        (v.isNil = true → h2.read d = some v ∨
          ∃ a, h1.cells.length ≤ a ∧ h2.read d = some (.ptr (some ⟨a, []⟩)))) ∧
      (∀ dv, s = .DefaultValue dv → h2 = h1)) ∧
    (∀ h3, ObjectFiller.Fill p s value data h = .ok ((1, 0), h3) →
      ∃ (fv : Value) (h1 : Heap) (x : Object) (h2 : Heap) (et ft : GoType),
        p.orRoot.FetchValue value h = .ok ((fv, true), h1) ∧
        s.ExtractObject data h1 = .ok ((x, true), h2) ∧
        (reflect.ValueOf x).Type = .ok et ∧ fv.Type = .ok ft ∧
        et.AssignableTo ft = true ∧ fv.Set (reflect.ValueOf x) h2 = .ok h3) := by
  constructor
  · intro fv h1 x h2 et ft hfv hcs hx het hft hna
    have hv1 := ObjectPath_FetchValue_vivifies _ _ _ _ _ hfv
    have hv2 := ValueSource_ExtractObject_vivifies _ _ _ _ _ hx
    refine ⟨?_, hv1, hv2, fun v hl hleaf hn => Vivifies_load_kept fv h1 h2 v hv2 hl hleaf hn,
      fun d v _ hd => ⟨hv2.2.2.1 d v hd, fun hn => ?_⟩, ?_⟩
    · unfold ObjectFiller.Fill
      simp [hfv, hcs, hx, het, hft, hna]
    · rcases hv2.2.2.2 d v hd (isNil_isLeaf v hn) with h2v | ⟨-, a, ha, h2v⟩
      · exact Or.inl h2v
      · exact Or.inr ⟨a, ha, h2v⟩
    · rintro dv rfl
      simp only [ValueSource.ExtractObject, Except.ok.injEq, Prod.mk.injEq] at hx
      exact hx.2.symm
  · intro h3 hr
    obtain ⟨fv, h1, x, h2, et, ft, hfv, -, hx, het, hft, hat, hset⟩ :=
      (ObjectFiller_Fill_success_iff p s value data h h3).mp hr
    exact ⟨fv, h1, x, h2, et, ft, hfv, hx, het, hft, hat, hset⟩

/-- C12, amended, on the `int` field `N` of a struct variable holding 7, with
the string candidate "a" and no conversion: `Fill` returns (0,1) and `N` still
holds 7. -/
theorem ObjectFiller_Fill_not_assignable_witness :
    GoType.AssignableTo .string .int = false ∧
    ObjectFiller.Fill (.Path [some (.string, .string "N")])
        (.DefaultValue (some (.string, .string "a")))
        (.mk (.struct (.cons "N" true .int .nil)) (.ref ⟨0, []⟩) false) none
        ⟨[.var (.struct [.int 7])]⟩
      = .ok ((0, 1), ⟨[.var (.struct [.int 7])]⟩) ∧
    Value.load (.mk .int (.ref ⟨0, [0]⟩) false) ⟨[.var (.struct [.int 7])]⟩ = .ok (.int 7) := by
  obtain ⟨hfill, -, -, hkeep, -, -⟩ :=
    (ObjectFiller_Fill_not_assignable (.Path [some (.string, .string "N")])
      (.DefaultValue (some (.string, .string "a")))
      (.mk (.struct (.cons "N" true .int .nil)) (.ref ⟨0, []⟩) false) none
      ⟨[.var (.struct [.int 7])]⟩).1
      (.mk .int (.ref ⟨0, [0]⟩) false) ⟨[.var (.struct [.int 7])]⟩
      (some (.string, .string "a")) ⟨[.var (.struct [.int 7])]⟩ .string .int
      rfl rfl rfl rfl rfl (by decide)
  exact ⟨by decide, hfill, hkeep (.int 7) rfl rfl rfl⟩

/-! ## Destinations inside maps and strings: the last token -/

theorem valueAtIndex_nil_token_on_map (c : Value) (h : Heap) (hk : kindOfValue c = KindMap) :
    valueAtIndex (reflect.ValueOf none) c h = .error .valueError := by
  unfold valueAtIndex
  simp only [valueAtIndexAux, hk, reflect.ValueOf, Value.Type]

theorem valueAtIndex_nil_token_elsewhere (c : Value) (h : Heap)
    (hk : kindOfValue c = KindString ∨ kindOfValue c = KindStruct ∨
      kindOfValue c = KindArray ∨ kindOfValue c = KindSlice) :
    valueAtIndex (reflect.ValueOf none) c h = .ok ((.zero, false), h) := by
  unfold valueAtIndex
  rcases hk with hk | hk | hk | hk <;>
  · simp only [valueAtIndexAux, hk]
    try rfl

theorem Fill_last_step (pre : List Object) (tok : Object) (s : ValueSource) (value : Value)
    (data : Object) (h : Heap) (c : Value) (h1 : Heap)
    (hpre : Path.FetchValue pre value h = .ok ((c, true), h1)) :
    (∀ e, valueAtIndex (reflect.ValueOf tok) c h1 = .error e →
      ObjectFiller.Fill (.Path (pre ++ [tok])) s value data h = .error e) ∧
    (∀ h2, valueAtIndex (reflect.ValueOf tok) c h1 = .ok ((.zero, false), h2) →
      ObjectFiller.Fill (.Path (pre ++ [tok])) s value data h = .ok ((0, 1), h2)) := by
  constructor
  · intro e he
    have hf : Path.FetchValue (pre ++ [tok]) value h = .error e := by
      rw [Path_FetchValue_append, hpre]
      simp only [Path.FetchValue, he]
    unfold ObjectFiller.Fill
    simp only [ObjectPath.orRoot, ObjectPath.FetchValue, hf]
  · intro h2 he
    have hf : Path.FetchValue (pre ++ [tok]) value h = .ok ((.zero, false), h2) := by
      rw [Path_FetchValue_append, hpre]
      simp [Path.FetchValue, he]
    unfold ObjectFiller.Fill
    simp [ObjectPath.orRoot, ObjectPath.FetchValue, hf]

theorem valueAtIndex_unhashable_key (ct : GoType) (loc : reflect.Loc) (ro : Bool) (h : Heap)
    (K : GoType) (m : Option Nat) (kt : GoType) (kv : Val)
    (hk : ct.kind = KindMap) (hK : ct.Key = some K)
    (hload : Value.load (.mk ct loc ro) h = .ok (.map m))
    (ha : kt.AssignableTo K = true) (hh : (assignVal kt K kv).hashable = false) :
    valueAtIndex (reflect.ValueOf (some (kt, kv))) (.mk ct loc ro) h
      = .error .unhashableKey := by
  obtain ⟨E, hE⟩ := Elem_of_kind ct (Or.inr (Or.inr (Or.inr hk)))
  rw [valueAtIndex_on_map_unfold _ ct loc ro h K hk hK]
  have hM : Value.MapIndex (.mk ct loc ro) (reflect.ValueOf (some (kt, kv))) h
      = .error .unhashableKey := by
    have hkl : Value.load (.mk kt (.imm kv) false) h = .ok kv := rfl
    unfold Value.MapIndex
    simp only [reflect.ValueOf, hk, hK, hE, ha, if_true, hload, hkl, hh, Bool.false_eq_true,
      if_false]
  simp only [reflect.ValueOf, Value.Type, ha, Bool.not_true, Bool.false_eq_true, if_false] at hM ⊢
  rw [hM]

theorem valueAtIndex_on_map_returns (ct : GoType) (loc : reflect.Loc) (ro : Bool) (h : Heap)
    (K : GoType) (m : Option Nat) (es : List (Val × Val)) (kt : GoType) (kv : Val)
    (hk : ct.kind = KindMap) (hK : ct.Key = some K)
    (hload : Value.load (.mk ct loc ro) h = .ok (.map m)) (hes : entriesOf h m = some es)
    (hok : kt.AssignableTo K = false ∨ (assignVal kt K kv).hashable = true) :
    ∃ r, valueAtIndex (reflect.ValueOf (some (kt, kv))) (.mk ct loc ro) h = .ok (r, h) := by
  obtain ⟨E, hE⟩ := Elem_of_kind ct (Or.inr (Or.inr (Or.inr hk)))
  rw [valueAtIndex_on_map_unfold _ ct loc ro h K hk hK]
  simp only [reflect.ValueOf, Value.Type]
  by_cases ha : kt.AssignableTo K = true
  · have hh : (assignVal kt K kv).hashable = true := by
      rcases hok with hn | hh
      · rw [ha] at hn; cases hn
      · exact hh
    rw [MapIndex_eq ct loc ro kt (.imm kv) false h K E m es kv hk hK hE hload hes ha rfl hh]
    simp only [ha, Bool.not_true, Bool.false_eq_true, if_false]
    cases lookupKey (assignVal kt K kv) es with
    | none => exact ⟨_, rfl⟩
    | some x => exact ⟨_, rfl⟩
  · simp only [Bool.not_eq_true] at ha
    simp only [ha, Bool.not_false, if_true]
    exact ⟨_, rfl⟩

/-- C20 (the code departs from the claim): on the struct variable whose field
`M` is a `map[string]int`, the destination "M", nil ends in a map lookup, and
`Fill` panics for every value source and every data instead of returning
(0,1).  In general, when the path before the last token resolves to a map, a
nil last token makes `Fill` panic, because the map branch of `valueAtIndex` asks
the zero `reflect.Value` for its type (types.go:326); on a string, a struct, an
array or a slice the same token gives failure and `Fill` returns (0,1).  A key
whose type fits but which cannot be hashed makes `Fill` panic inside the
lookup.  For every other token on a map, and whenever the last step returns on
a map or string reached through pointers, the claim holds: the result is not
settable, `Fill` returns (0,1) without writing, and a last step on the map or
string itself leaves the heap as it was, also when the key is present and the
candidate's type matches. -/
theorem Fill_into_map_panics_on_nil_token :
    (∀ (s : ValueSource) (data : Object),
      ObjectFiller.Fill (.Path [some (.string, .string "M"), none]) s
          (.mk (.struct (.cons "M" true (.map .string .int) .nil)) (.ref ⟨0, []⟩) false) data
          ⟨[.var (.struct [.map (some 1)]), .map [(.string "k", .int 3)]]⟩
        = .error .valueError) ∧
    (∀ (pre : List Object) (s : ValueSource) (value : Value) (data : Object) (h : Heap)
        (c : Value) (h1 : Heap),
      Path.FetchValue pre value h = .ok ((c, true), h1) →
      (kindOfValue c = KindMap →
        ObjectFiller.Fill (.Path (pre ++ [none])) s value data h = .error .valueError) ∧
      (kindOfValue c = KindString ∨ kindOfValue c = KindStruct ∨
          kindOfValue c = KindArray ∨ kindOfValue c = KindSlice →
        ObjectFiller.Fill (.Path (pre ++ [none])) s value data h = .ok ((0, 1), h1)) ∧
      (∀ (tok : Object), derefKindOf c = KindMap ∨ derefKindOf c = KindString →
        ∀ (r : Value × Bool) (h2 : Heap),
          valueAtIndex (reflect.ValueOf tok) c h1 = .ok (r, h2) →
            (r.2 = true → r.1.CanSet = false) ∧
            ObjectFiller.Fill (.Path (pre ++ [tok])) s value data h = .ok ((0, 1), h2) ∧
            (kindOfValue c = KindMap ∨ kindOfValue c = KindString → h2 = h1)) ∧
      (∀ (ct : GoType) (loc : reflect.Loc) (ro : Bool) (K : GoType) (m : Option Nat)
          (es : List (Val × Val)) (kt : GoType) (kv : Val),
        c = .mk ct loc ro → ct.kind = KindMap → ct.Key = some K →
        Value.load (.mk ct loc ro) h1 = .ok (.map m) → entriesOf h1 m = some es →
        (kt.AssignableTo K = false ∨ (assignVal kt K kv).hashable = true →
          ObjectFiller.Fill (.Path (pre ++ [some (kt, kv)])) s value data h
            = .ok ((0, 1), h1)) ∧
        (kt.AssignableTo K = true → (assignVal kt K kv).hashable = false →
          ObjectFiller.Fill (.Path (pre ++ [some (kt, kv)])) s value data h
            = .error .unhashableKey))) ∧
    ObjectFiller.Fill (.Path [some (.string, .string "M"), some (.string, .string "k")])
        (.DefaultValue (some (.int, .int 5)))
        (.mk (.struct (.cons "M" true (.map .string .int) .nil)) (.ref ⟨0, []⟩) false)
        none ⟨[.var (.struct [.map (some 1)]), .map [(.string "k", .int 3)]]⟩
      = .ok ((0, 1), ⟨[.var (.struct [.map (some 1)]), .map [(.string "k", .int 3)]]⟩) := by
  have gen : ∀ (pre : List Object) (s : ValueSource) (value : Value) (data : Object)
      (h : Heap) (c : Value) (h1 : Heap),
      Path.FetchValue pre value h = .ok ((c, true), h1) → kindOfValue c = KindMap →
      ObjectFiller.Fill (.Path (pre ++ [none])) s value data h = .error .valueError :=
    fun pre s value data h c h1 hpre hk =>
      (Fill_last_step pre none s value data h c h1 hpre).1 _
        (valueAtIndex_nil_token_on_map c h1 hk)
  refine ⟨fun s data => ?_, fun pre s value data h c h1 hpre => ⟨gen pre s value data h c h1 hpre,
    fun hk => ?_, fun tok hk => Fill_after_map_or_string_step pre tok s value data h c h1 hpre hk,
    ?_⟩, rfl⟩
  · exact gen [some (.string, .string "M")] s _ data _
      (.mk (.map .string .int) (.ref ⟨0, [0]⟩) false) _ rfl rfl
  · exact (Fill_last_step pre none s value data h c h1 hpre).2 h1
      (valueAtIndex_nil_token_elsewhere c h1 hk)
  · rintro ct loc ro K m es kt kv rfl hk hK hload hes
    constructor
    · intro hok
      obtain ⟨r, hr⟩ := valueAtIndex_on_map_returns ct loc ro h1 K m es kt kv hk hK hload hes hok
      have hd : derefKindOf (.mk ct loc ro) = KindMap := by
        simp only [derefKindOf]
        rw [derefKind_eq_kind ct (by rw [hk]; decide), hk]
      exact (Fill_after_map_or_string_step pre (some (kt, kv)) s value data h _ h1 hpre
        (Or.inl hd) r h1 hr).2.1
    · intro ha hh
      exact (Fill_last_step pre (some (kt, kv)) s value data h _ h1 hpre).1 _
        (valueAtIndex_unhashable_key ct loc ro h1 K m kt kv hk hK hload ha hh)

end GoDescriptor
